import Mathlib

/-!
# fileuploader: a verification development

Shallow embedding of the core of `ebinskryfon/fileuploader` (Go):

* `models`     : `AppError`, `FileMetadata` and the error values of `models/errors.go`;
* `filepath`, `strings` : the Unix variants of the Go library functions the code calls
  (`filepath.Clean`, `Join`, `Rel`, `Base`, `strings.ReplaceAll`, `HasPrefix`, ...);
* `utils`      : `SanitizeFileName`, `IsAllowedPath` (`utils/security.go`);
* `storage`    : `StorageInterface` and `LocalStorage` (`storage/local.go`) over an
  abstract operating-system interface;
* `services`   : `UploadService.GetFile`, `ValidationService` (`internal/services`);
* `handlers`   : the body of `RateLimitMiddleware` as a step function on the limiter map.

Go strings are modelled by Lean strings (the separators and dots the path functions look
at are ASCII, so working on characters instead of bytes makes no difference on UTF-8 text),
byte slices by `List Nat`, `int`/`int64` by `Int`, `time.Time` by `Int` nanoseconds.
Logger calls only write to the log and are left out.
-/

namespace Fileuploader

/-! ## models -/

namespace models

/-- `models.AppError`; the wrapped `error` is kept as its message. -/
structure AppError where
  Code : Int
  Message : String
  Err : Option String
deriving DecidableEq, Repr

def NewAppError (code : Int) (message : String) (err : Option String) : AppError :=
  { Code := code, Message := message, Err := err }

def ErrUnauthorized : AppError := NewAppError 401 "Unauthorized" none
def ErrInvalidFileType : AppError := NewAppError 400 "Invalid file type" none
def ErrFileTooLarge : AppError := NewAppError 400 "File too large" none
def ErrFileNotFound : AppError := NewAppError 404 "File not found" none
def ErrInternalServer : AppError := NewAppError 500 "Internal server error" none
def ErrBadRequest : AppError := NewAppError 400 "Bad request" none
def ErrRateLimitExceeded : AppError := NewAppError 429 "Rate limit exceeded" none

/-- `models.FileMetadata`. -/
structure FileMetadata where
  ID : String
  OriginalName : String
  Size : Int
  ContentType : String
  UploadTime : Int
  URL : String
  Checksum : String
  UserID : String
deriving DecidableEq, Repr

/-- The Go zero value `models.FileMetadata{}`. -/
def FileMetadata.zero : FileMetadata :=
  { ID := "", OriginalName := "", Size := 0, ContentType := "", UploadTime := 0,
    URL := "", Checksum := "", UserID := "" }

end models

open models

/-! ## Go library functions used by the code (Unix variants) -/

namespace strings

/-- `strings.HasPrefix`. -/
def HasPrefix (s pre : String) : Bool := pre.data.isPrefixOf s.data

/-- `strings.HasSuffix`. -/
def HasSuffix (s suf : String) : Bool := suf.data.isSuffixOf s.data

/-- The replacement loop of `strings.Replace(s, old, new, -1)` for a non-empty `old`:
the leftmost occurrence is replaced and the search resumes right after it
(occurrences do not overlap). One unit of fuel per character of `s` is enough. -/
def replaceLoop (old new : List Char) : Nat → List Char → List Char
  | 0, s => s
  | _ + 1, [] => []
  | fuel + 1, c :: s =>
    if old.isPrefixOf (c :: s) then new ++ replaceLoop old new fuel ((c :: s).drop old.length)
    else c :: replaceLoop old new fuel s

/-- `strings.ReplaceAll(s, old, new)`; an empty `old` matches before every character and
at the end. -/
def ReplaceAll (s old new : String) : String :=
  if old.data = [] then ⟨new.data ++ s.data.flatMap (fun c => c :: new.data)⟩
  else ⟨replaceLoop old.data new.data s.data.length s.data⟩

end strings

namespace filepath

/-- `os.IsPathSeparator` on Unix. -/
def IsPathSeparator (c : Char) : Bool := c == '/'

/-- The `..` branch of `Clean`: `out.w--` followed by
`for out.w > dotdot && !os.IsPathSeparator(out.index(out.w)) { out.w-- }`.
The buffer is kept last byte first, so `out.w` is its length and the byte at index
`out.w - 1` is its head; the result is the truncated buffer. -/
def backtrack (dotdot : Nat) : List Char → List Char
  | [] => []
  | c :: out => if out.length > dotdot && !IsPathSeparator c then backtrack dotdot out else out

/-- The main loop `for r < n { switch ... }` of `filepath.Clean`. `path` is the unread
input `path[r:]`, `out` the bytes written so far (last byte first), `dotdot` the index
where `..` must stop. Every iteration consumes input, so `len(path)` units of fuel are
enough. -/
def cleanLoop (rooted : Bool) : Nat → List Char → List Char → Nat → List Char
  | 0, _, out, _ => out
  | _ + 1, [], out, _ => out
  | fuel + 1, c :: rest, out, dotdot =>
    if IsPathSeparator c then
      -- empty path element
      cleanLoop rooted fuel rest out dotdot
    else if c == '.' && (rest.isEmpty || IsPathSeparator (rest.headD '/')) then
      -- . element
      cleanLoop rooted fuel rest out dotdot
    else if c == '.' && rest.headD '/' == '.' &&
        (rest.tail.isEmpty || IsPathSeparator (rest.tail.headD '/')) then
      -- .. element: remove to last separator
      if out.length > dotdot then
        -- can backtrack
        cleanLoop rooted fuel rest.tail (backtrack dotdot out) dotdot
      else if !rooted then
        -- cannot backtrack, but not rooted, so append .. element.
        let out1 := if out.length > 0 then '/' :: out else out
        cleanLoop rooted fuel rest.tail ('.' :: '.' :: out1) (out1.length + 2)
      else
        cleanLoop rooted fuel rest.tail out dotdot
    else
      -- real path element: add slash if needed, copy element
      let out1 :=
        if (rooted && out.length != 1) || (!rooted && out.length != 0) then '/' :: out else out
      let elem := (c :: rest).takeWhile (fun x => !IsPathSeparator x)
      cleanLoop rooted fuel ((c :: rest).dropWhile (fun x => !IsPathSeparator x))
        (elem.reverse ++ out1) dotdot

/-- `filepath.Clean` on the bytes of the path (no volume names on Unix). -/
def cleanChars (path : List Char) : List Char :=
  if path.isEmpty then ['.']
  else
    let rooted := IsPathSeparator (path.headD '.')
    let out :=
      if rooted then cleanLoop rooted path.length path.tail ['/'] 1
      else cleanLoop rooted path.length path [] 0
    -- Turn empty string into "."
    if out.length == 0 then ['.'] else out.reverse

/-- `filepath.Clean`. -/
def Clean (path : String) : String := ⟨cleanChars path.data⟩

/-- `filepath.Join` (Unix `join`): the first empty elements are skipped, the rest is
joined with the separator and cleaned. -/
def Join : List String → String
  | [] => ""
  | e :: rest => if e ≠ "" then Clean (String.intercalate "/" (e :: rest)) else Join rest

/-- `filepath.Base`. -/
def baseChars (path : List Char) : List Char :=
  if path.isEmpty then ['.']
  else
    -- Strip trailing slashes.
    let stripped := path.reverse.dropWhile IsPathSeparator
    -- Find the last element
    let last := stripped.takeWhile (fun x => !IsPathSeparator x)
    -- If empty now, it had only slashes.
    if last.isEmpty then ['/'] else last.reverse

/-- `filepath.Base`. -/
def Base (path : String) : String := ⟨baseChars path.data⟩

/-- State of the element-matching loop of `filepath.Rel` when it stops:
`baseRest = base[b0:bl]`, `targRest = targ[t0:tl]` and `baseWord = base[b0:bi]`, which is
the differing element of the base when the loop stops at one, and empty otherwise
(then `b0 = bi`). -/
structure RelPos where
  baseRest : List Char
  targRest : List Char
  baseWord : List Char
deriving DecidableEq, Repr

/-- The loop of `filepath.Rel` that positions `base[b0:bi]` and `targ[t0:ti]` at the first
differing elements. `base` and `targ` are the unread parts `base[bi:]` and `targ[ti:]`
(at the top of the loop `b0 = bi` and `t0 = ti`). Every iteration consumes a byte of
`base`, so `len(base)` units of fuel are enough. -/
def relLoop : Nat → List Char → List Char → RelPos
  | 0, base, targ => ⟨base, targ, []⟩
  | fuel + 1, base, targ =>
    if base.isEmpty || targ.isEmpty then ⟨base, targ, []⟩
    else
      let bw := base.takeWhile (fun x => !IsPathSeparator x)
      let tw := targ.takeWhile (fun x => !IsPathSeparator x)
      if tw ≠ bw then ⟨base, targ, bw⟩
      else
        relLoop fuel ((base.dropWhile (fun x => !IsPathSeparator x)).drop 1)
          ((targ.dropWhile (fun x => !IsPathSeparator x)).drop 1)

/-- `filepath.Rel` on bytes; `none` is the error return. -/
def relChars (basepath targpath : List Char) : Option (List Char) :=
  let base := cleanChars basepath
  let targ := cleanChars targpath
  if targ = base then some ['.']
  else
    let base := if base = ['.'] then [] else base
    -- Can't use IsAbs - `\a` and `a` are both relative in Windows.
    let baseSlashed := !base.isEmpty && base.headD '.' == '/'
    let targSlashed := !targ.isEmpty && targ.headD '.' == '/'
    if baseSlashed != targSlashed then none
    else
      let pos := relLoop base.length base targ
      if pos.baseWord = ['.', '.'] then none
      else if !pos.baseRest.isEmpty then
        -- Base elements left. Must go up before going down.
        let seps := pos.baseRest.count '/'
        let up := ['.', '.'] ++ (List.replicate seps ['/', '.', '.']).flatten
        if !pos.targRest.isEmpty then some (up ++ '/' :: pos.targRest) else some up
      else some pos.targRest

/-- `filepath.Rel`. -/
def Rel (basepath targpath : String) : Except String String :=
  match relChars basepath.data targpath.data with
  | none => .error ("Rel: can't make " ++ targpath ++ " relative to " ++ basepath)
  | some rel => .ok ⟨rel⟩

end filepath

namespace utils

/-- `utils.SanitizeFileName` (`utils/security.go`). -/
def SanitizeFileName (fileName : String) : String :=
  -- Remove path components and dangerous characters
  let fileName := filepath.Base fileName
  let fileName := strings.ReplaceAll fileName ".." ""
  let fileName := strings.ReplaceAll fileName "/" ""
  let fileName := strings.ReplaceAll fileName "\\" ""
  fileName

/-- `utils.IsAllowedPath` (`utils/security.go`). -/
def IsAllowedPath (basePath filePath : String) : Bool :=
  -- Ensure the file path is within the base path
  let cleanBase := filepath.Clean basePath
  let cleanFile := filepath.Clean filePath
  match filepath.Rel cleanBase cleanFile with
  | .error _ => false
  | .ok rel => !strings.HasPrefix rel ("../") && rel != ".."

end utils
/-! ### Lexical containment (the vocabulary of the path-safety statements) -/

namespace filepath

/-- An ordinary path element: non-empty, without a separator, and neither `.` nor `..`. -/
def PlainName (n : List Char) : Prop := n ≠ [] ∧ '/' ∉ n ∧ n ≠ ['.'] ∧ n ≠ ['.', '.']

/-- The text `/n₁/n₂/…/nₖ` for the elements `n₁, …, nₖ`. -/
def below (ns : List (List Char)) : List Char := ns.flatMap (fun n => '/' :: n)

/-- The path `path` is a descendant of the cleaned directory `base`: it is `base`
followed by one or more ordinary elements (for the base `.` the relative path made of
these elements, for the base `/` the rooted one). -/
def Descendant (base path : String) : Prop :=
  ∃ ns : List (List Char), ns ≠ [] ∧ (∀ n ∈ ns, PlainName n) ∧
    path.data =
      if base = "." then (below ns).drop 1
      else if base = "/" then below ns
      else base.data ++ below ns

/-- The path `path` is lexically contained in the cleaned directory `base`: it is `base`
itself or a descendant of it. -/
def Inside (base path : String) : Prop := path = base ∨ Descendant base path

end filepath

/-! ### Vocabulary for the proofs about `filepath.Clean` and `filepath.Rel` -/

namespace filepath

/-- The elements `..`, `k` times. -/
def dotdots (k : Nat) : List (List Char) := List.replicate k ['.', '.']

/-- The text of a path from its elements: `/e₁/…/eₙ` when rooted, `e₁/…/eₙ` otherwise. -/
def render (rooted : Bool) (es : List (List Char)) : List Char :=
  (if rooted then ['/'] else []) ++ (below es).drop 1

/-- The states the buffer of `Clean` goes through: `out` (last byte first) is the text of
`k` elements `..` followed by ordinary elements (`st`, last element first), with no `..`
when rooted, and `dotdot` is the length of the text of the `..` elements. -/
def CleanBuf (rooted : Bool) (out : List Char) (dotdot : Nat) : Prop :=
  ∃ (k : Nat) (st : List (List Char)), (∀ n ∈ st, PlainName n) ∧ (rooted = true → k = 0) ∧
    out = (render rooted (dotdots k ++ st.reverse)).reverse ∧
    dotdot = (render rooted (dotdots k)).length

/-- The outputs of `Clean`: `.`, or the text of `k` elements `..` followed by the ordinary
elements `ns`, with no `..` when rooted. -/
def CleanForm (p : List Char) : Prop :=
  ∃ (rooted : Bool) (k : Nat) (ns : List (List Char)),
    (∀ n ∈ ns, PlainName n) ∧ (rooted = true → k = 0) ∧
    p = if rooted = false ∧ k = 0 ∧ ns = [] then ['.'] else render rooted (dotdots k ++ ns)

end filepath

/-! ## storage.StorageInterface -/

namespace storage

/-- `storage.StorageInterface`: the five methods, as state-passing functions on a storage
state `σ`; `ρ` is the type of the returned `io.ReadCloser`. Errors are `Option String`
(`none` is Go's `nil`). -/
structure StorageInterface (σ ρ : Type) where
  Store : String → List Nat → FileMetadata → σ → Option String × σ
  Retrieve : String → σ → (Option ρ × FileMetadata × Option String) × σ
  Delete : String → σ → Option String × σ
  Exists : String → σ → Bool × σ
  GetMetadata : String → σ → (FileMetadata × Option String) × σ

/-- One call of a `StorageInterface` method, for call logs. -/
inductive StorageCall where
  | store (fileID : String)
  | retrieve (fileID : String)
  | delete (fileID : String)
  | exists_ (fileID : String)
  | getMetadata (fileID : String)
deriving DecidableEq, Repr

end storage

open storage

/-! ## storage.LocalStorage -/

namespace os

/-- An `error` of the `os` package, reduced to what the code looks at: its text and
whether `os.IsNotExist` holds of it. -/
structure PathError where
  msg : String
  notExist : Bool
deriving DecidableEq, Repr

/-- `os.IsNotExist(err)`; `none` is the `nil` error. -/
def IsNotExist (err : Option PathError) : Bool :=
  match err with
  | some e => e.notExist
  | none => false

/-- The text `%v` prints for an error. -/
def errorText (err : Option PathError) : String :=
  match err with
  | some e => e.msg
  | none => "<nil>"

/-- The operating-system and library calls `storage/local.go` makes, as state-passing
functions on a file-system state `σ`; `F` is the type of open files (`*os.File`).
`Copy f data` is `io.Copy(f, reader)` for a reader delivering `data`, `Encode f m` is
`json.NewEncoder(f).Encode(m)`, `Decode f` is `json.NewDecoder(f).Decode(&metadata)` on
a zero `metadata` (the value left in `metadata`, and the error). -/
structure System (σ F : Type) where
  Create : String → σ → Except String F × σ
  Open : String → σ → Except String F × σ
  Stat : String → σ → Option PathError × σ
  Remove : String → σ → Option PathError × σ
  Close : F → σ → σ
  Copy : F → List Nat → σ → Option String × σ
  Encode : F → FileMetadata → σ → Option String × σ
  Decode : F → σ → (FileMetadata × Option String) × σ

/-- One system call, for call logs. -/
inductive Syscall where
  | create (name : String)
  | openFile (name : String)
  | stat (name : String)
  | remove (name : String)
  | close
  | copy (data : List Nat)
  | encode (metadata : FileMetadata)
  | decode
deriving DecidableEq, Repr

/-- The system `sys` with a log: every call is appended to the log before it runs. -/
def traced {σ F : Type} (sys : System σ F) : System (σ × List Syscall) F where
  Create name s := ((sys.Create name s.1).1, ((sys.Create name s.1).2, s.2 ++ [.create name]))
  Open name s := ((sys.Open name s.1).1, ((sys.Open name s.1).2, s.2 ++ [.openFile name]))
  Stat name s := ((sys.Stat name s.1).1, ((sys.Stat name s.1).2, s.2 ++ [.stat name]))
  Remove name s := ((sys.Remove name s.1).1, ((sys.Remove name s.1).2, s.2 ++ [.remove name]))
  Close f s := (sys.Close f s.1, s.2 ++ [.close])
  Copy f data s := ((sys.Copy f data s.1).1, ((sys.Copy f data s.1).2, s.2 ++ [.copy data]))
  Encode f m s := ((sys.Encode f m s.1).1, ((sys.Encode f m s.1).2, s.2 ++ [.encode m]))
  Decode f s := ((sys.Decode f s.1).1, ((sys.Decode f s.1).2, s.2 ++ [.decode]))

end os

/-! ### An in-memory system, to run the storage code on examples -/

namespace os

/-- What a file of the in-memory system holds: bytes, or a JSON-encoded metadata record
(kept decoded). -/
inductive Node where
  | bytes (data : List Nat)
  | record (metadata : FileMetadata)
deriving DecidableEq, Repr

/-- The in-memory file system: a flat table from names to files. -/
abbrev MemFS := List (String × Node)

def MemFS.lookup (fs : MemFS) (name : String) : Option Node :=
  (fs.find? (fun e => e.1 == name)).map (fun e => e.2)

def MemFS.set (fs : MemFS) (name : String) (node : Node) : MemFS :=
  (name, node) :: fs.filter (fun e => e.1 != name)

/-- The in-memory system: open files are named by their path, nothing fails except
opening, inspecting or removing a missing file and decoding a file that holds no
record. The table holds regular files only: directories are not represented, every
directory a path goes through is taken to be there and writable, and a path that names
a directory on disk (the storage root itself) has no counterpart in the table. -/
def memSystem : System MemFS String where
  Create name fs := (.ok name, fs.set name (.bytes []))
  Open name fs :=
    match fs.lookup name with
    | some _ => (.ok name, fs)
    | none => (.error ("open " ++ name ++ ": no such file or directory"), fs)
  Stat name fs :=
    match fs.lookup name with
    | some _ => (none, fs)
    | none => (some ⟨"stat " ++ name ++ ": no such file or directory", true⟩, fs)
  Remove name fs :=
    match fs.lookup name with
    | some _ => (none, fs.filter (fun e => e.1 != name))
    | none => (some ⟨"remove " ++ name ++ ": no such file or directory", true⟩, fs)
  Close _ fs := fs
  Copy f data fs := (none, fs.set f (.bytes data))
  Encode f m fs := (none, fs.set f (.record m))
  Decode f fs :=
    match fs.lookup f with
    | some (.record m) => ((m, none), fs)
    | _ => ((FileMetadata.zero, some "unexpected end of JSON input"), fs)

end os

namespace storage

/-- `storage.LocalStorage`. -/
structure LocalStorage where
  basePath : String
deriving DecidableEq, Repr

def NewLocalStorage (basePath : String) : LocalStorage := { basePath := basePath }

variable {σ F : Type}

/-- `LocalStorage.Store` (`storage/local.go`). Deferred `Close` calls run when the
function returns, last registered first. -/
def LocalStorage.Store (sys : os.System σ F) (ls : LocalStorage) (fileID : String)
    (reader : List Nat) (metadata : FileMetadata) (s : σ) : Option String × σ :=
  -- Ensure the file path is safe
  let filePath := filepath.Join [ls.basePath, fileID]
  if !utils.IsAllowedPath ls.basePath filePath then
    (some "invalid file path", s)
  else
    -- Create file
    match sys.Create filePath s with
    | (.error err, s1) => (some ("failed to create file: " ++ err), s1)
    | (.ok file, s1) =>
      -- Copy data to file
      match sys.Copy file reader s1 with
      | (some err, s2) => (some ("failed to write file: " ++ err), sys.Close file s2)
      | (none, s2) =>
        -- Store metadata
        let metadataPath := filePath ++ ".meta"
        match sys.Create metadataPath s2 with
        | (.error err, s3) =>
          (some ("failed to create metadata file: " ++ err), sys.Close file s3)
        | (.ok metadataFile, s3) =>
          match sys.Encode metadataFile metadata s3 with
          | (some err, s4) =>
            (some ("failed to write metadata: " ++ err),
              sys.Close file (sys.Close metadataFile s4))
          | (none, s4) => (none, sys.Close file (sys.Close metadataFile s4))

/-- `LocalStorage.GetMetadata` (`storage/local.go`). -/
def LocalStorage.GetMetadata (sys : os.System σ F) (ls : LocalStorage) (fileID : String)
    (s : σ) : (FileMetadata × Option String) × σ :=
  let filePath := filepath.Join [ls.basePath, fileID]
  if !utils.IsAllowedPath ls.basePath filePath then
    ((FileMetadata.zero, some "invalid file path"), s)
  else
    let metadataPath := filePath ++ ".meta"
    match sys.Open metadataPath s with
    | (.error err, s1) =>
      ((FileMetadata.zero, some ("failed to open metadata file: " ++ err)), s1)
    | (.ok metadataFile, s1) =>
      match sys.Decode metadataFile s1 with
      | ((metadata, some err), s2) =>
        ((metadata, some ("failed to decode metadata: " ++ err)), sys.Close metadataFile s2)
      | ((metadata, none), s2) => ((metadata, none), sys.Close metadataFile s2)

/-- `LocalStorage.Retrieve` (`storage/local.go`). The returned file stays open. -/
def LocalStorage.Retrieve (sys : os.System σ F) (ls : LocalStorage) (fileID : String)
    (s : σ) : (Option F × FileMetadata × Option String) × σ :=
  let filePath := filepath.Join [ls.basePath, fileID]
  if !utils.IsAllowedPath ls.basePath filePath then
    ((none, FileMetadata.zero, some "invalid file path"), s)
  else
    -- Load metadata
    match LocalStorage.GetMetadata sys ls fileID s with
    | ((metadata, some err), s1) => ((none, metadata, some err), s1)
    | ((metadata, none), s1) =>
      -- Open file
      match sys.Open filePath s1 with
      | (.error err, s2) => ((none, metadata, some ("failed to open file: " ++ err)), s2)
      | (.ok file, s2) => ((some file, metadata, none), s2)

/-- `LocalStorage.Delete` (`storage/local.go`). -/
def LocalStorage.Delete (sys : os.System σ F) (ls : LocalStorage) (fileID : String)
    (s : σ) : Option String × σ :=
  let filePath := filepath.Join [ls.basePath, fileID]
  if !utils.IsAllowedPath ls.basePath filePath then
    (some "invalid file path", s)
  else
    -- Delete file
    let r1 := sys.Remove filePath s
    if r1.1.isSome && !os.IsNotExist r1.1 then
      (some ("failed to delete file: " ++ os.errorText r1.1), r1.2)
    else
      -- Delete metadata
      let metadataPath := filePath ++ ".meta"
      let r2 := sys.Remove metadataPath r1.2
      if r2.1.isSome && !os.IsNotExist r2.1 then
        (some ("failed to delete metadata: " ++ os.errorText r2.1), r2.2)
      else (none, r2.2)

/-- `LocalStorage.Exists` (`storage/local.go`). -/
def LocalStorage.Exists (sys : os.System σ F) (ls : LocalStorage) (fileID : String)
    (s : σ) : Bool × σ :=
  let filePath := filepath.Join [ls.basePath, fileID]
  if !utils.IsAllowedPath ls.basePath filePath then
    (false, s)
  else
    let r := sys.Stat filePath s
    (!os.IsNotExist r.1, r.2)

/-- `LocalStorage` implements `StorageInterface`. -/
def LocalStorage.toInterface (sys : os.System σ F) (ls : LocalStorage) :
    StorageInterface σ F where
  Store := LocalStorage.Store sys ls
  Retrieve := LocalStorage.Retrieve sys ls
  Delete := LocalStorage.Delete sys ls
  Exists := LocalStorage.Exists sys ls
  GetMetadata := LocalStorage.GetMetadata sys ls

end storage

/-! ## services.UploadService.GetFile -/

namespace services

/-- What `UploadService.GetFile` hands back: `(io.ReadCloser, FileMetadata, *AppError)`. -/
structure GetFileResult (ρ : Type) where
  file : Option ρ
  metadata : FileMetadata
  err : Option AppError

/-- `UploadService.GetFile` (`internal/services/upload.go`), over any storage backend.
Returns the Go result, the storage state afterwards and the storage methods it called,
in order. -/
def UploadService.GetFile {σ ρ : Type} (st : StorageInterface σ ρ) (fileID userID : String)
    (s : σ) : GetFileResult ρ × σ × List StorageCall :=
  match st.Exists fileID s with
  | (false, s1) =>
    (⟨none, FileMetadata.zero, some ErrFileNotFound⟩, s1, [.exists_ fileID])
  | (true, s1) =>
    -- Get metadata first to check ownership
    match st.GetMetadata fileID s1 with
    | ((_, some _), s2) =>
      (⟨none, FileMetadata.zero, some ErrFileNotFound⟩, s2,
        [.exists_ fileID, .getMetadata fileID])
    | ((metadata, none), s2) =>
      -- Check if user owns the file
      if metadata.UserID ≠ userID then
        (⟨none, FileMetadata.zero, some ErrFileNotFound⟩, s2,
          [.exists_ fileID, .getMetadata fileID])
      else
        match st.Retrieve fileID s2 with
        | ((_, _, some _), s3) =>
          (⟨none, FileMetadata.zero, some ErrInternalServer⟩, s3,
            [.exists_ fileID, .getMetadata fileID, .retrieve fileID])
        | ((file, _, none), s3) =>
          (⟨file, metadata, none⟩, s3,
            [.exists_ fileID, .getMetadata fileID, .retrieve fileID])

end services

/-! ## services.ValidationService -/

namespace multipart

/-- The fields of `multipart.FileHeader` the validation reads; `ContentType` is
`header.Header.Get("Content-Type")`. -/
structure FileHeader where
  Filename : String
  Size : Int
  ContentType : String
deriving DecidableEq, Repr

/-- An opened `multipart.File`: its bytes and the read offset. -/
structure File where
  data : List Nat
  off : Nat
deriving DecidableEq, Repr

/-- A freshly opened file. -/
def File.opened (data : List Nat) : File := { data := data, off := 0 }

/-- `file.Read(buffer)` for a buffer of `len` bytes: the bytes read (`n` is their number)
and the error, which is `io.EOF` exactly when nothing is left to read. -/
def File.Read (f : File) (len : Nat) : (List Nat × Option String) × File :=
  let got := (f.data.drop f.off).take len
  if got.isEmpty then (([], some "EOF"), f)
  else ((got, none), { f with off := f.off + got.length })

/-- `file.Seek(0, 0)`. -/
def File.SeekStart (f : File) : File := { f with off := 0 }

end multipart

namespace services

/-- `services.ValidationService`; `allowedTypes` is the `map[string]bool`. -/
structure ValidationService where
  maxFileSize : Int
  allowedTypes : String → Bool

/-- `NewValidationService`, from `cfg.Upload.MaxFileSize` and `cfg.Upload.AllowedTypes`. -/
def NewValidationService (maxFileSize : Int) (allowed : List String) : ValidationService :=
  { maxFileSize := maxFileSize, allowedTypes := fun t => allowed.contains t }

/-- `ValidationService.detectContentTypeFromFilename`; `toLower` is `strings.ToLower`. -/
def ValidationService.detectContentTypeFromFilename (toLower : String → String)
    (filename : String) : String :=
  let ext := toLower filename
  if strings.HasSuffix ext ".jpg" || strings.HasSuffix ext ".jpeg" then "image/jpeg"
  else if strings.HasSuffix ext ".png" then "image/png"
  else if strings.HasSuffix ext ".pdf" then "application/pdf"
  else "application/octet-stream"

/-- `ValidationService.ValidateFile`; `none` is the `nil` error. -/
def ValidationService.ValidateFile (toLower : String → String) (v : ValidationService)
    (header : multipart.FileHeader) : Option AppError :=
  -- Check file size
  if header.Size > v.maxFileSize then some ErrFileTooLarge
  else
    -- Check content type
    let contentType := header.ContentType
    let contentType :=
      if contentType = "" then
        -- Try to detect from filename
        ValidationService.detectContentTypeFromFilename toLower header.Filename
      else contentType
    if !v.allowedTypes contentType then some ErrInvalidFileType
    else none

/-- The `compatibilityMap` literal of `isCompatibleContentType`. -/
def compatibilityMap (declared : String) : Option (List String) :=
  if declared = "image/jpeg" then some ["image/jpg"]
  else if declared = "image/jpg" then some ["image/jpeg"]
  else none

/-- `ValidationService.isCompatibleContentType`. -/
def ValidationService.isCompatibleContentType (declared detected : String) : Bool :=
  -- Exact match
  if declared = detected then true
  else
    -- Handle common variations
    match compatibilityMap declared with
    | some compatible => compatible.any (fun c => c == detected)
    | none => false

/-- `ValidationService.ValidateFileContent`; `detect` is `http.DetectContentType`.
Returns the error (`none` is `nil`) and the file with its new read offset. -/
def ValidationService.ValidateFileContent (detect : List Nat → String)
    (file : multipart.File) (contentType : String) : Option AppError × multipart.File :=
  -- Read first 512 bytes to detect actual content type
  match file.Read 512 with
  | ((buffer, err), file1) =>
    if err.isSome && buffer.length == 0 then
      (some (NewAppError 400 "Cannot read file" err), file1)
    else
      -- Reset file position
      let file2 := file1.SeekStart
      -- Detect content type
      let detectedType := detect buffer
      -- Check if detected type matches or is compatible with declared type
      if !ValidationService.isCompatibleContentType contentType detectedType then
        (some ErrInvalidFileType, file2)
      else (none, file2)

end services

/-! ## services.UploadService.UploadFile -/

namespace utils

/-- One lower-case hexadecimal digit. -/
def hexDigit (n : Nat) : Char :=
  if n < 10 then Char.ofNat (48 + n) else Char.ofNat (87 + n)

/-- `fmt.Sprintf("%x", hash)` for an array of bytes: two digits a byte. -/
def hexEncode (bytes : List Nat) : String :=
  String.mk (bytes.flatMap (fun b => [hexDigit (b / 16), hexDigit (b % 16)]))

/-- `utils.CalculateChecksum`; `sum256` is `sha256.Sum256`. -/
def CalculateChecksum (sum256 : List Nat → List Nat) (data : List Nat) : String :=
  let hash := sum256 data
  hexEncode hash

end utils

namespace multipart

/-- `io.ReadAll(file)`: everything from the read offset to the end. -/
def File.ReadAll (f : File) : List Nat × File :=
  (f.data.drop f.off, { f with off := max f.off f.data.length })

/-- A file part of a multipart form, as the reader of `mime/multipart` found it in the
request body: the `filename` of its Content-Disposition, its Content-Type header and
its bytes. -/
structure Part where
  Filename : String
  ContentType : String
  content : List Nat
deriving DecidableEq, Repr

/-- The `*multipart.FileHeader` the reader builds for a part, which `Request.FormFile`
hands to the handler: `Size` is the number of bytes of the part. -/
def Part.header (p : Part) : FileHeader :=
  { Filename := p.Filename, Size := p.content.length, ContentType := p.ContentType }

/-- `FileHeader.Open()` on the header of a part: a reader of its bytes. -/
def Part.Open (p : Part) : Except String (List Nat) := .ok p.content

end multipart

namespace models

/-- `models.UploadResponse`; `UploadTime` in nanoseconds. -/
structure UploadResponse where
  ID : String
  URL : String
  Size : Int
  ContentType : String
  UploadTime : Int
  Checksum : String
deriving DecidableEq, Repr

end models

namespace os

/-- The bytes a reader of the open file `f` of the in-memory system delivers. -/
def MemFS.read (fs : MemFS) (f : String) : Option (List Nat) :=
  match fs.lookup f with
  | some (.bytes data) => some data
  | _ => none

end os

namespace storage

/-- The file system after a `Store` on the in-memory system, when the path check passes:
the content file holds the data and the sidecar the record. -/
def storedFS (fs : os.MemFS) (p : String) (data : List Nat) (md : FileMetadata) : os.MemFS :=
  (((fs.set p (.bytes [])).set p (.bytes data)).set (p ++ ".meta") (.bytes [])).set
    (p ++ ".meta") (.record md)

end storage

namespace services

/-- What `UploadFile` does with the uploaded part and the storage, for logs of effects;
`read` is the access `ValidateFileContent` makes (`Read`, and `Seek` back to the start). -/
inductive UploadStep where
  | openFile
  | read
  | readAll
  | close
  | store (fileID : String)
deriving DecidableEq, Repr

/-- What `UploadService.UploadFile` hands back: `(*UploadResponse, *AppError)`. -/
structure UploadResult where
  response : Option UploadResponse
  err : Option AppError
deriving DecidableEq, Repr

/-- `UploadService.UploadFile` (`internal/services/upload.go`), over any storage backend.
`opened` is what `fileHeader.Open()` returns (the error, or the bytes of the part),
`uuid` is what `utils.GenerateUUID()` returns and `now` is `time.Now().UTC()`. Returns
the Go result, the storage state afterwards and what was done to the uploaded part and
the storage, in order. Reading an opened part does not fail. -/
def UploadService.UploadFile {σ ρ : Type} (toLower : String → String)
    (detect : List Nat → String) (sum256 : List Nat → List Nat)
    (st : StorageInterface σ ρ) (validation : ValidationService)
    (fileHeader : multipart.FileHeader) (opened : Except String (List Nat))
    (userID uuid : String) (now : Int) (s : σ) : UploadResult × σ × List UploadStep :=
  -- Validate file
  match validation.ValidateFile toLower fileHeader with
  | some err => (⟨none, some err⟩, s, [])
  | none =>
    -- Open file
    match opened with
    | .error err =>
      (⟨none, some (NewAppError 500 "Failed to process file" (some err))⟩, s, [.openFile])
    | .ok content =>
      let file := multipart.File.opened content
      -- Validate file content
      match ValidationService.ValidateFileContent detect file fileHeader.ContentType with
      | (some validationErr, _) =>
        (⟨none, some validationErr⟩, s, [.openFile, .read, .close])
      | (none, file) =>
        -- Read file content for checksum calculation
        let fileContent := file.ReadAll.1
        -- Generate file ID and metadata
        let fileID := uuid
        let checksum := utils.CalculateChecksum sum256 fileContent
        let metadata : FileMetadata :=
          { ID := fileID,
            OriginalName := utils.SanitizeFileName fileHeader.Filename,
            Size := fileHeader.Size,
            ContentType := fileHeader.ContentType,
            UploadTime := now,
            URL := "/files/" ++ fileID,
            Checksum := checksum,
            UserID := userID }
        -- Store file
        match st.Store fileID fileContent metadata s with
        | (some err, s1) =>
          (⟨none, some (NewAppError 500 "Failed to store file" (some err))⟩, s1,
            [.openFile, .read, .readAll, .store fileID, .close])
        | (none, s1) =>
          (⟨some { ID := fileID,
                   URL := metadata.URL,
                   Size := metadata.Size,
                   ContentType := metadata.ContentType,
                   UploadTime := metadata.UploadTime,
                   Checksum := checksum }, none⟩, s1,
            [.openFile, .read, .readAll, .store fileID, .close])

end services

namespace storage

/-- One call of `Store` or of `Delete`. -/
inductive StorageOp where
  | store (fileID : String) (reader : List Nat) (metadata : FileMetadata)
  | delete (fileID : String)
deriving DecidableEq, Repr

/-- The identifier a call is made with. -/
def StorageOp.fileID : StorageOp → String
  | .store fileID _ _ => fileID
  | .delete fileID => fileID

/-- The call `op` on the local storage `ls`: its error and the state afterwards. -/
def LocalStorage.call {σ F : Type} (sys : os.System σ F) (ls : LocalStorage)
    (op : StorageOp) (s : σ) : Option String × σ :=
  match op with
  | .store fileID reader metadata => LocalStorage.Store sys ls fileID reader metadata s
  | .delete fileID => LocalStorage.Delete sys ls fileID s

/-- The calls `ops` one after the other: the errors they return and the final state. -/
def LocalStorage.calls {σ F : Type} (sys : os.System σ F) (ls : LocalStorage) :
    List StorageOp → σ → List (Option String) × σ
  | [], s => ([], s)
  | op :: ops, s =>
    let r := LocalStorage.call sys ls op s
    let rest := LocalStorage.calls sys ls ops r.2
    (r.1 :: rest.1, rest.2)

/-- The content artifact of `fileID` is in the in-memory file system. -/
def contentExists (ls : LocalStorage) (fs : os.MemFS) (fileID : String) : Bool :=
  (fs.lookup (filepath.Join [ls.basePath, fileID])).isSome

/-- The metadata artifact of `fileID`, named `fileID.meta`, is in the in-memory file
system. -/
def metadataExists (ls : LocalStorage) (fs : os.MemFS) (fileID : String) : Bool :=
  (fs.lookup (filepath.Join [ls.basePath, fileID] ++ ".meta")).isSome

/-- The identifier is a plain file name (not empty, without a separator, neither `.` nor
`..`), so that its content artifact is a file directly in the storage root, and its
content path does not end in `.meta`. -/
def plainSlot (ls : LocalStorage) (fileID : String) : Bool :=
  fileID != "" && !fileID.data.contains '/' && fileID != "." && fileID != ".." &&
    !strings.HasSuffix (filepath.Join [ls.basePath, fileID]) ".meta"

/-- The invariant behind co-location: of every name that does not end in `.meta`, the
file and its sidecar are both in the table or both missing. -/
def Colocated (fs : os.MemFS) : Prop :=
  ∀ p : String, strings.HasSuffix p ".meta" = false →
    ((fs.lookup p).isSome = (fs.lookup (p ++ ".meta")).isSome)

end storage

/-! ## services.AuthService

The JSON Web Token library (`github.com/golang-jwt/jwt/v5`) and `crypto/hmac` are
modelled as far as `services/auth.go` calls them. The hash functions and the encoding
of the three segments of a token (base64url over JSON) are parameters. -/

namespace strings

/-- The loop of `strings.Split(s, sep)` for a non-empty `sep`: `skip` characters of a
separator found are still to be passed over, `cur` is the piece read so far,
reversed. -/
def splitAux (sep : List Char) : List Char → Nat → List Char → List (List Char)
  | [], _, cur => [cur.reverse]
  | _ :: s, skip + 1, cur => splitAux sep s skip cur
  | c :: s, 0, cur =>
    if sep.isPrefixOf (c :: s) then cur.reverse :: splitAux sep s (sep.length - 1) []
    else splitAux sep s 0 (c :: cur)

/-- `strings.Split(s, sep)`; an empty `sep` splits after each character. -/
def Split (s sep : String) : List String :=
  if sep = "" then s.data.map (fun c => String.mk [c])
  else (splitAux sep.data s.data 0 []).map String.mk

/-- The UTF-8 bytes of a character. -/
def utf8 (c : Char) : List Nat :=
  let n := c.toNat
  if n < 128 then [n]
  else if n < 2048 then [192 + n / 64, 128 + n % 64]
  else if n < 65536 then [224 + n / 4096, 128 + n / 64 % 64, 128 + n % 64]
  else [240 + n / 262144, 128 + n / 4096 % 64, 128 + n / 64 % 64, 128 + n % 64]

/-- The conversion `[]byte(s)`. -/
def bytes (s : String) : List Nat := s.data.flatMap utf8

end strings

namespace hmac

/-- `hmac.New(h, key)` followed by `Write(msg)` and `Sum(nil)` (`crypto/hmac`, RFC 2104):
`sum` is the hash function and `blockSize` its block size in bytes. A key longer than a
block is hashed first, a shorter one is filled up with zero bytes. -/
def Sum (sum : List Nat → List Nat) (blockSize : Nat) (key msg : List Nat) : List Nat :=
  let key := if key.length > blockSize then sum key else key
  let padded := key ++ List.replicate (blockSize - key.length) 0
  let ipad := padded.map (fun b => b ^^^ 0x36)
  let opad := padded.map (fun b => b ^^^ 0x5c)
  sum (opad ++ sum (ipad ++ msg))

/-- The key as `hmac.New(h, key)` prepares it: a key longer than a block is hashed, and the
key is filled up with zero bytes to the block size. `Sum` uses the key only through
this. -/
def blockKey (sum : List Nat → List Nat) (blockSize : Nat) (key : List Nat) : List Nat :=
  let key := if key.length > blockSize then sum key else key
  key ++ List.replicate (blockSize - key.length) 0

end hmac

namespace services

/-- `services.Claims`: `UserID` and, of the embedded `jwt.RegisteredClaims`, the dates the
library looks at. A `*jwt.NumericDate` is a time in whole seconds (`jwt.TimePrecision`),
kept as the number of seconds; `none` is `nil`. -/
structure Claims where
  UserID : String
  ExpiresAt : Option Int
  NotBefore : Option Int
  IssuedAt : Option Int
deriving DecidableEq, Repr

end services

namespace jwt

open services

/-- `time.Second`, in nanoseconds. -/
def Second : Int := 1000000000

/-- `jwt.NewNumericDate(t)`: the time `t` (nanoseconds) cut down to whole seconds. -/
def NewNumericDate (t : Int) : Int := t / Second

/-- The time of a numeric date, in nanoseconds. -/
def NumericDate.Time (d : Int) : Int := d * Second

/-- The hash functions behind the HMAC signing methods. -/
structure Hashes where
  sha256 : List Nat → List Nat
  sha384 : List Nat → List Nat
  sha512 : List Nat → List Nat

/-- The encoding of the segments of a token: `encodeHeader alg` is the base64url text of
the JSON header with that `alg` (and `typ` `JWT`), `decodeHeader` gives back the `alg`
of a segment (`none`: not a header with a string `alg`); likewise for the claims and for
the signature bytes. -/
structure Codec where
  encodeHeader : String → String
  decodeHeader : String → Option String
  encodeClaims : Claims → String
  decodeClaims : String → Option Claims
  encodeSignature : List Nat → String
  decodeSignature : String → Option (List Nat)

/-- What base64url over JSON gives: decoding undoes encoding, and no segment contains
a dot. -/
structure Codec.Lawful (c : Codec) : Prop where
  header : ∀ alg, c.decodeHeader (c.encodeHeader alg) = some alg
  claims : ∀ x, c.decodeClaims (c.encodeClaims x) = some x
  signature : ∀ sig, c.decodeSignature (c.encodeSignature sig) = some sig
  header_dot : ∀ alg, '.' ∉ (c.encodeHeader alg).data
  claims_dot : ∀ x, '.' ∉ (c.encodeClaims x).data
  signature_dot : ∀ sig, '.' ∉ (c.encodeSignature sig).data

/-- The registered signing methods: the three of `*jwt.SigningMethodHMAC`, and the
others by name. -/
inductive SigningMethod where
  | HS256
  | HS384
  | HS512
  | other (alg : String)
deriving DecidableEq, Repr

/-- `SigningMethod.Alg()`. -/
def SigningMethod.Alg : SigningMethod → String
  | .HS256 => "HS256"
  | .HS384 => "HS384"
  | .HS512 => "HS512"
  | .other alg => alg

/-- `jwt.GetSigningMethod(alg)`; `none` is `nil`. -/
def GetSigningMethod (alg : String) : Option SigningMethod :=
  if alg = "HS256" then some .HS256
  else if alg = "HS384" then some .HS384
  else if alg = "HS512" then some .HS512
  else if ["RS256", "RS384", "RS512", "ES256", "ES384", "ES512", "PS256", "PS384",
      "PS512", "EdDSA", "none"].contains alg then some (.other alg)
  else none

/-- The type assertion `token.Method.(*jwt.SigningMethodHMAC)` succeeds. -/
def SigningMethod.isHMAC : SigningMethod → Bool
  | .other _ => false
  | _ => true

/-- `SigningMethod.Sign(signingString, key)` for a `[]byte` key, which only the HMAC
methods take. -/
def SigningMethod.Sign (h : Hashes) (m : SigningMethod) (signingString : String)
    (key : List Nat) : Except String (List Nat) :=
  match m with
  | .HS256 => .ok (hmac.Sum h.sha256 64 key (strings.bytes signingString))
  | .HS384 => .ok (hmac.Sum h.sha384 128 key (strings.bytes signingString))
  | .HS512 => .ok (hmac.Sum h.sha512 128 key (strings.bytes signingString))
  | .other _ => .error "key is of invalid type"

/-- `SigningMethod.Verify(signingString, sig, key)` for a `[]byte` key: the signature is
made again and compared; `none` is the `nil` error. -/
def SigningMethod.Verify (h : Hashes) (m : SigningMethod) (signingString : String)
    (sig key : List Nat) : Option String :=
  match m.Sign h signingString key with
  | .error err => some err
  | .ok expected => if sig = expected then none else some "signature is invalid"

/-- The text that is signed: header segment, dot, claims segment. -/
def SigningString (c : Codec) (m : SigningMethod) (claims : Claims) : String :=
  c.encodeHeader m.Alg ++ "." ++ c.encodeClaims claims

/-- `jwt.NewWithClaims(method, claims).SignedString(key)`. -/
def SignedString (c : Codec) (h : Hashes) (m : SigningMethod) (claims : Claims)
    (key : List Nat) : Except String String :=
  let sstr := SigningString c m claims
  match m.Sign h sstr key with
  | .error err => .error err
  | .ok sig => .ok (sstr ++ "." ++ c.encodeSignature sig)

/-- `jwt.Token`, as far as it is looked at. -/
structure Token where
  Method : SigningMethod
  Claims : Claims
  Valid : Bool
deriving DecidableEq, Repr

/-- `Validator.Validate(claims)` with the default options, at the time `now`
(nanoseconds): a token with an `exp` is good only while `now` is before it, one with an
`nbf` only from then on; `iat` is not looked at. `none` is the `nil` error. -/
def Validate (now : Int) (claims : Claims) : Option String :=
  let expired :=
    match claims.ExpiresAt with
    | some exp => !decide (now < NumericDate.Time exp)
    | none => false
  let early :=
    match claims.NotBefore with
    | some nbf => decide (now < NumericDate.Time nbf)
    | none => false
  if expired then some "token has invalid claims: token is expired"
  else if early then some "token has invalid claims: token is not valid yet"
  else none

/-- `jwt.ParseWithClaims(tokenString, &Claims{}, keyFunc)` at the time `now`: split in
three, decode header and claims, look up the method, ask `keyFunc` for the key, check
the signature, then the dates. -/
def ParseWithClaims (c : Codec) (h : Hashes) (now : Int) (tokenString : String)
    (keyFunc : Token → Except String (List Nat)) : Except String Token :=
  match strings.Split tokenString "." with
  | [p0, p1, p2] =>
    match c.decodeHeader p0 with
    | none => .error "token is malformed: could not decode header"
    | some alg =>
      match c.decodeClaims p1 with
      | none => .error "token is malformed: could not decode claim"
      | some claims =>
        match GetSigningMethod alg with
        | none => .error "token is unverifiable: signing method (alg) is unavailable"
        | some method =>
          let token : Token := { Method := method, Claims := claims, Valid := false }
          match keyFunc token with
          | .error err =>
            .error ("token is unverifiable: error while executing keyfunc: " ++ err)
          | .ok key =>
            match c.decodeSignature p2 with
            | none => .error "token is malformed: could not base64 decode signature"
            | some sig =>
              match method.Verify h (p0 ++ "." ++ p1) sig key with
              | some err => .error ("token signature is invalid: " ++ err)
              | none =>
                match Validate now claims with
                | some err => .error err
                | none => .ok { token with Valid := true }
  | _ => .error "token is malformed: token contains an invalid number of segments"

/-- A token string the parser cannot take apart: not three segments, or a segment that
does not decode. -/
def Malformed (c : Codec) (tokenString : String) : Prop :=
  match strings.Split tokenString "." with
  | [p0, p1, p2] =>
    c.decodeHeader p0 = none ∨ c.decodeClaims p1 = none ∨ c.decodeSignature p2 = none
  | _ => True

end jwt

namespace services

/-- `services.AuthService`: `secret` is `[]byte(cfg.Auth.JWTSecret)`, `expiration` is
`cfg.Auth.TokenExpiration` in nanoseconds. -/
structure AuthService where
  secret : List Nat
  expiration : Int
deriving DecidableEq, Repr

/-- `NewAuthService`. -/
def NewAuthService (jwtSecret : String) (tokenExpiration : Int) : AuthService :=
  { secret := strings.bytes jwtSecret, expiration := tokenExpiration }

/-- The claims `GenerateToken` signs; `now` and `issued` are the two readings of
`time.Now()`. -/
def AuthService.newClaims (a : AuthService) (userID : String) (now issued : Int) : Claims :=
  { UserID := userID,
    ExpiresAt := some (jwt.NewNumericDate (now + a.expiration)),
    NotBefore := none,
    IssuedAt := some (jwt.NewNumericDate issued) }

/-- `AuthService.GenerateToken` (`services/auth.go`). -/
def AuthService.GenerateToken (c : jwt.Codec) (h : jwt.Hashes) (a : AuthService)
    (userID : String) (now issued : Int) : Except String String :=
  let claims := a.newClaims userID now issued
  jwt.SignedString c h .HS256 claims a.secret

/-- The key function `ValidateToken` hands to the parser. -/
def AuthService.keyFunc (a : AuthService) (token : jwt.Token) : Except String (List Nat) :=
  if !token.Method.isHMAC then
    .error ("unexpected signing method: " ++ token.Method.Alg)
  else .ok a.secret

/-- `AuthService.ValidateToken` (`services/auth.go`) at the time `now`: the claims, or the
error (with `nil` claims). -/
def AuthService.ValidateToken (c : jwt.Codec) (h : jwt.Hashes) (a : AuthService)
    (now : Int) (tokenString : String) : Except String Claims :=
  match jwt.ParseWithClaims c h now tokenString a.keyFunc with
  | .error err => .error err
  | .ok token =>
    if token.Valid then .ok token.Claims
    else .error "invalid token"

end services

/-! ## handlers.Middleware: the rate limiter -/

namespace handlers

/-- `time.Minute`, in nanoseconds. -/
def Minute : Int := 60 * 1000000000

/-- The rate-limiter fields of `handlers.Middleware`; `rateLimiter` is the
`map[string][]time.Time` (`none`: no entry for the key). -/
structure Middleware where
  rateLimiter : String → Option (List Int)
  rateLimit : Int

/-- `NewMiddleware`: an empty limiter map. -/
def NewMiddleware (rateLimit : Int) : Middleware :=
  { rateLimiter := fun _ => none, rateLimit := rateLimit }

/-- `m.rateLimiter[userID]`: a missing key reads as the `nil` slice. -/
def Middleware.window (m : Middleware) (userID : String) : List Int :=
  (m.rateLimiter userID).getD []

/-- What one run of the handler did: whether `c.Next()` was called, the error it
responded with (and aborted), and the middleware afterwards. -/
structure Outcome where
  next : Bool
  response : Option AppError
  m : Middleware

/-- The body of `RateLimitMiddleware` from `now := time.Now()` on, for the subject key
`userID` and the clock reading `now`. -/
def Middleware.rateLimitStep (m : Middleware) (userID : String) (now : Int) : Outcome :=
  let cutoff := now + (-Minute)
  -- Clean old entries
  let validRequests := (m.window userID).filter (fun requestTime => decide (requestTime > cutoff))
  -- Check rate limit
  if (validRequests.length : Int) ≥ m.rateLimit then
    { next := false, response := some ErrRateLimitExceeded, m := m }
  else
    -- Add current request
    let validRequests := validRequests ++ [now]
    { next := true, response := none,
      m := { m with rateLimiter := fun k => if k = userID then some validRequests
                                            else m.rateLimiter k } }

/-- The handler of `RateLimitMiddleware`: `ctxUserID` is `c.GetString("userID")`,
`clientIP` is `c.ClientIP()`. -/
def Middleware.RateLimitMiddleware (m : Middleware) (ctxUserID clientIP : String)
    (now : Int) : Outcome :=
  let userID := if ctxUserID = "" then clientIP else ctxUserID
  m.rateLimitStep userID now

/-- A request reaching the rate limiter: subject key and clock reading. -/
structure Request where
  userID : String
  now : Int
deriving DecidableEq, Repr

/-- The middleware after serving the requests in order. -/
def Middleware.run (m : Middleware) : List Request → Middleware
  | [] => m
  | r :: rs => Middleware.run (m.rateLimitStep r.userID r.now).m rs

/-- The decisions (`true`: accepted) taken on the requests, in order. -/
def Middleware.decisions (m : Middleware) : List Request → List Bool
  | [] => []
  | r :: rs =>
    (m.rateLimitStep r.userID r.now).next ::
      Middleware.decisions (m.rateLimitStep r.userID r.now).m rs

/-- The clock readings of the accepted requests of subject `userID`, in order. -/
def Middleware.acceptedTimes (m : Middleware) (userID : String) : List Request → List Int
  | [] => []
  | r :: rs =>
    if (m.rateLimitStep r.userID r.now).next && r.userID == userID then
      r.now :: Middleware.acceptedTimes (m.rateLimitStep r.userID r.now).m userID rs
    else Middleware.acceptedTimes (m.rateLimitStep r.userID r.now).m userID rs

end handlers

/-! ## handlers.Middleware: rate-limit handlers running at the same time

The handler of `RateLimitMiddleware` reads the shared map once (the `range` over
`m.rateLimiter[userID]`) and writes it once (`m.rateLimiter[userID] = validRequests`),
with no lock around the two. Between them it works on its local `validRequests`. A
schedule lets other handlers take steps in between; each read and each write is taken
as one step. -/

namespace handlers

/-- The first half of the handler: the read of `m.rateLimiter[userID]`, filtered into
the local `validRequests`. -/
def Middleware.readValid (m : Middleware) (userID : String) (now : Int) : List Int :=
  let cutoff := now + (-Minute)
  -- Clean old entries
  (m.window userID).filter (fun requestTime => decide (requestTime > cutoff))

/-- The second half of the handler, on the local `validRequests` and the middleware as it
is by then: the check, and on acceptance the write of the map. -/
def Middleware.checkWrite (m : Middleware) (userID : String) (now : Int)
    (validRequests : List Int) : Outcome :=
  -- Check rate limit
  if (validRequests.length : Int) ≥ m.rateLimit then
    { next := false, response := some ErrRateLimitExceeded, m := m }
  else
    -- Add current request
    let validRequests := validRequests ++ [now]
    { next := true, response := none,
      m := { m with rateLimiter := fun k => if k = userID then some validRequests
                                            else m.rateLimiter k } }

/-- A step of a schedule: the handler `i`, serving the request `r`, does its read; or the
handler `i` does the rest of its work. -/
inductive Step where
  | read (i : Nat) (r : Request)
  | write (i : Nat)
deriving DecidableEq, Repr

/-- Handlers at work on one middleware: the middleware, the request and the local
`validRequests` of every handler that has read and not yet written, and the requests
decided so far with the decision (`true`: accepted). -/
structure Shared where
  m : Middleware
  held : List (Nat × Request × List Int)
  decided : List (Request × Bool)

/-- No handler at work yet. -/
def Shared.start (m : Middleware) : Shared := { m := m, held := [], decided := [] }

/-- One step of a schedule. A write of a handler that has not read does nothing. -/
def Shared.step (s : Shared) : Step → Shared
  | .read i r =>
    { s with held := (i, r, s.m.readValid r.userID r.now) :: s.held }
  | .write i =>
    match s.held.lookup i with
    | none => s
    | some (r, validRequests) =>
      let o := s.m.checkWrite r.userID r.now validRequests
      { m := o.m,
        held := s.held.filter (fun e => e.1 != i),
        decided := s.decided ++ [(r, o.next)] }

/-- The steps of a schedule, in order. -/
def Shared.run (s : Shared) : List Step → Shared
  | [] => s
  | st :: sts => Shared.run (s.step st) sts

/-- The schedule that serves the requests one after the other: every handler writes
before the next one reads. Handlers are numbered from `i`. -/
def serial : Nat → List Request → List Step
  | _, [] => []
  | i, r :: rs => .read i r :: .write i :: serial (i + 1) rs

/-- The clock readings of the accepted requests of subject `userID`, in the order of the
decisions. -/
def Shared.acceptedTimes (s : Shared) (userID : String) : List Int :=
  (s.decided.filter (fun d => d.2 && d.1.userID == userID)).map (fun d => d.1.now)

end handlers

/-! ## handlers.Middleware: the authorization gate -/

namespace models

/-- `models.ErrorResponse`. -/
structure ErrorResponse where
  Error : String
  Code : Int
  Message : String
deriving DecidableEq, Repr

end models

namespace handlers

open services

/-- What one run of the `AuthMiddleware` handler did with the `gin.Context`: whether
`c.Next()` was called, whether `c.Abort()` was called, the status and body given to
`c.JSON`, and the value set for the key `userID`. -/
structure AuthOutcome where
  next : Bool
  aborted : Bool
  status : Option Int
  body : Option ErrorResponse
  userID : Option String
deriving DecidableEq, Repr

/-- Whether gin runs the handlers that come after this one in the chain: it does so
inside `c.Next()`, and after the handler returns unless `c.Abort()` was called. -/
def AuthOutcome.laterHandlersRun (o : AuthOutcome) : Bool := o.next || !o.aborted

/-- `Middleware.respondWithError` on a context nothing was done with yet. -/
def Middleware.respondWithError (appError : AppError) : AuthOutcome :=
  let response : ErrorResponse :=
    { Error := appError.Message,
      Code := appError.Code,
      Message := appError.Message }
  { next := false, aborted := true, status := some appError.Code, body := some response,
    userID := none }

/-- The handler of `AuthMiddleware`: `validateToken` is `m.authService.ValidateToken` at
the time of the request, `authHeader` is `c.GetHeader("Authorization")` (empty when the
header is absent). -/
def Middleware.AuthMiddleware (validateToken : String → Except String Claims)
    (authHeader : String) : AuthOutcome :=
  if authHeader = "" then Middleware.respondWithError ErrUnauthorized
  else
    -- Extract token from "Bearer <token>"
    let tokenParts := strings.Split authHeader " "
    if tokenParts.length ≠ 2 ∨ tokenParts.getD 0 "" ≠ "Bearer" then
      Middleware.respondWithError ErrUnauthorized
    else
      let token := tokenParts.getD 1 ""
      match validateToken token with
      | .error _ => Middleware.respondWithError ErrUnauthorized
      | .ok claims =>
        -- Set user ID in context
        { next := true, aborted := false, status := none, body := none,
          userID := some claims.UserID }

/-- A token check for the examples: the one token `good`, of `alice`. -/
def exampleValidateToken (token : String) : Except String Claims :=
  if token = "good" then .ok ⟨"alice", none, none, none⟩ else .error "invalid token"

end handlers

/-! ## Example data -/

namespace storage

/-- The metadata of an example file owned by `bob`. -/
def exampleMetadata : FileMetadata :=
  { ID := "f1", OriginalName := "a.png", Size := 3, ContentType := "image/png",
    UploadTime := 0, URL := "/files/f1", Checksum := "", UserID := "bob" }

/-- An in-memory file system holding the example file and its metadata. -/
def exampleFS : os.MemFS :=
  [("storage/f1", .bytes [1, 2, 3]), ("storage/f1.meta", .record exampleMetadata)]

/-- The local storage rooted at `./storage` on the in-memory system. -/
def exampleStorage : StorageInterface os.MemFS String :=
  LocalStorage.toInterface os.memSystem (NewLocalStorage "./storage")

end storage

namespace services

/-- The eight bytes every PNG file starts with. -/
def examplePNG : List Nat := [137, 80, 78, 71, 13, 10, 26, 10]

/-- A sniffer for the examples: it answers as `http.DetectContentType` does on data that
starts with the PNG signature. On other data it gives one fixed answer, which need not
be the one of `http.DetectContentType`; the examples use it on `examplePNG` only. -/
def exampleDetect (data : List Nat) : String :=
  if data.take 8 = examplePNG then "image/png" else "application/octet-stream"

/-- `strings.ToLower` on ASCII names, for the examples. -/
def exampleToLower (s : String) : String := String.mk (s.data.map Char.toLower)

/-- Stands in for `sha256.Sum256` in the examples, where the digest itself plays no part. -/
def exampleSum256 (data : List Nat) : List Nat := [data.length % 256]

/-- The validation of the examples: at most 100 bytes, PNG only. -/
def exampleValidation : ValidationService := NewValidationService 100 ["image/png"]

end services

namespace jwt

open services

/-- A run of the letter `a`. -/
def exampleRun (n : Nat) : String := String.mk (List.replicate n 'a')

/-- A lawful encoding for the examples: the segment of a value is a run of `a` as long
as the code number of the value. -/
def exampleCodec : Codec where
  encodeHeader alg := exampleRun (Encodable.encode (alg.data.map Char.toNat))
  decodeHeader s :=
    (Encodable.decode s.length : Option (List Nat)).map
      (fun l => String.mk (l.map Char.ofNat))
  encodeClaims x :=
    exampleRun (Encodable.encode
      (x.UserID.data.map Char.toNat, x.ExpiresAt, x.NotBefore, x.IssuedAt))
  decodeClaims s :=
    (Encodable.decode s.length :
        Option (List Nat × Option Int × Option Int × Option Int)).map
      (fun t => ⟨String.mk (t.1.map Char.ofNat), t.2.1, t.2.2.1, t.2.2.2⟩)
  encodeSignature sig := exampleRun (Encodable.encode sig)
  decodeSignature s := Encodable.decode s.length

/-- Stands in for the hash functions in the examples: the first byte of the input. -/
def exampleHashes : Hashes :=
  { sha256 := fun data => data.take 1,
    sha384 := fun data => data.take 1,
    sha512 := fun data => data.take 1 }

/-- Stands in for hash functions without collisions in the examples: the one number that
is the code of the input. -/
def codeHashes : Hashes :=
  { sha256 := fun data => [Encodable.encode data],
    sha384 := fun data => [Encodable.encode data],
    sha512 := fun data => [Encodable.encode data] }

/-- `time.Hour`, in nanoseconds. -/
def Hour : Int := 3600 * Second

end jwt

/-! # Theorems -/

open models storage services filepath handlers

/-! ## Ownership (C1) -/

/-- C1. `UploadService.GetFile` is ownership-indistinguishable: for every storage backend
and state, when the metadata stored for `fileID` names an owner different from the caller,
the result is the nil stream, the zero `FileMetadata` and `ErrFileNotFound` (404, "File not
found"), which is exactly the result for an id `missingID` that the storage reports as not
existing; and `Retrieve` is never called, so the content stream is not opened. -/
theorem getFile_ownership_indistinguishable {σ ρ : Type} (st : StorageInterface σ ρ)
    (s s' : σ) (fileID missingID userID : String) (md : FileMetadata)
    (hmeta : (st.GetMetadata fileID (st.Exists fileID s).2).1 = (md, none))
    (howner : md.UserID ≠ userID)
    (hmissing : (st.Exists missingID s').1 = false) :
    (UploadService.GetFile st fileID userID s).1 = ⟨none, FileMetadata.zero, some ErrFileNotFound⟩ ∧
    (UploadService.GetFile st missingID userID s').1 = (UploadService.GetFile st fileID userID s).1 ∧
    ErrFileNotFound = ⟨404, "File not found", none⟩ ∧
    (∀ id, StorageCall.retrieve id ∉ (UploadService.GetFile st fileID userID s).2.2) := by
  have h1 : (UploadService.GetFile st fileID userID s).1 = ⟨none, FileMetadata.zero, some ErrFileNotFound⟩ ∧
      (∀ id, StorageCall.retrieve id ∉ (UploadService.GetFile st fileID userID s).2.2) := by
    unfold UploadService.GetFile
    rcases hE : st.Exists fileID s with ⟨e, s1⟩
    rw [hE] at hmeta
    cases e
    · simp
    · rcases hG : st.GetMetadata fileID s1 with ⟨⟨m, err⟩, s2⟩
      rw [hG] at hmeta
      simp only [Prod.mk.injEq] at hmeta
      obtain ⟨rfl, rfl⟩ := hmeta
      simp [hG, howner]
  have h2 : (UploadService.GetFile st missingID userID s').1 = ⟨none, FileMetadata.zero, some ErrFileNotFound⟩ := by
    unfold UploadService.GetFile
    rcases hE : st.Exists missingID s' with ⟨e, s1⟩
    rw [hE] at hmissing
    simp only at hmissing
    subst hmissing
    rfl
  exact ⟨h1.1, by rw [h2, h1.1], rfl, h1.2⟩

theorem getFile_ownership_witness :
    (exampleStorage.GetMetadata "f1" (exampleStorage.Exists "f1" exampleFS).2).1 =
      (exampleMetadata, none) ∧
    exampleMetadata.UserID ≠ "alice" ∧
    (exampleStorage.Exists "nope" exampleFS).1 = false ∧
    (UploadService.GetFile exampleStorage "nope" "alice" exampleFS).1 =
      (UploadService.GetFile exampleStorage "f1" "alice" exampleFS).1 :=
  ⟨by decide, by decide, by decide,
    (getFile_ownership_indistinguishable exampleStorage exampleFS exampleFS "f1" "nope"
      "alice" exampleMetadata (by decide) (by decide) (by decide)).2.1⟩

/-! ## Path safety (C2, C3) -/

/-! ### `filepath.Clean`: fuel -/

theorem cleanLoop_nil (rooted : Bool) (fuel : Nat) (out : List Char) (dotdot : Nat) :
    cleanLoop rooted fuel [] out dotdot = out := by
  cases fuel <;> rfl

theorem length_dropWhile_le (p : Char → Bool) (l : List Char) :
    (l.dropWhile p).length ≤ l.length :=
  (List.dropWhile_suffix p).length_le

/-- More fuel than the length of the input changes nothing. -/
theorem cleanLoop_fuel (rooted : Bool) : ∀ (f1 f2 : Nat) (path out : List Char) (dotdot : Nat),
    path.length ≤ f1 → path.length ≤ f2 →
    cleanLoop rooted f1 path out dotdot = cleanLoop rooted f2 path out dotdot := by
  intro f1
  induction f1 with
  | zero =>
    intro f2 path out dotdot h1 _
    have : path = [] := List.length_eq_zero.mp (Nat.le_zero.mp h1)
    subst this
    rw [cleanLoop_nil, cleanLoop_nil]
  | succ f1 ih =>
    intro f2 path out dotdot h1 h2
    cases path with
    | nil => rw [cleanLoop_nil, cleanLoop_nil]
    | cons c rest =>
      cases f2 with
      | zero => simp at h2
      | succ f2 =>
        simp only [List.length_cons, Nat.add_le_add_iff_right] at h1 h2
        have ht1 : rest.tail.length ≤ f1 := by rw [List.length_tail]; omega
        have ht2 : rest.tail.length ≤ f2 := by rw [List.length_tail]; omega
        have hdrop : ¬ IsPathSeparator c = true →
            ((c :: rest).dropWhile (fun x => !IsPathSeparator x)).length ≤ rest.length := by
          intro hsep
          have hc : (!IsPathSeparator c) = true := by simpa using hsep
          rw [List.dropWhile_cons, if_pos hc]
          exact length_dropWhile_le _ rest
        simp only [cleanLoop]
        split_ifs with hsep <;>
          first
            | exact ih _ _ _ _ h1 h2
            | exact ih _ _ _ _ ht1 ht2
            | exact ih _ _ _ _ (le_trans (hdrop hsep) h1) (le_trans (hdrop hsep) h2)

/-! ### Texts of element lists -/

theorem below_nil : below [] = [] := rfl

theorem below_cons (e : List Char) (es : List (List Char)) :
    below (e :: es) = '/' :: (e ++ below es) := by
  simp [below]

theorem below_append (a b : List (List Char)) : below (a ++ b) = below a ++ below b := by
  simp [below]

theorem below_headD (es : List (List Char)) : (below es).headD '/' = '/' := by
  cases es with
  | nil => rfl
  | cons e es => rw [below_cons]; rfl

theorem below_ne_nil {es : List (List Char)} (h : es ≠ []) : below es ≠ [] := by
  cases es with
  | nil => exact absurd rfl h
  | cons e es => rw [below_cons]; exact List.cons_ne_nil _ _

theorem render_nil (rooted : Bool) : render rooted [] = if rooted then ['/'] else [] := by
  simp [render, below]

theorem render_cons (rooted : Bool) (e : List Char) (es : List (List Char)) :
    render rooted (e :: es) = (if rooted then ['/'] else []) ++ (e ++ below es) := by
  simp [render, below_cons]

theorem render_append (rooted : Bool) (a b : List (List Char)) (ha : a ≠ []) :
    render rooted (a ++ b) = render rooted a ++ below b := by
  cases a with
  | nil => exact absurd rfl ha
  | cons e es =>
    rw [List.cons_append, render_cons, render_cons, below_append]
    simp

theorem render_snoc (rooted : Bool) (es : List (List Char)) (e : List Char) :
    render rooted (es ++ [e]) = render rooted es ++ (if es = [] then e else '/' :: e) := by
  by_cases h : es = []
  · subst h
    simp [render, below]
  · rw [render_append rooted es [e] h, if_neg h]
    simp [below]

theorem length_render_le (rooted : Bool) (a b : List (List Char)) :
    (render rooted a).length ≤ (render rooted (a ++ b)).length := by
  by_cases ha : a = []
  · subst ha
    simp [render, below_nil]
  · rw [render_append rooted a b ha, List.length_append]
    omega

theorem length_render_lt (rooted : Bool) (a b : List (List Char)) (hb : b ≠ [])
    (hne : ∀ e ∈ b, e ≠ []) :
    (render rooted a).length < (render rooted (a ++ b)).length := by
  by_cases ha : a = []
  · subst ha
    cases b with
    | nil => exact absurd rfl hb
    | cons e es =>
      have he := hne e (List.mem_cons_self _ _)
      have : 0 < e.length := List.length_pos.mpr he
      rw [List.nil_append, render_nil, render_cons]
      simp only [List.length_append]
      omega
  · rw [render_append rooted a b ha, List.length_append]
    have := List.length_pos.mpr (below_ne_nil hb)
    omega

/-! ### `filepath.Clean`: the shape of the result -/

theorem backtrack_last (d : Nat) (X : List Char) (hX : X.length = d) :
    ∀ l : List Char, (∀ c ∈ l, IsPathSeparator c = false) → l ≠ [] →
      backtrack d (l ++ X) = X := by
  intro l
  induction l with
  | nil => intro _ h; exact absurd rfl h
  | cons c l ih =>
    intro hl _
    have hc : IsPathSeparator c = false := hl c (List.mem_cons_self _ _)
    cases l with
    | nil => simp [backtrack, hX]
    | cons c' l' =>
      have hlen : (c' :: l' ++ X).length > d := by
        simp only [List.cons_append, List.length_cons, List.length_append]; omega
      rw [List.cons_append, backtrack]
      simp only [List.cons_append] at hlen
      simp only [List.cons_append, hlen, hc, decide_True, Bool.not_false, Bool.and_self, if_true]
      exact ih (fun x hx => hl x (List.mem_cons_of_mem _ hx)) (List.cons_ne_nil _ _)

theorem backtrack_sep (d : Nat) (Y : List Char) (hY : d ≤ Y.length) :
    ∀ l : List Char, (∀ c ∈ l, IsPathSeparator c = false) →
      backtrack d (l ++ '/' :: Y) = Y := by
  intro l
  induction l with
  | nil => intro _; simp [backtrack, IsPathSeparator]
  | cons c l ih =>
    intro hl
    have hc : IsPathSeparator c = false := hl c (List.mem_cons_self _ _)
    have hlen : (l ++ '/' :: Y).length > d := by
      simp only [List.length_cons, List.length_append]; omega
    rw [List.cons_append, backtrack]
    simp only [hlen, hc, decide_True, Bool.not_false, Bool.and_self, if_true]
    exact ih (fun x hx => hl x (List.mem_cons_of_mem _ hx))

theorem plainName_seps {n : List Char} (h : PlainName n) :
    ∀ c ∈ n, IsPathSeparator c = false := by
  intro c hc
  unfold IsPathSeparator
  simp only [beq_eq_false_iff_ne, ne_eq]
  intro hc'
  subst hc'
  exact h.2.1 hc

theorem cleanBuf_init (rooted : Bool) :
    CleanBuf rooted (if rooted then ['/'] else []) (if rooted then 1 else 0) := by
  refine ⟨0, [], by simp, fun _ => rfl, ?_, ?_⟩
  · cases rooted <;> simp [dotdots, render, below]
  · cases rooted <;> simp [dotdots, render, below]

/-- In a buffer state a separator is due exactly when an element has been written. -/
theorem cleanBuf_sep_iff {rooted : Bool} {k : Nat} {st : List (List Char)}
    (hst : ∀ n ∈ st, PlainName n) :
    ((rooted && (render rooted (dotdots k ++ st.reverse)).reverse.length != 1 ||
      !rooted && (render rooted (dotdots k ++ st.reverse)).reverse.length != 0) = true) ↔
      dotdots k ++ st.reverse ≠ [] := by
  have hne : ∀ e ∈ dotdots k ++ st.reverse, e ≠ [] := by
    intro e he
    rw [List.mem_append] at he
    rcases he with he | he
    · rw [dotdots, List.mem_replicate] at he
      rw [he.2]; exact List.cons_ne_nil _ _
    · exact (hst e (List.mem_reverse.mp he)).1
  by_cases h : dotdots k ++ st.reverse = []
  · rw [h]
    cases rooted <;> simp [render, below]
  · have hlt := length_render_lt rooted [] (dotdots k ++ st.reverse) h hne
    rw [List.nil_append, render_nil] at hlt
    rw [List.length_reverse]
    cases rooted
    · simp only [Bool.false_eq_true, if_false, List.length_nil] at hlt
      have h0 : (render false (dotdots k ++ st.reverse)).length ≠ 0 := by omega
      simp [h, h0]
    · simp only [if_true, List.length_singleton] at hlt
      have h1 : (render true (dotdots k ++ st.reverse)).length ≠ 1 := by omega
      simp [h, h1]

theorem cleanBuf_push {rooted : Bool} {out : List Char} {dotdot : Nat} {n : List Char}
    (h : CleanBuf rooted out dotdot) (hn : PlainName n) :
    CleanBuf rooted
      (n.reverse ++ (if (rooted && out.length != 1 || !rooted && out.length != 0) = true
        then '/' :: out else out)) dotdot := by
  obtain ⟨k, st, hst, hk, hout, hdd⟩ := h
  refine ⟨k, n :: st, ?_, hk, ?_, hdd⟩
  · intro x hx
    rw [List.mem_cons] at hx
    rcases hx with rfl | hx
    · exact hn
    · exact hst x hx
  · rw [hout, List.reverse_cons, ← List.append_assoc, render_snoc, List.reverse_append]
    by_cases he : dotdots k ++ st.reverse = []
    · rw [if_pos he, if_neg]
      rw [cleanBuf_sep_iff hst]
      exact not_not.mpr he
    · rw [if_neg he, if_pos ((cleanBuf_sep_iff hst).mpr he)]
      simp

theorem cleanBuf_pop {rooted : Bool} {out : List Char} {dotdot : Nat}
    (h : CleanBuf rooted out dotdot) (hlen : out.length > dotdot) :
    CleanBuf rooted (backtrack dotdot out) dotdot := by
  obtain ⟨k, st, hst, hk, hout, hdd⟩ := h
  cases st with
  | nil =>
    exfalso
    rw [hout, hdd] at hlen
    simp at hlen
  | cons n st =>
    have hn : PlainName n := hst n (List.mem_cons_self _ _)
    have hst' : ∀ x ∈ st, PlainName x := fun x hx => hst x (List.mem_cons_of_mem _ hx)
    refine ⟨k, st, hst', hk, ?_, hdd⟩
    rw [hout, List.reverse_cons, ← List.append_assoc, render_snoc, List.reverse_append]
    by_cases he : dotdots k ++ st.reverse = []
    · rw [if_pos he]
      apply backtrack_last
      · rw [hdd, List.length_reverse, he]
        have : dotdots k = [] := (List.append_eq_nil.mp he).1
        rw [this]
      · intro c hc
        exact plainName_seps hn c (List.mem_reverse.mp hc)
      · simpa using hn.1
    · rw [if_neg he, List.reverse_cons, List.append_assoc, List.singleton_append]
      apply backtrack_sep
      · rw [hdd, List.length_reverse]
        exact length_render_le rooted (dotdots k) st.reverse
      · intro c hc
        exact plainName_seps hn c (List.mem_reverse.mp hc)

theorem cleanBuf_dots {out : List Char} {dotdot : Nat}
    (h : CleanBuf false out dotdot) (hlen : ¬ out.length > dotdot) :
    CleanBuf false ('.' :: '.' :: (if out.length > 0 then '/' :: out else out))
      ((if out.length > 0 then '/' :: out else out).length + 2) := by
  obtain ⟨k, st, hst, hk, hout, hdd⟩ := h
  have hst0 : st = [] := by
    by_contra hne
    apply hlen
    rw [hout, hdd, List.length_reverse]
    apply length_render_lt
    · simpa using hne
    · intro e he
      exact (hst e (List.mem_reverse.mp he)).1
  subst hst0
  simp only [List.reverse_nil, List.append_nil] at hout
  have hsnoc : dotdots (k + 1) = dotdots k ++ [['.', '.']] := by
    simp [dotdots, List.replicate_succ']
  have htext : '.' :: '.' :: (if out.length > 0 then '/' :: out else out) =
      (render false (dotdots (k + 1))).reverse := by
    rw [hsnoc, render_snoc, List.reverse_append, hout]
    by_cases hk0 : dotdots k = []
    · rw [hk0]
      simp [render, below]
    · have hpos : (render false (dotdots k)).reverse.length > 0 := by
        have := length_render_lt false [] (dotdots k) hk0 (by
          intro e he
          rw [dotdots, List.mem_replicate] at he
          rw [he.2]; exact List.cons_ne_nil _ _)
        rw [List.nil_append] at this
        rw [List.length_reverse]
        omega
      rw [if_pos hpos, if_neg hk0]
      simp
  refine ⟨k + 1, [], by simp, by simp, ?_, ?_⟩
  · simpa using htext
  · have := congrArg List.length htext
    simp only [List.length_cons, List.length_reverse] at this
    omega

theorem takeWhile_eq_nil_headD (l : List Char) :
    l.takeWhile (fun x => !IsPathSeparator x) = [] ↔
      (l.isEmpty || IsPathSeparator (l.headD '/')) = true := by
  cases l with
  | nil => simp [IsPathSeparator]
  | cons a l =>
    cases h : IsPathSeparator a <;> simp [List.takeWhile_cons, h]

/-- The element copied by the last branch of the loop of `Clean` is an ordinary one. -/
theorem plainName_takeWhile (c : Char) (rest : List Char)
    (hsep : ¬ IsPathSeparator c = true)
    (hdot : ¬ (c == '.' && (rest.isEmpty || IsPathSeparator (rest.headD '/'))) = true)
    (hdd : ¬ (c == '.' && rest.headD '/' == '.' &&
      (rest.tail.isEmpty || IsPathSeparator (rest.tail.headD '/'))) = true) :
    PlainName ((c :: rest).takeWhile (fun x => !IsPathSeparator x)) := by
  have hc : (!IsPathSeparator c) = true := by simpa using hsep
  have htw : (c :: rest).takeWhile (fun x => !IsPathSeparator x) =
      c :: rest.takeWhile (fun x => !IsPathSeparator x) := by
    rw [List.takeWhile_cons, if_pos hc]
  rw [htw]
  refine ⟨List.cons_ne_nil _ _, ?_, ?_, ?_⟩
  · intro hmem
    rw [← htw] at hmem
    have := List.mem_takeWhile_imp hmem
    simp [IsPathSeparator] at this
  · intro h
    rw [List.cons.injEq] at h
    obtain ⟨h1, h2⟩ := h
    apply hdot
    rw [(takeWhile_eq_nil_headD rest).mp h2, h1]
    rfl
  · intro h
    rw [List.cons.injEq] at h
    obtain ⟨h1, h2⟩ := h
    cases rest with
    | nil => simp at h2
    | cons a rest' =>
      by_cases ha : (!IsPathSeparator a) = true
      · rw [List.takeWhile_cons, if_pos ha, List.cons.injEq] at h2
        apply hdd
        simp only [List.headD_cons, List.tail_cons]
        rw [(takeWhile_eq_nil_headD rest').mp h2.2, h1, h2.1]
        rfl
      · rw [List.takeWhile_cons, if_neg ha] at h2
        cases h2

/-- The loop of `Clean` keeps the buffer in one of its states. -/
theorem cleanLoop_cleanBuf (rooted : Bool) : ∀ (fuel : Nat) (path out : List Char)
    (dotdot : Nat), CleanBuf rooted out dotdot →
    ∃ dotdot', CleanBuf rooted (cleanLoop rooted fuel path out dotdot) dotdot' := by
  intro fuel
  induction fuel with
  | zero => intro path out dotdot h; exact ⟨dotdot, h⟩
  | succ fuel ih =>
    intro path out dotdot h
    cases path with
    | nil => exact ⟨dotdot, h⟩
    | cons c rest =>
      simp only [cleanLoop]
      by_cases hsep : IsPathSeparator c = true
      · rw [if_pos hsep]; exact ih _ _ _ h
      · rw [if_neg hsep]
        by_cases hdot : (c == '.' && (rest.isEmpty || IsPathSeparator (rest.headD '/'))) = true
        · rw [if_pos hdot]; exact ih _ _ _ h
        · rw [if_neg hdot]
          by_cases hdd : (c == '.' && rest.headD '/' == '.' &&
              (rest.tail.isEmpty || IsPathSeparator (rest.tail.headD '/'))) = true
          · rw [if_pos hdd]
            by_cases hback : out.length > dotdot
            · rw [if_pos hback]; exact ih _ _ _ (cleanBuf_pop h hback)
            · rw [if_neg hback]
              cases rooted with
              | true => simp only [Bool.not_true, Bool.false_eq_true, if_false]; exact ih _ _ _ h
              | false =>
                simp only [Bool.not_false, if_true]
                exact ih _ _ _ (cleanBuf_dots h hback)
          · rw [if_neg hdd]
            exact ih _ _ _ (cleanBuf_push h (plainName_takeWhile c rest hsep hdot hdd))

theorem cleanBuf_out {rooted : Bool} {out : List Char} {dotdot : Nat}
    (h : CleanBuf rooted out dotdot) :
    ∃ (k : Nat) (ns : List (List Char)), (∀ n ∈ ns, PlainName n) ∧ (rooted = true → k = 0) ∧
      out.reverse = render rooted (dotdots k ++ ns) := by
  obtain ⟨k, st, hst, hk, hout, -⟩ := h
  refine ⟨k, st.reverse, fun n hn => hst n (List.mem_reverse.mp hn), hk, ?_⟩
  rw [hout, List.reverse_reverse]

/-- The result of `Clean` is `.` or the text of a cleaned element list. -/
theorem cleanChars_cleanForm (path : List Char) : CleanForm (cleanChars path) := by
  unfold cleanChars
  by_cases hp : path.isEmpty = true
  · rw [if_pos hp]
    exact ⟨false, 0, [], by simp, by simp, by simp⟩
  · rw [if_neg hp]
    simp only
    cases hr : IsPathSeparator (path.headD '.') with
    | true =>
      simp only [if_true]
      obtain ⟨d', hb⟩ := cleanLoop_cleanBuf true path.length path.tail ['/'] 1
        (by simpa using cleanBuf_init true)
      obtain ⟨k, ns, hns, hk, hout⟩ := cleanBuf_out hb
      have hne : (cleanLoop true path.length path.tail ['/'] 1).length ≠ 0 := by
        have := congrArg List.length hout
        rw [List.length_reverse] at this
        rw [this, render]
        simp
      rw [if_neg (by simpa using hne)]
      exact ⟨true, k, ns, hns, hk, by rw [hout]; simp⟩
    | false =>
      simp only [Bool.false_eq_true, if_false]
      obtain ⟨d', hb⟩ := cleanLoop_cleanBuf false path.length path [] 0
        (by simpa using cleanBuf_init false)
      obtain ⟨k, ns, hns, hk, hout⟩ := cleanBuf_out hb
      by_cases h0 : (cleanLoop false path.length path [] 0).length = 0
      · rw [if_pos (by simpa using h0)]
        have hnil : cleanLoop false path.length path [] 0 = [] := List.length_eq_zero.mp h0
        rw [hnil, List.reverse_nil] at hout
        have hes : dotdots k ++ ns = [] := by
          by_contra hne
          have := length_render_lt false [] (dotdots k ++ ns) hne (by
            intro e he
            rw [List.mem_append] at he
            rcases he with he | he
            · rw [dotdots, List.mem_replicate] at he
              rw [he.2]; exact List.cons_ne_nil _ _
            · exact (hns e he).1)
          rw [List.nil_append, ← hout] at this
          simp at this
        obtain ⟨hk0, hns0⟩ := List.append_eq_nil.mp hes
        have hk0' : k = 0 := by
          cases k with
          | zero => rfl
          | succ k => simp [dotdots, List.replicate_succ] at hk0
        exact ⟨false, k, ns, hns, hk, by simp [hk0', hns0]⟩
      · rw [if_neg (by simpa using h0)]
        refine ⟨false, k, ns, hns, hk, ?_⟩
        rw [hout, if_neg]
        rintro ⟨-, hk0, hns0⟩
        apply h0
        have := congrArg List.length hout
        rw [List.length_reverse] at this
        rw [this, hk0, hns0]
        simp [dotdots, render, below]

/-! ### `filepath.Clean` is idempotent -/

theorem takeWhile_append_boundary (n r : List Char)
    (hn : ∀ c ∈ n, IsPathSeparator c = false) (hr : r.headD '/' = '/') :
    (n ++ r).takeWhile (fun x => !IsPathSeparator x) = n ∧
    (n ++ r).dropWhile (fun x => !IsPathSeparator x) = r := by
  induction n with
  | nil =>
    cases r with
    | nil => simp
    | cons a r =>
      simp only [List.headD_cons] at hr
      subst hr
      simp [IsPathSeparator, List.takeWhile_cons, List.dropWhile_cons]
  | cons c n ih =>
    have hc := hn c (List.mem_cons_self _ _)
    have := ih (fun x hx => hn x (List.mem_cons_of_mem _ hx))
    simp [List.takeWhile_cons, List.dropWhile_cons, hc, this]

theorem cleanLoop_sep (rooted : Bool) (fuel : Nat) (path out : List Char) (dotdot : Nat) :
    cleanLoop rooted (fuel + 1) ('/' :: path) out dotdot = cleanLoop rooted fuel path out dotdot := by
  simp [cleanLoop, IsPathSeparator]

/-- One iteration of the loop of `Clean` on an ordinary element. -/
theorem cleanLoop_elem (rooted : Bool) (fuel : Nat) (n r out : List Char) (dotdot : Nat)
    (hn : PlainName n) (hr : r.headD '/' = '/') (hf : (n ++ r).length ≤ fuel) :
    cleanLoop rooted fuel (n ++ r) out dotdot =
      cleanLoop rooted r.length r
        (n.reverse ++ (if (rooted && out.length != 1 || !rooted && out.length != 0) = true
          then '/' :: out else out)) dotdot := by
  have hseps := plainName_seps hn
  obtain ⟨htw, hdw⟩ := takeWhile_append_boundary n r hseps hr
  cases hnc : n with
  | nil => exact absurd hnc hn.1
  | cons c n' =>
    rw [hnc] at htw hdw hf
    cases fuel with
    | zero => simp at hf
    | succ fuel =>
      have hsep : ¬ IsPathSeparator c = true := by
        rw [hseps c (by rw [hnc]; exact List.mem_cons_self _ _)]; simp
      have hdot : ¬ (c == '.' && ((n' ++ r).isEmpty ||
          IsPathSeparator ((n' ++ r).headD '/'))) = true := by
        intro h
        rw [Bool.and_eq_true] at h
        have h2 := (takeWhile_eq_nil_headD (n' ++ r)).mpr h.2
        have hc : (!IsPathSeparator c) = true := by simpa using hsep
        rw [List.cons_append, List.takeWhile_cons, if_pos hc, h2] at htw
        have hc' : c = '.' := by simpa using h.1
        apply hn.2.2.1
        rw [hnc, ← htw, hc']
      have hdd : ¬ (c == '.' && (n' ++ r).headD '/' == '.' &&
          ((n' ++ r).tail.isEmpty || IsPathSeparator ((n' ++ r).tail.headD '/'))) = true := by
        intro h
        rw [Bool.and_eq_true, Bool.and_eq_true] at h
        obtain ⟨⟨h1, h2⟩, h3⟩ := h
        have hc : (!IsPathSeparator c) = true := by simpa using hsep
        have hc' : c = '.' := by simpa using h1
        cases hrest : n' ++ r with
        | nil => rw [hrest] at h2; simp at h2
        | cons a t =>
          rw [hrest] at h2 h3
          simp only [List.headD_cons, List.tail_cons] at h2 h3
          have ha : a = '.' := by simpa using h2
          have h4 := (takeWhile_eq_nil_headD t).mpr h3
          rw [List.cons_append, hrest, List.takeWhile_cons, if_pos hc, List.takeWhile_cons,
            ha, if_pos (by decide), h4] at htw
          apply hn.2.2.2
          rw [hnc, ← htw, hc']
      rw [List.cons_append] at htw hdw ⊢
      simp only [cleanLoop]
      rw [if_neg hsep, if_neg hdot, if_neg hdd, htw, hdw]
      apply cleanLoop_fuel
      · simp only [List.cons_append, List.length_cons, List.length_append] at hf
        omega
      · exact le_refl _

/-- One iteration of the loop of `Clean` on a `..` element that cannot back up. -/
theorem cleanLoop_dotdot (fuel : Nat) (r out : List Char)
    (hr : r.headD '/' = '/') (hf : r.length + 2 ≤ fuel) :
    cleanLoop false fuel ('.' :: '.' :: r) out out.length =
      cleanLoop false r.length r
        ('.' :: '.' :: (if out.length > 0 then '/' :: out else out))
        ((if out.length > 0 then '/' :: out else out).length + 2) := by
  cases fuel with
  | zero => omega
  | succ fuel =>
    have hb : (r.isEmpty || IsPathSeparator (r.headD '/')) = true := by
      rw [hr]; simp [IsPathSeparator]
    simp only [cleanLoop]
    rw [if_neg (by decide), if_neg (by simp [IsPathSeparator]), if_pos (by simpa using hb),
      if_neg (lt_irrefl _), if_pos (by rfl)]
    apply cleanLoop_fuel
    · simp only [List.tail_cons]; omega
    · simp only [List.tail_cons]; exact le_refl _

/-- The loop of `Clean` copies a sequence of ordinary elements. -/
theorem cleanLoop_names (rooted : Bool) : ∀ (ns : List (List Char)),
    (∀ n ∈ ns, PlainName n) → ∀ (fuel : Nat) (out : List Char) (dotdot : Nat),
    (below ns).length ≤ fuel →
    (rooted && out.length != 1 || !rooted && out.length != 0) = true →
    cleanLoop rooted fuel (below ns) out dotdot = (below ns).reverse ++ out := by
  intro ns
  induction ns with
  | nil => intro _ fuel out dotdot _ _; rw [below_nil, cleanLoop_nil]; rfl
  | cons n ns ih =>
    intro hns fuel out dotdot hf hsep
    rw [below_cons] at hf ⊢
    cases fuel with
    | zero => simp at hf
    | succ fuel =>
      simp only [List.length_cons, Nat.add_le_add_iff_right] at hf
      rw [cleanLoop_sep, cleanLoop_elem rooted fuel n (below ns) out dotdot
        (hns n (List.mem_cons_self _ _)) (below_headD ns) hf, if_pos hsep,
        ih (fun x hx => hns x (List.mem_cons_of_mem _ hx)) _ _ _ (le_refl _)]
      · simp
      · have := List.length_pos.mpr (hns n (List.mem_cons_self _ _)).1
        cases rooted
        · simp
        · simp; omega

/-- The loop of `Clean` copies a sequence of `..` elements that cannot back up. -/
theorem cleanLoop_dotdots : ∀ (k : Nat) (fuel : Nat) (out r : List Char),
    out ≠ [] → r.headD '/' = '/' → (below (dotdots k) ++ r).length ≤ fuel →
    cleanLoop false fuel (below (dotdots k) ++ r) out out.length =
      cleanLoop false r.length r ((below (dotdots k)).reverse ++ out)
        ((below (dotdots k)).reverse ++ out).length := by
  intro k
  induction k with
  | zero =>
    intro fuel out r _ _ hf
    simp only [dotdots, List.replicate_zero, below_nil, List.nil_append, List.reverse_nil] at hf ⊢
    exact cleanLoop_fuel false _ _ _ _ _ hf (le_refl _)
  | succ k ih =>
    intro fuel out r hout hr hf
    have hsucc : dotdots (k + 1) = ['.', '.'] :: dotdots k := by
      simp [dotdots, List.replicate_succ]
    rw [hsucc, below_cons] at hf ⊢
    cases fuel with
    | zero => simp at hf
    | succ fuel =>
      simp only [List.cons_append, List.length_cons, List.length_append,
        Nat.add_le_add_iff_right] at hf
      have hpos : out.length > 0 := List.length_pos.mpr hout
      have hr' : (below (dotdots k) ++ r).headD '/' = '/' := by
        cases hk : below (dotdots k) with
        | nil => simpa using hr
        | cons a t =>
          have := below_headD (dotdots k)
          rw [hk] at this
          simpa using this
      simp only [List.cons_append, List.nil_append]
      rw [cleanLoop_sep, cleanLoop_dotdot fuel (below (dotdots k) ++ r) out hr'
        (by simp only [List.length_append]; omega), if_pos hpos]
      have hlen : ('/' :: out).length + 2 = ('.' :: '.' :: '/' :: out).length := by simp
      rw [hlen, ih _ ('.' :: '.' :: '/' :: out) r (List.cons_ne_nil _ _) hr (le_refl _)]
      simp

theorem plainName_head {n : List Char} (hn : PlainName n) (r : List Char) :
    IsPathSeparator ((n ++ r).headD '.') = false ∧ (n ++ r).isEmpty = false := by
  cases hnc : n with
  | nil => exact absurd hnc hn.1
  | cons c n' =>
    refine ⟨?_, rfl⟩
    simp only [List.cons_append, List.headD_cons]
    exact plainName_seps hn c (by rw [hnc]; exact List.mem_cons_self _ _)

/-- `Clean` leaves its own results alone. -/
theorem cleanChars_of_cleanForm (p : List Char) (h : CleanForm p) : cleanChars p = p := by
  obtain ⟨rooted, k, ns, hns, hk, hp⟩ := h
  cases rooted with
  | true =>
    have hk0 := hk rfl
    subst hk0
    simp only [Bool.true_eq_false, false_and, if_false, dotdots, List.replicate_zero,
      List.nil_append] at hp
    cases ns with
    | nil =>
      rw [hp]
      decide
    | cons n ns =>
      rw [render_cons] at hp
      simp only [if_true, List.singleton_append] at hp
      have hn := hns n (List.mem_cons_self _ _)
      have hns' : ∀ x ∈ ns, PlainName x := fun x hx => hns x (List.mem_cons_of_mem _ hx)
      unfold cleanChars
      rw [hp]
      simp only [List.isEmpty_cons, Bool.false_eq_true, if_false, List.headD_cons,
        List.tail_cons]
      have hroot : IsPathSeparator '/' = true := by decide
      rw [hroot]
      simp only [if_true]
      rw [cleanLoop_elem true _ n (below ns) ['/'] 1 hn (below_headD ns)
        (by simp only [List.length_cons]; omega)]
      have hsep : (true && (['/'] : List Char).length != 1 ||
          !true && (['/'] : List Char).length != 0) = false := by decide
      rw [hsep]
      simp only [Bool.false_eq_true, if_false]
      rw [cleanLoop_names true ns hns' _ _ _ (le_refl _)
        (by simp [hn.1])]
      simp
  | false =>
    cases k with
    | zero =>
      cases ns with
      | nil =>
        simp only [true_and, if_true] at hp
        rw [hp]
        decide
      | cons n ns =>
        simp only [dotdots, List.replicate_zero, List.nil_append, true_and,
          List.cons_ne_nil, render_cons, if_false, Bool.false_eq_true] at hp
        have hn := hns n (List.mem_cons_self _ _)
        have hns' : ∀ x ∈ ns, PlainName x := fun x hx => hns x (List.mem_cons_of_mem _ hx)
        obtain ⟨hh1, hh2⟩ := plainName_head hn (below ns)
        unfold cleanChars
        rw [hp, hh2]
        simp only [Bool.false_eq_true, if_false, hh1]
        rw [cleanLoop_elem false _ n (below ns) [] 0 hn (below_headD ns) (le_refl _)]
        have hsep : (false && ([] : List Char).length != 1 ||
            !false && ([] : List Char).length != 0) = false := by decide
        rw [hsep]
        simp only [Bool.false_eq_true, if_false]
        have hpos := List.length_pos.mpr hn.1
        rw [cleanLoop_names false ns hns' _ _ _ (le_refl _) (by simp [hn.1])]
        have hne : ((below ns).reverse ++ (n.reverse ++ [])).length ≠ 0 := by
          simp [hn.1]
        rw [if_neg (by simpa using hne)]
        simp
    | succ k =>
      have hsucc : dotdots (k + 1) = ['.', '.'] :: dotdots k := by
        simp [dotdots, List.replicate_succ]
      simp only [Nat.succ_ne_zero, false_and, and_false, if_false, hsucc, List.cons_append,
        render_cons, Bool.false_eq_true, List.nil_append, below_append] at hp
      unfold cleanChars
      rw [hp]
      simp only [List.isEmpty_cons, Bool.false_eq_true, if_false, List.headD_cons]
      have hroot : IsPathSeparator '.' = false := by decide
      rw [hroot]
      simp only [Bool.false_eq_true, if_false]
      have hr' : (below (dotdots k) ++ below ns).headD '/' = '/' := by
        rw [← below_append]; exact below_headD _
      have h1 := cleanLoop_dotdot (('.' :: '.' :: (below (dotdots k) ++ below ns)).length)
        (below (dotdots k) ++ below ns) [] hr' (by simp)
      simp only [List.length_nil, gt_iff_lt, lt_self_iff_false, if_false, Nat.zero_add] at h1
      rw [h1]
      have h2 := cleanLoop_dotdots k _ ['.', '.'] (below ns) (List.cons_ne_nil _ _)
        (below_headD ns) (le_refl _)
      have h22 : (['.', '.'] : List Char).length = 2 := rfl
      rw [h22] at h2
      rw [h2]
      rw [cleanLoop_names false ns hns _ _ _ (le_refl _) (by simp)]
      have hne : ((below ns).reverse ++ ((below (dotdots k)).reverse ++ ['.', '.'])).length
          ≠ 0 := by simp
      rw [if_neg (by simp)]
      simp

/-- `filepath.Clean` is idempotent. -/
theorem cleanChars_idem (path : List Char) : cleanChars (cleanChars path) = cleanChars path :=
  cleanChars_of_cleanForm _ (cleanChars_cleanForm path)

theorem Clean_idem (path : String) : Clean (Clean path) = Clean path := by
  unfold Clean
  rw [cleanChars_idem]

/-! ### `filepath.Rel` on cleaned paths -/

theorem relLoop_nil_base (fuel : Nat) (targ : List Char) :
    relLoop fuel [] targ = ⟨[], targ, []⟩ := by
  cases fuel <;> simp [relLoop]

theorem relLoop_root (fuel : Nat) (b t : List Char) :
    relLoop (fuel + 1) ('/' :: b) ('/' :: t) = relLoop fuel b t := by
  simp [relLoop, IsPathSeparator, List.takeWhile_cons, List.dropWhile_cons]

/-- The element-matching loop of `Rel` on two element texts: the base is used up only if
its elements are the first elements of the target, and then the rest of the target is
left. -/
theorem relLoop_elements : ∀ (eb et : List (List Char)) (fuel : Nat),
    (∀ e ∈ eb, e ≠ [] ∧ ∀ c ∈ e, IsPathSeparator c = false) →
    (∀ e ∈ et, e ≠ [] ∧ ∀ c ∈ e, IsPathSeparator c = false) →
    ((below eb).drop 1).length ≤ fuel →
    (relLoop fuel ((below eb).drop 1) ((below et).drop 1)).baseRest = [] →
    ∃ rest, et = eb ++ rest ∧
      (relLoop fuel ((below eb).drop 1) ((below et).drop 1)).targRest = (below rest).drop 1 := by
  intro eb
  induction eb with
  | nil =>
    intro et fuel _ _ _ _
    refine ⟨et, rfl, ?_⟩
    rw [below_nil]
    simp [relLoop_nil_base]
  | cons e eb ih =>
    intro et fuel heb het hf hbase
    have he := heb e (List.mem_cons_self _ _)
    rw [below_cons] at hf hbase ⊢
    simp only [List.drop_succ_cons, List.drop_zero] at hf hbase ⊢
    have hepos := List.length_pos.mpr he.1
    cases fuel with
    | zero => simp only [List.length_append] at hf; omega
    | succ fuel =>
      have hbne : (e ++ below eb) ≠ [] := by
        intro h; exact he.1 (List.append_eq_nil.mp h).1
      cases et with
      | nil =>
        exfalso
        rw [below_nil] at hbase
        simp [relLoop] at hbase
        exact he.1 hbase.1
      | cons e' et =>
        have he' := het e' (List.mem_cons_self _ _)
        rw [below_cons] at hbase ⊢
        simp only [List.drop_succ_cons, List.drop_zero] at hbase ⊢
        have htne : (e' ++ below et) ≠ [] := by
          intro h; exact he'.1 (List.append_eq_nil.mp h).1
        obtain ⟨hb1, hb2⟩ := takeWhile_append_boundary e (below eb) he.2 (below_headD eb)
        obtain ⟨ht1, ht2⟩ := takeWhile_append_boundary e' (below et) he'.2 (below_headD et)
        have hunf : relLoop (fuel + 1) (e ++ below eb) (e' ++ below et) =
            if e' ≠ e then ⟨e ++ below eb, e' ++ below et, e⟩
            else relLoop fuel ((below eb).drop 1) ((below et).drop 1) := by
          rw [relLoop]
          simp only [hb1, hb2, ht1, ht2]
          rw [if_neg]
          simp [hbne, htne]
        rw [hunf] at hbase ⊢
        by_cases hee : e' ≠ e
        · rw [if_pos hee] at hbase
          exact absurd hbase hbne
        · rw [if_neg hee] at hbase ⊢
          have hee' : e' = e := not_not.mp hee
          subst hee'
          obtain ⟨rest, hrest, htarg⟩ := ih et fuel
            (fun x hx => heb x (List.mem_cons_of_mem _ hx))
            (fun x hx => het x (List.mem_cons_of_mem _ hx))
            (by
              simp only [List.length_append] at hf
              rw [List.length_drop]
              omega)
            hbase
          exact ⟨rest, by rw [hrest]; rfl, htarg⟩

theorem dotdots_mem {k : Nat} {e : List Char} (h : e ∈ dotdots k) : e = ['.', '.'] := by
  rw [dotdots, List.mem_replicate] at h
  exact h.2

/-- The elements of a cleaned path are non-empty and free of separators. -/
theorem elements_ok {k : Nat} {ns : List (List Char)} (hns : ∀ n ∈ ns, PlainName n) :
    ∀ e ∈ dotdots k ++ ns, e ≠ [] ∧ ∀ c ∈ e, IsPathSeparator c = false := by
  intro e he
  rw [List.mem_append] at he
  rcases he with he | he
  · rw [dotdots_mem he]
    exact ⟨List.cons_ne_nil _ _, by decide⟩
  · exact ⟨(hns e he).1, plainName_seps (hns e he)⟩

/-- No element of a cleaned path is `.`. -/
theorem elements_not_dot {k : Nat} {ns : List (List Char)} (hns : ∀ n ∈ ns, PlainName n) :
    ∀ e ∈ dotdots k ++ ns, e ≠ ['.'] := by
  intro e he
  rw [List.mem_append] at he
  rcases he with he | he
  · rw [dotdots_mem he]; decide
  · exact (hns e he).2.2.1

theorem render_slashed (rooted : Bool) (es : List (List Char))
    (hes : ∀ e ∈ es, e ≠ [] ∧ ∀ c ∈ e, IsPathSeparator c = false) :
    (!(render rooted es).isEmpty && (render rooted es).headD '.' == '/') = rooted := by
  cases rooted with
  | true => simp [render]
  | false =>
    cases es with
    | nil => simp [render, below]
    | cons e es =>
      rw [render_cons]
      have he := hes e (List.mem_cons_self _ _)
      cases hec : e with
      | nil => exact absurd hec he.1
      | cons c e' =>
        have hc := he.2 c (by rw [hec]; exact List.mem_cons_self _ _)
        simp only [IsPathSeparator] at hc
        simp [hc]

theorem render_ne_dot (rooted : Bool) (es : List (List Char))
    (hes : ∀ e ∈ es, e ≠ [] ∧ ∀ c ∈ e, IsPathSeparator c = false)
    (hdot : ∀ e ∈ es, e ≠ ['.']) (hne : rooted = false → es ≠ []) :
    render rooted es ≠ ['.'] := by
  cases rooted with
  | true => simp [render]
  | false =>
    cases es with
    | nil => exact absurd rfl (hne rfl)
    | cons e es =>
      rw [render_cons]
      simp only [Bool.false_eq_true, if_false, List.nil_append]
      intro h
      have he := hes e (List.mem_cons_self _ _)
      have hd := hdot e (List.mem_cons_self _ _)
      cases hec : e with
      | nil => exact absurd hec he.1
      | cons c e' =>
        rw [hec, List.cons_append, List.cons.injEq] at h
        obtain ⟨hc, hrest⟩ := h
        have he'nil : e' = [] := (List.append_eq_nil.mp hrest).1
        apply hd
        rw [hec, hc, he'nil]

theorem render_nonempty (rooted : Bool) (es : List (List Char))
    (hes : ∀ e ∈ es, e ≠ [] ∧ ∀ c ∈ e, IsPathSeparator c = false)
    (hne : rooted = false → es ≠ []) : render rooted es ≠ [] := by
  cases rooted with
  | true => simp [render]
  | false =>
    cases es with
    | nil => exact absurd rfl (hne rfl)
    | cons e es =>
      rw [render_cons]
      simp only [Bool.false_eq_true, if_false, List.nil_append]
      intro h
      exact (hes e (List.mem_cons_self _ _)).1 (List.append_eq_nil.mp h).1

/-- A cleaned path is `.` or the text of a non-empty cleaned element list. -/
theorem cleanForm_cases {p : List Char} (h : CleanForm p) :
    p = ['.'] ∨ ∃ (rooted : Bool) (k : Nat) (ns : List (List Char)),
      (∀ n ∈ ns, PlainName n) ∧ (rooted = true → k = 0) ∧
      (rooted = false → dotdots k ++ ns ≠ []) ∧ p = render rooted (dotdots k ++ ns) := by
  obtain ⟨rooted, k, ns, hns, hk, hp⟩ := h
  by_cases hc : rooted = false ∧ k = 0 ∧ ns = []
  · rw [if_pos hc] at hp
    exact Or.inl hp
  · rw [if_neg hc] at hp
    refine Or.inr ⟨rooted, k, ns, hns, hk, ?_, hp⟩
    intro hr hnil
    apply hc
    obtain ⟨h1, h2⟩ := List.append_eq_nil.mp hnil
    refine ⟨hr, ?_, h2⟩
    cases k with
    | zero => rfl
    | succ k => simp [dotdots, List.replicate_succ] at h1

/-- A relative path that goes up first is `..` or starts with `../`. -/
theorem up_rejected (seps : Nat) (tail : List Char)
    (htail : tail = [] ∨ ∃ t, tail = '/' :: t) :
    (['.', '.'] ++ (List.replicate seps ['/', '.', '.']).flatten ++ tail = ['.', '.']) ∨
    ['.', '.', '/'].isPrefixOf
      (['.', '.'] ++ (List.replicate seps ['/', '.', '.']).flatten ++ tail) = true := by
  cases seps with
  | succ n => right; simp [List.replicate_succ]
  | zero =>
    rcases htail with h | ⟨t, h⟩
    · left; simp [h]
    · right; simp [h]

theorem render_ne_slash (rooted : Bool) (es : List (List Char))
    (hes : ∀ e ∈ es, e ≠ [] ∧ ∀ c ∈ e, IsPathSeparator c = false) (hne : es ≠ []) :
    render rooted es ≠ ['/'] := by
  cases es with
  | nil => exact absurd rfl hne
  | cons e es =>
    have he := hes e (List.mem_cons_self _ _)
    rw [render_cons]
    cases hec : e with
    | nil => exact absurd hec he.1
    | cons c e' =>
      have hc := he.2 c (by rw [hec]; exact List.mem_cons_self _ _)
      cases rooted with
      | true => simp
      | false =>
        simp only [Bool.false_eq_true, if_false, List.nil_append, List.cons_append]
        intro h
        rw [List.cons.injEq] at h
        rw [h.1] at hc
        revert hc
        decide

theorem below_of_ne_nil {es : List (List Char)} (h : es ≠ []) :
    '/' :: (below es).drop 1 = below es := by
  cases es with
  | nil => exact absurd rfl h
  | cons e es => rw [below_cons]; rfl

theorem plain_ok {ns : List (List Char)} (hns : ∀ n ∈ ns, PlainName n) :
    ∀ e ∈ ns, e ≠ [] ∧ ∀ c ∈ e, IsPathSeparator c = false :=
  fun e he => ⟨(hns e he).1, plainName_seps (hns e he)⟩

/-- The base of `Rel`, with `.` read as the empty path, is the text of an element list. -/
theorem base_elements {B : List Char} (hB : CleanForm B) :
    ∃ (rb : Bool) (eb : List (List Char)),
      (if B = ['.'] then [] else B) = render rb eb ∧
      (∀ e ∈ eb, e ≠ [] ∧ ∀ c ∈ e, IsPathSeparator c = false) ∧
      (∀ e ∈ eb, e ≠ ['.']) ∧
      ((B = ['.'] ∧ rb = false ∧ eb = []) ∨
        (B ≠ ['.'] ∧ B = render rb eb ∧ (rb = false → eb ≠ []))) := by
  rcases cleanForm_cases hB with hBdot | ⟨rb, kb, nb, hnb, hkb, hneb, hBr⟩
  · exact ⟨false, [], by rw [if_pos hBdot]; rfl, by simp, by simp, Or.inl ⟨hBdot, rfl, rfl⟩⟩
  · have hnd : B ≠ ['.'] := by
      rw [hBr]
      exact render_ne_dot rb _ (elements_ok hnb) (elements_not_dot hnb) hneb
    exact ⟨rb, dotdots kb ++ nb, by rw [if_neg hnd]; exact hBr, elements_ok hnb,
      elements_not_dot hnb, Or.inr ⟨hnd, hBr, hneb⟩⟩

/-- The core of `IsAllowedPath`: when `Rel` of two cleaned paths succeeds with a result
that is not `..` and does not start with `../`, the target is the base or a descendant
of it. -/
theorem relChars_allowed (B T : List Char) (hB : CleanForm B) (hT : CleanForm T)
    (rel : List Char) (hrel : relChars B T = some rel) (h1 : rel ≠ ['.', '.'])
    (h2 : ['.', '.', '/'].isPrefixOf rel = false) :
    T = B ∨ ∃ ns : List (List Char), ns ≠ [] ∧ (∀ n ∈ ns, PlainName n) ∧
      T = if B = ['.'] then (below ns).drop 1
          else if B = ['/'] then below ns
          else B ++ below ns := by
  by_cases hTB : T = B
  · exact Or.inl hTB
  right
  unfold relChars at hrel
  rw [cleanChars_of_cleanForm B hB, cleanChars_of_cleanForm T hT] at hrel
  simp only [hTB, if_false] at hrel
  -- the base, with `.` read as the empty path
  obtain ⟨rb, eb, hbase, heb, hebdot, hBcase⟩ := base_elements hB
  -- the target, with `.` read as the single element `.`
  obtain ⟨rt, et, hTr, het, hetne, hTcase⟩ : ∃ (rt : Bool) (et : List (List Char)),
      T = render rt et ∧
      (∀ e ∈ et, e ≠ [] ∧ ∀ c ∈ e, IsPathSeparator c = false) ∧
      (rt = false → et ≠ []) ∧
      ((T = ['.'] ∧ rt = false ∧ et = [['.']]) ∨
        ∃ (kt : Nat) (nt : List (List Char)), (∀ n ∈ nt, PlainName n) ∧
          et = dotdots kt ++ nt) := by
    rcases cleanForm_cases hT with hTdot | ⟨rt, kt, nt, hnt, hkt, hnet, hTr⟩
    · refine ⟨false, [['.']], by rw [hTdot]; rfl, ?_, by simp, Or.inl ⟨hTdot, rfl, rfl⟩⟩
      intro e he
      rw [List.mem_singleton] at he
      rw [he]
      exact ⟨List.cons_ne_nil _ _, by decide⟩
    · exact ⟨rt, dotdots kt ++ nt, hTr, elements_ok hnt, hnet, Or.inr ⟨kt, nt, hnt, rfl⟩⟩
  rw [hbase] at hrel
  rw [render_slashed rb eb heb] at hrel
  have hts : (!T.isEmpty && T.headD '.' == '/') = rt := by
    rw [hTr]; exact render_slashed rt et het
  rw [hts] at hrel
  have hroots : rb = rt := by
    by_contra hne
    have : (rb != rt) = true := by simpa using hne
    rw [this] at hrel
    simp at hrel
  subst hroots
  simp only [bne_self_eq_false, Bool.false_eq_true, if_false] at hrel
  -- the loop, on the element texts
  have hloop : relLoop (render rb eb).length (render rb eb) T =
      relLoop ((below eb).drop 1).length ((below eb).drop 1) ((below et).drop 1) := by
    rw [hTr]
    cases rb with
    | true =>
      simp only [render, if_true, List.singleton_append, List.length_cons]
      exact relLoop_root _ _ _
    | false => simp only [render, Bool.false_eq_true, if_false, List.nil_append]
  rw [hloop] at hrel
  have hel := relLoop_elements eb et _ heb het (le_refl _)
  generalize relLoop ((below eb).drop 1).length ((below eb).drop 1) ((below et).drop 1) = pos
    at hrel hel
  by_cases hdd : pos.baseWord = ['.', '.']
  · rw [if_pos hdd] at hrel
    cases hrel
  rw [if_neg hdd] at hrel
  by_cases hleft : pos.baseRest = []
  swap
  · -- base elements left: the result goes up
    exfalso
    have hne : (!pos.baseRest.isEmpty) = true := by
      cases hb : pos.baseRest with
      | nil => exact absurd hb hleft
      | cons a l => rfl
    rw [if_pos hne] at hrel
    cases htr : pos.targRest with
    | nil =>
      rw [htr] at hrel
      have hr : ['.', '.'] ++ (List.replicate (List.count '/' pos.baseRest)
          ['/', '.', '.']).flatten = rel := by
        simpa using hrel
      have := up_rejected (List.count '/' pos.baseRest) [] (Or.inl rfl)
      rw [List.append_nil, hr] at this
      rcases this with h | h
      · exact h1 h
      · rw [h2] at h; cases h
    | cons a l =>
      rw [htr] at hrel
      have hr : ['.', '.'] ++ (List.replicate (List.count '/' pos.baseRest)
          ['/', '.', '.']).flatten ++ '/' :: a :: l = rel := by
        simpa using hrel
      have := up_rejected (List.count '/' pos.baseRest) ('/' :: a :: l) (Or.inr ⟨_, rfl⟩)
      rw [hr] at this
      rcases this with h | h
      · exact h1 h
      · rw [h2] at h; cases h
  -- the base is used up
  have hemp : (!pos.baseRest.isEmpty) = false := by rw [hleft]; rfl
  rw [hemp] at hrel
  simp only [Bool.false_eq_true, if_false] at hrel
  obtain ⟨rest, hrest, htarg⟩ := hel hleft
  rw [htarg] at hrel
  have hrel' : rel = (below rest).drop 1 := (Option.some.inj hrel).symm
  have hrest_ne : rest ≠ [] := by
    intro hnil
    rw [hnil, List.append_nil] at hrest
    rw [hrest] at hTr
    have hTne : T ≠ [] := by
      rw [hTr]
      exact render_nonempty rb eb heb (by rw [← hrest]; exact hetne)
    rcases hBcase with ⟨hBdot, hrb, hebnil⟩ | ⟨hBnd, hBr, -⟩
    · apply hTne
      rw [hTr, hrb, hebnil]
      rfl
    · exact hTB (by rw [hTr, hBr])
  have hhead : ∀ r0 rest', rest = r0 :: rest' → r0 ≠ ['.', '.'] := by
    intro r0 rest' hr hr0
    rw [hr, hr0, below_cons] at hrel'
    simp only [List.drop_succ_cons, List.drop_zero, List.cons_append, List.nil_append] at hrel'
    cases rest' with
    | nil => exact h1 (by rw [hrel']; rfl)
    | cons a l =>
      rw [below_cons] at hrel'
      rw [hrel'] at h2
      simp at h2
  have hplain : ∀ n ∈ rest, PlainName n := by
    rcases hTcase with ⟨hTdot, hrt, hetdot⟩ | ⟨kt, nt, hnt, hetk⟩
    · exfalso
      rw [hetdot] at hrest
      cases eb with
      | nil =>
        rcases hBcase with ⟨hBdot, -, -⟩ | ⟨-, -, hne⟩
        · exact hTB (by rw [hTdot, hBdot])
        · exact hne hrt rfl
      | cons e eb' =>
        rw [List.cons_append, List.cons.injEq] at hrest
        exact hebdot e (List.mem_cons_self _ _) hrest.1.symm
    · rw [hetk] at hrest
      rcases List.append_eq_append_iff.mp hrest with ⟨a', ha1, ha2⟩ | ⟨c', hc1, hc2⟩
      · -- ha1 : eb = dotdots kt ++ a', ha2 : nt = a' ++ rest
        intro n hn
        exact hnt n (by rw [ha2]; exact List.mem_append_right _ hn)
      · -- hc1 : dotdots kt = eb ++ c', hc2 : rest = c' ++ nt
        cases c' with
        | nil =>
          rw [List.nil_append] at hc2
          intro n hn
          exact hnt n (by rw [← hc2]; exact hn)
        | cons x c'' =>
          exfalso
          have hx : x = ['.', '.'] :=
            dotdots_mem (by rw [hc1]; exact List.mem_append_right _ (List.mem_cons_self _ _))
          exact hhead x (c'' ++ nt) (by rw [hc2]; rfl) hx
  refine ⟨rest, hrest_ne, hplain, ?_⟩
  rw [hTr, hrest]
  rcases hBcase with ⟨hBdot, hrb, hebnil⟩ | ⟨hBnd, hBr, hBne⟩
  · rw [if_pos hBdot, hrb, hebnil]
    simp [render]
  · rw [if_neg hBnd]
    by_cases hebnil : eb = []
    · have hrb : rb = true := by
        cases rb with
        | true => rfl
        | false => exact absurd hebnil (hBne rfl)
      have hBs : B = ['/'] := by rw [hBr, hebnil, hrb]; rfl
      rw [if_pos hBs, hebnil, hrb, List.nil_append]
      simp only [render, if_true, List.singleton_append]
      exact below_of_ne_nil hrest_ne
    · have hBs : B ≠ ['/'] := by
        rw [hBr]; exact render_ne_slash rb eb heb hebnil
      rw [if_neg hBs, render_append rb eb rest hebnil, hBr]

theorem string_eq_iff (s t : String) : s = t ↔ s.data = t.data := by
  constructor
  · intro h; rw [h]
  · intro h; exact String.ext h

/-- Whatever `IsAllowedPath` accepts is lexically contained in the base directory. -/
theorem isAllowedPath_inside (basePath filePath : String)
    (h : utils.IsAllowedPath basePath filePath = true) :
    Inside (Clean basePath) (Clean filePath) := by
  unfold utils.IsAllowedPath filepath.Rel at h
  simp only at h
  cases hrel : relChars (Clean basePath).data (Clean filePath).data with
  | none => rw [hrel] at h; simp at h
  | some rel =>
    rw [hrel] at h
    simp only [Bool.and_eq_true, Bool.not_eq_true', bne_iff_ne, ne_eq] at h
    obtain ⟨hpre, hne⟩ := h
    have hB : CleanForm (Clean basePath).data := cleanChars_cleanForm _
    have hT : CleanForm (Clean filePath).data := cleanChars_cleanForm _
    have h1 : rel ≠ ['.', '.'] := by
      intro hr
      apply hne
      rw [string_eq_iff, hr]
    have h2 : ['.', '.', '/'].isPrefixOf rel = false := hpre
    rcases relChars_allowed _ _ hB hT rel hrel h1 h2 with heq | ⟨ns, hns, hplain, hform⟩
    · exact Or.inl ((string_eq_iff _ _).mpr heq)
    · refine Or.inr ⟨ns, hns, hplain, ?_⟩
      rw [hform]
      have e1 : (Clean basePath = ".") ↔ ((Clean basePath).data = ['.']) := string_eq_iff _ _
      have e2 : (Clean basePath = "/") ↔ ((Clean basePath).data = ['/']) := string_eq_iff _ _
      by_cases c1 : (Clean basePath).data = ['.']
      · rw [if_pos c1, if_pos (e1.mpr c1)]
      · rw [if_neg c1, if_neg (fun hh => c1 (e1.mp hh))]
        by_cases c2 : (Clean basePath).data = ['/']
        · rw [if_pos c2, if_pos (e2.mpr c2)]
        · rw [if_neg c2, if_neg (fun hh => c2 (e2.mp hh))]

/-! ### The converse: `IsAllowedPath` accepts every contained path -/

/-- The element-matching loop of `Rel` uses up a base whose elements start the target. -/
theorem relLoop_prefix : ∀ (eb rest : List (List Char)) (fuel : Nat),
    (∀ e ∈ eb, e ≠ [] ∧ ∀ c ∈ e, IsPathSeparator c = false) →
    ((below eb).drop 1).length ≤ fuel →
    relLoop fuel ((below eb).drop 1) ((below (eb ++ rest)).drop 1) =
      ⟨[], (below rest).drop 1, []⟩ := by
  intro eb
  induction eb with
  | nil =>
    intro rest fuel _ _
    rw [below_nil]
    simp [relLoop_nil_base]
  | cons e eb ih =>
    intro rest fuel heb hf
    have he := heb e (List.mem_cons_self _ _)
    rw [List.cons_append, below_cons, below_cons] at *
    simp only [List.drop_succ_cons, List.drop_zero] at hf ⊢
    have hepos := List.length_pos.mpr he.1
    cases fuel with
    | zero => simp only [List.length_append] at hf; omega
    | succ fuel =>
      have hbne : (e ++ below eb) ≠ [] := by
        intro h; exact he.1 (List.append_eq_nil.mp h).1
      have htne : (e ++ below (eb ++ rest)) ≠ [] := by
        intro h; exact he.1 (List.append_eq_nil.mp h).1
      obtain ⟨hb1, hb2⟩ := takeWhile_append_boundary e (below eb) he.2 (below_headD eb)
      obtain ⟨ht1, ht2⟩ := takeWhile_append_boundary e (below (eb ++ rest)) he.2
        (below_headD _)
      rw [relLoop]
      simp only [hb1, hb2, ht1, ht2]
      rw [if_neg (by simp [hbne, htne]), if_neg (by simp)]
      apply ih rest fuel (fun x hx => heb x (List.mem_cons_of_mem _ hx))
      simp only [List.length_append] at hf
      rw [List.length_drop]
      omega

/-- The text of ordinary elements is not `..` and does not start with `../`. -/
theorem plain_text_stays_below {ns : List (List Char)} (hne : ns ≠ [])
    (hns : ∀ n ∈ ns, PlainName n) :
    (below ns).drop 1 ≠ ['.', '.'] ∧ ['.', '.', '/'].isPrefixOf ((below ns).drop 1) = false := by
  cases ns with
  | nil => exact absurd rfl hne
  | cons n ns =>
    have hn := hns n (List.mem_cons_self _ _)
    have hseps := plainName_seps hn
    rw [below_cons]
    simp only [List.drop_succ_cons, List.drop_zero]
    have hb := below_headD ns
    obtain ⟨htw, -⟩ := takeWhile_append_boundary n (below ns) hseps hb
    constructor
    · intro h
      rw [h] at htw
      have : n = ['.', '.'] := by rw [← htw]; decide
      exact hn.2.2.2 this
    · cases hp : ['.', '.', '/'].isPrefixOf (n ++ below ns) with
      | false => rfl
      | true =>
        exfalso
        rw [List.isPrefixOf_iff_prefix] at hp
        obtain ⟨t, ht⟩ := hp
        rw [← ht] at htw
        have : n = ['.', '.'] := by
          rw [← htw]
          simp [List.takeWhile_cons, IsPathSeparator]
        exact hn.2.2.2 this

/-- On a cleaned base and a descendant of it `Rel` returns the text of the elements below
the base. -/
theorem relChars_descendant (B T : List Char) (hB : CleanForm B) (hT : CleanForm T)
    (ns : List (List Char)) (hne : ns ≠ []) (hns : ∀ n ∈ ns, PlainName n)
    (hform : T = if B = ['.'] then (below ns).drop 1
                 else if B = ['/'] then below ns
                 else B ++ below ns) :
    relChars B T = some ((below ns).drop 1) := by
  obtain ⟨rb, eb, hbase, heb, hebdot, hBcase⟩ := base_elements hB
  have hnsok := plain_ok hns
  have hall : ∀ e ∈ eb ++ ns, e ≠ [] ∧ ∀ c ∈ e, IsPathSeparator c = false := by
    intro e he
    rw [List.mem_append] at he
    rcases he with he | he
    · exact heb e he
    · exact hnsok e he
  have hTr : T = render rb (eb ++ ns) := by
    rcases hBcase with ⟨hBdot, hrb, hebnil⟩ | ⟨hBnd, hBr, hBne⟩
    · rw [hform, if_pos hBdot, hrb, hebnil]
      simp [render]
    · rw [if_neg hBnd] at hform
      by_cases hBs : B = ['/']
      · rw [if_pos hBs] at hform
        have hebnil : eb = [] := by
          by_contra hcon
          exact render_ne_slash rb eb heb hcon (by rw [← hBr]; exact hBs)
        have hrb : rb = true := by
          cases rb with
          | true => rfl
          | false => exact absurd hebnil (hBne rfl)
        rw [hform, hebnil, hrb, List.nil_append]
        simp only [render, if_true, List.singleton_append]
        exact (below_of_ne_nil hne).symm
      · rw [if_neg hBs] at hform
        have hebne : eb ≠ [] := by
          intro hebnil
          apply hBs
          have hrb : rb = true := by
            cases rb with
            | true => rfl
            | false => exact absurd hebnil (hBne rfl)
          rw [hBr, hebnil, hrb]
          rfl
        rw [hform, render_append rb eb ns hebne, hBr]
  have hTB : T ≠ B := by
    rcases hBcase with ⟨hBdot, hrb, hebnil⟩ | ⟨hBnd, hBr, hBne⟩
    · rw [hTr, hBdot, hrb, hebnil, List.nil_append]
      exact render_ne_dot false ns hnsok (fun e he => (hns e he).2.2.1) (fun _ => hne)
    · intro hcon
      have := length_render_lt rb eb ns hne (fun e he => (hnsok e he).1)
      rw [← hTr, hcon, hBr] at this
      exact lt_irrefl _ this
  unfold relChars
  rw [cleanChars_of_cleanForm B hB, cleanChars_of_cleanForm T hT]
  simp only [hTB, if_false]
  rw [hbase, render_slashed rb eb heb]
  have hts : (!T.isEmpty && T.headD '.' == '/') = rb := by
    rw [hTr]; exact render_slashed rb _ hall
  rw [hts]
  simp only [bne_self_eq_false, Bool.false_eq_true, if_false]
  have hloop : relLoop (render rb eb).length (render rb eb) T =
      relLoop ((below eb).drop 1).length ((below eb).drop 1) ((below (eb ++ ns)).drop 1) := by
    rw [hTr]
    cases rb with
    | true =>
      simp only [render, if_true, List.singleton_append, List.length_cons]
      exact relLoop_root _ _ _
    | false => simp only [render, Bool.false_eq_true, if_false, List.nil_append]
  rw [hloop, relLoop_prefix eb ns _ heb (le_refl _)]
  simp

/-- `IsAllowedPath` accepts every path that is lexically contained in the base. -/
theorem inside_isAllowedPath (basePath filePath : String)
    (h : Inside (Clean basePath) (Clean filePath)) :
    utils.IsAllowedPath basePath filePath = true := by
  have hB : CleanForm (Clean basePath).data := cleanChars_cleanForm _
  have hT : CleanForm (Clean filePath).data := cleanChars_cleanForm _
  unfold utils.IsAllowedPath filepath.Rel
  simp only
  rcases h with heq | ⟨ns, hne, hns, hform⟩
  · have : relChars (Clean basePath).data (Clean filePath).data = some ['.'] := by
      unfold relChars
      rw [cleanChars_of_cleanForm _ hB, cleanChars_of_cleanForm _ hT, heq]
      simp
    rw [this]
    rfl
  · have e1 : (Clean basePath = ".") ↔ ((Clean basePath).data = ['.']) := string_eq_iff _ _
    have e2 : (Clean basePath = "/") ↔ ((Clean basePath).data = ['/']) := string_eq_iff _ _
    have hform' : (Clean filePath).data =
        if (Clean basePath).data = ['.'] then (below ns).drop 1
        else if (Clean basePath).data = ['/'] then below ns
        else (Clean basePath).data ++ below ns := by
      rw [hform]
      by_cases c1 : (Clean basePath).data = ['.']
      · rw [if_pos c1, if_pos (e1.mpr c1)]
      · rw [if_neg c1, if_neg (fun hh => c1 (e1.mp hh))]
        by_cases c2 : (Clean basePath).data = ['/']
        · rw [if_pos c2, if_pos (e2.mpr c2)]
        · rw [if_neg c2, if_neg (fun hh => c2 (e2.mp hh))]
    rw [relChars_descendant _ _ hB hT ns hne hns hform']
    obtain ⟨h1, h2⟩ := plain_text_stays_below hne hns
    simp only [strings.HasPrefix, Bool.and_eq_true, Bool.not_eq_true', bne_iff_ne, ne_eq]
    refine ⟨h2, ?_⟩
    intro hcon
    apply h1
    have := (string_eq_iff _ _).mp hcon
    exact this

/-- `IsAllowedPath` decides lexical containment in the cleaned base directory. -/
theorem isAllowedPath_iff_inside (basePath filePath : String) :
    utils.IsAllowedPath basePath filePath = true ↔
      Inside (Clean basePath) (Clean filePath) :=
  ⟨isAllowedPath_inside basePath filePath, inside_isAllowedPath basePath filePath⟩

/-- The models of `Clean` and `Rel` on rows of the test tables of the Go library, and of
`Rel` on a base whose first element differs from the target's and is `..`. -/
theorem clean_rel_examples :
    Clean "" = "." ∧ Clean "abc//def//ghi" = "abc/def/ghi" ∧ Clean "abc/def/../../.." = ".." ∧
    Clean "/abc/def/../../.." = "/" ∧ Clean "abc/../../././../def" = "../../def" ∧
    Clean "/../abc" = "/abc" ∧
    (filepath.Rel "a/b" "a/b/c/d").toOption = some "c/d" ∧
    (filepath.Rel "ab/cd" "ab/cde").toOption = some "../cde" ∧
    (filepath.Rel "a/b/c/d" "a/b").toOption = some "../.." ∧
    (filepath.Rel "/a/b" "/a/b/.").toOption = some "." ∧
    (filepath.Rel "." "..").toOption = some ".." ∧
    (filepath.Rel ".." "a").toOption = none ∧
    (filepath.Rel "../a" "b").toOption = none ∧
    (filepath.Rel "a" "/a").toOption = none ∧
    utils.IsAllowedPath "./storage" (Join ["./storage", "0b0e4c2e"]) = true ∧
    utils.IsAllowedPath "./storage" (Join ["./storage", "../storage2/x"]) = false := by
  decide

/-- C2. Path safety of the content slot: when the cleaned path `Join(base, id)` is neither
the cleaned base directory nor a descendant of it, `IsAllowedPath` is false, `Store`,
`Retrieve`, `Delete` and `GetMetadata` return the error "invalid file path" and `Exists`
returns false, and none of them makes a system call (the state and the empty call log
come back unchanged). -/
theorem path_outside_base_rejected {σ F : Type} (sys : os.System σ F) (ls : LocalStorage)
    (fileID : String) (reader : List Nat) (metadata : FileMetadata) (s : σ)
    (hout : ¬ Inside (Clean ls.basePath) (Clean (Join [ls.basePath, fileID]))) :
    utils.IsAllowedPath ls.basePath (Join [ls.basePath, fileID]) = false ∧
    LocalStorage.Store (os.traced sys) ls fileID reader metadata (s, []) =
      (some "invalid file path", (s, [])) ∧
    LocalStorage.Retrieve (os.traced sys) ls fileID (s, []) =
      ((none, FileMetadata.zero, some "invalid file path"), (s, [])) ∧
    LocalStorage.Delete (os.traced sys) ls fileID (s, []) =
      (some "invalid file path", (s, [])) ∧
    LocalStorage.GetMetadata (os.traced sys) ls fileID (s, []) =
      ((FileMetadata.zero, some "invalid file path"), (s, [])) ∧
    LocalStorage.Exists (os.traced sys) ls fileID (s, []) = (false, (s, [])) := by
  have hfalse : utils.IsAllowedPath ls.basePath (Join [ls.basePath, fileID]) = false := by
    cases h : utils.IsAllowedPath ls.basePath (Join [ls.basePath, fileID])
    · rfl
    · exact absurd (isAllowedPath_inside _ _ h) hout
  refine ⟨hfalse, ?_, ?_, ?_, ?_, ?_⟩
  · unfold LocalStorage.Store; simp [hfalse]
  · unfold LocalStorage.Retrieve; simp [hfalse]
  · unfold LocalStorage.Delete; simp [hfalse]
  · unfold LocalStorage.GetMetadata; simp [hfalse]
  · unfold LocalStorage.Exists; simp [hfalse]

theorem example_clean : Clean "/srv/storage" = "/srv/storage" ∧
    Clean (Join ["/srv/storage", "../../etc/passwd"]) = "/etc/passwd" := by decide

theorem example_outside :
    ¬ Inside (Clean "/srv/storage") (Clean (Join ["/srv/storage", "../../etc/passwd"])) := by
  rw [example_clean.1, example_clean.2]
  rintro (h | ⟨ns, hne, -, h⟩)
  · revert h; decide
  · cases ns with
    | nil => exact hne rfl
    | cons n ns =>
      rw [below_cons] at h
      simp at h

theorem path_outside_base_rejected_witness :
    ¬ Inside (Clean "/srv/storage") (Clean (Join ["/srv/storage", "../../etc/passwd"])) ∧
    utils.IsAllowedPath "/srv/storage" (Join ["/srv/storage", "../../etc/passwd"]) = false ∧
    LocalStorage.GetMetadata (os.traced os.memSystem) (NewLocalStorage "/srv/storage")
        "../../etc/passwd" ([], []) =
      ((FileMetadata.zero, some "invalid file path"), ([], [])) :=
  ⟨example_outside,
    (path_outside_base_rejected os.memSystem (NewLocalStorage "/srv/storage")
      "../../etc/passwd" [] FileMetadata.zero [] example_outside).1,
    (path_outside_base_rejected os.memSystem (NewLocalStorage "/srv/storage")
      "../../etc/passwd" [] FileMetadata.zero [] example_outside).2.2.2.2.1⟩

/-- C3 (the code at the failing input). With the base directory `./storage` and the
identifier `.` the path check passes, the content path is the base directory `storage`
itself, not a descendant of it, and the metadata path `storage.meta` is a sibling of the
base directory, outside it; `GetMetadata` opens that file. -/
theorem metadata_path_escapes_base :
    utils.IsAllowedPath "./storage" (Join ["./storage", "."]) = true ∧
    Clean "./storage" = "storage" ∧
    Join ["./storage", "."] = "storage" ∧
    Join ["./storage", "."] ++ ".meta" = "storage.meta" ∧
    ¬ Descendant (Clean "./storage") (Join ["./storage", "."]) ∧
    ¬ Inside (Clean "./storage") (Join ["./storage", "."] ++ ".meta") ∧
    (LocalStorage.GetMetadata (os.traced os.memSystem) (NewLocalStorage "./storage") "."
        ([], [])).2.2 = [os.Syscall.openFile "storage.meta"] := by
  have hc : Clean "./storage" = "storage" := by decide
  have hj : Join ["./storage", "."] = "storage" := by decide
  refine ⟨by decide, hc, hj, by decide, ?_, ?_, by decide⟩
  · rw [hc, hj]
    rintro ⟨ns, hne, -, h⟩
    cases ns with
    | nil => exact hne rfl
    | cons n ns =>
      rw [below_cons] at h
      simp at h
  · rw [hc, hj]
    rintro (h | ⟨ns, hne, -, h⟩)
    · revert h; decide
    · cases ns with
      | nil => exact hne rfl
      | cons n ns =>
        rw [below_cons] at h
        simp at h

/-! ### The two slots of an identifier that does not resolve to the base itself -/

/-- The result of `Join` is cleaned, except that joining two empty strings gives the
empty string. -/
theorem join_cleaned (basePath fileID : String) :
    (basePath = "" ∧ fileID = "" ∧ Join [basePath, fileID] = "") ∨
    Clean (Join [basePath, fileID]) = Join [basePath, fileID] := by
  by_cases hb : basePath = ""
  · by_cases hi : fileID = ""
    · left
      refine ⟨hb, hi, ?_⟩
      rw [hb, hi]
      rfl
    · right
      have hj : Join [basePath, fileID] = Clean (String.intercalate "/" [fileID]) := by
        rw [hb]
        unfold Join
        rw [if_neg (by simp)]
        unfold Join
        rw [if_pos hi]
      rw [hj]
      exact Clean_idem _
  · right
    have hj : Join [basePath, fileID] = Clean (String.intercalate "/" [basePath, fileID]) := by
      unfold Join
      rw [if_pos hb]
    rw [hj]
    exact Clean_idem _

theorem plainName_meta {n : List Char} (hn : PlainName n) : PlainName (n ++ ".meta".data) := by
  refine ⟨?_, ?_, ?_, ?_⟩
  · intro h
    exact hn.1 (List.append_eq_nil.mp h).1
  · intro h
    rw [List.mem_append] at h
    rcases h with h | h
    · exact hn.2.1 h
    · revert h; decide
  · intro h
    have := congrArg List.length h
    simp at this
  · intro h
    have := congrArg List.length h
    rw [List.length_append] at this
    have h5 : ".meta".data.length = 5 := by decide
    rw [h5] at this
    simp at this

/-- Appending `.meta` to a descendant of a directory gives a descendant of it. -/
theorem descendant_meta (base path : String) (h : Descendant base path) :
    Descendant base (path ++ ".meta") := by
  obtain ⟨ns, hne, hns, hform⟩ := h
  have hsnoc : ∃ init last, ns = init ++ [last] := by
    refine ⟨ns.dropLast, ns.getLast hne, ?_⟩
    exact (List.dropLast_append_getLast hne).symm
  obtain ⟨init, last, hns'⟩ := hsnoc
  have hbelow : below (init ++ [last ++ ".meta".data]) = below ns ++ ".meta".data := by
    rw [hns', below_append, below_append, below_cons, below_cons, below_nil]
    simp
  refine ⟨init ++ [last ++ ".meta".data], by simp, ?_, ?_⟩
  · intro n hn
    rw [List.mem_append, List.mem_singleton] at hn
    rcases hn with hn | hn
    · exact hns n (by rw [hns']; exact List.mem_append_left _ hn)
    · rw [hn]
      exact plainName_meta (hns last (by rw [hns']; simp))
  · rw [hbelow, String.data_append, hform]
    by_cases c1 : base = "."
    · rw [if_pos c1, if_pos c1]
      have := below_ne_nil hne
      cases hb : below ns with
      | nil => exact absurd hb this
      | cons a l => rfl
    · rw [if_neg c1, if_neg c1]
      by_cases c2 : base = "/"
      · rw [if_pos c2, if_pos c2]
      · rw [if_neg c2, if_neg c2, List.append_assoc]

/-- What holds of the two slots (C3): when the path check passes and the content path is
not the base directory itself, the content path and the metadata path are both
descendants of the cleaned base directory. -/
theorem slots_descend_unless_base (basePath fileID : String)
    (h : utils.IsAllowedPath basePath (Join [basePath, fileID]) = true)
    (hne : Clean (Join [basePath, fileID]) ≠ Clean basePath) :
    Descendant (Clean basePath) (Join [basePath, fileID]) ∧
    Descendant (Clean basePath) (Join [basePath, fileID] ++ ".meta") := by
  have hin := isAllowedPath_inside _ _ h
  have hd : Descendant (Clean basePath) (Clean (Join [basePath, fileID])) := by
    rcases hin with heq | hd
    · exact absurd heq hne
    · exact hd
  rcases join_cleaned basePath fileID with ⟨hb, hi, hj⟩ | hc
  · exfalso
    apply hne
    rw [hj, hb]
  · rw [hc] at hd
    exact ⟨hd, descendant_meta _ _ hd⟩

/-! ## The rate limiter (C4 to C7) -/

theorem rateLimitStep_rateLimit (m : Middleware) (k : String) (now : Int) :
    (m.rateLimitStep k now).m.rateLimit = m.rateLimit := by
  unfold Middleware.rateLimitStep
  simp only
  split <;> rfl

theorem rateLimitStep_window_other (m : Middleware) (k k' : String) (now : Int) (h : k' ≠ k) :
    (m.rateLimitStep k now).m.window k' = m.window k' := by
  unfold Middleware.rateLimitStep
  simp only
  split
  · rfl
  · simp [Middleware.window, h]

theorem rateLimitStep_next_iff (m : Middleware) (k : String) (now : Int) :
    (m.rateLimitStep k now).next = true ↔
      (((m.window k).filter (fun t => decide (t > now + (-Minute)))).length : Int) < m.rateLimit := by
  unfold Middleware.rateLimitStep
  simp only
  split
  · rename_i h
    constructor
    · intro h'; cases h'
    · intro h'; omega
  · rename_i h
    constructor
    · intro _; omega
    · intro _; rfl

theorem rateLimitStep_reject (m : Middleware) (k : String) (now : Int)
    (h : (m.rateLimitStep k now).next = false) : (m.rateLimitStep k now).m = m := by
  unfold Middleware.rateLimitStep at h ⊢
  simp only at h ⊢
  split
  · rfl
  · rename_i hlt
    rw [if_neg hlt] at h
    simp at h

theorem rateLimitStep_accept (m : Middleware) (k : String) (now : Int)
    (h : (m.rateLimitStep k now).next = true) :
    (m.rateLimitStep k now).m.window k =
      (m.window k).filter (fun t => decide (t > now + (-Minute))) ++ [now] := by
  unfold Middleware.rateLimitStep at h ⊢
  simp only at h ⊢
  split
  · rename_i hge
    rw [if_pos hge] at h
    simp at h
  · simp [Middleware.window]

theorem rateLimitStep_response (m : Middleware) (k : String) (now : Int)
    (h : (m.rateLimitStep k now).next = false) :
    (m.rateLimitStep k now).response = some ErrRateLimitExceeded := by
  unfold Middleware.rateLimitStep at h ⊢
  simp only at h ⊢
  split
  · rfl
  · rename_i hlt
    rw [if_neg hlt] at h
    simp at h

theorem run_rateLimit (reqs : List Request) : ∀ m : Middleware,
    (m.run reqs).rateLimit = m.rateLimit := by
  induction reqs with
  | nil => intro m; rfl
  | cons r rs ih =>
    intro m
    simp only [Middleware.run]
    rw [ih, rateLimitStep_rateLimit]

theorem run_append (a b : List Request) : ∀ m : Middleware,
    m.run (a ++ b) = (m.run a).run b := by
  induction a with
  | nil => intro m; rfl
  | cons r rs ih => intro m; exact ih _

theorem decisions_append (a b : List Request) : ∀ m : Middleware,
    m.decisions (a ++ b) = m.decisions a ++ (m.run a).decisions b := by
  induction a with
  | nil => intro m; rfl
  | cons r rs ih =>
    intro m
    show _ :: _ = _ :: _
    exact congrArg _ (ih _)

/-- One step keeps every window in time order and below the clock. -/
theorem rateLimitStep_ordered (m : Middleware) (k : String) (now : Int)
    (hs : ∀ k', (m.window k').Pairwise (· ≤ ·))
    (hb : ∀ k', ∀ x ∈ m.window k', x ≤ now) :
    (∀ k', ((m.rateLimitStep k now).m.window k').Pairwise (· ≤ ·)) ∧
    (∀ k', ∀ x ∈ (m.rateLimitStep k now).m.window k', x ≤ now) := by
  have key : ∀ k', ((m.rateLimitStep k now).m.window k').Pairwise (· ≤ ·) ∧
      ∀ x ∈ (m.rateLimitStep k now).m.window k', x ≤ now := by
    intro k'
    by_cases hk : k' = k
    · subst hk
      cases hn : (m.rateLimitStep k' now).next
      · rw [rateLimitStep_reject m k' now hn]
        exact ⟨hs k', hb k'⟩
      · rw [rateLimitStep_accept m k' now hn]
        constructor
        · rw [List.pairwise_append]
          refine ⟨(hs k').filter _, List.pairwise_singleton _ _, ?_⟩
          intro a ha b hb'
          rw [List.mem_singleton] at hb'
          subst hb'
          exact hb k' a (List.mem_of_mem_filter ha)
        · intro x hx
          rw [List.mem_append, List.mem_singleton] at hx
          rcases hx with hx | hx
          · exact hb k' x (List.mem_of_mem_filter hx)
          · exact le_of_eq hx
    · rw [rateLimitStep_window_other m k k' now hk]
      exact ⟨hs k', hb k'⟩
  exact ⟨fun k' => (key k').1, fun k' => (key k').2⟩

/-- Serving requests at non-decreasing times keeps every window in time order and below
any clock reading that is not before the last request. -/
theorem run_ordered (reqs : List Request) : ∀ (m : Middleware) (T : Int),
    (∀ k', (m.window k').Pairwise (· ≤ ·)) →
    (∀ k', ∀ x ∈ m.window k', ∀ r ∈ reqs, x ≤ r.now) →
    (∀ k', ∀ x ∈ m.window k', x ≤ T) →
    reqs.Pairwise (fun a b => a.now ≤ b.now) →
    (∀ r ∈ reqs, r.now ≤ T) →
    (∀ k', ((m.run reqs).window k').Pairwise (· ≤ ·)) ∧
    (∀ k', ∀ x ∈ (m.run reqs).window k', x ≤ T) := by
  induction reqs with
  | nil => intro m T hs _ hT _ _; exact ⟨hs, hT⟩
  | cons r rs ih =>
    intro m T hs hb hT hp hle
    rw [List.pairwise_cons] at hp
    have h1 := rateLimitStep_ordered m r.userID r.now hs
      (fun k' x hx => hb k' x hx r (List.mem_cons_self _ _))
    simp only [Middleware.run]
    apply ih _ T h1.1
    · intro k' x hx r' hr'
      exact le_trans (h1.2 k' x hx) (hp.1 r' hr')
    · intro k' x hx
      exact le_trans (h1.2 k' x hx) (hle r (List.mem_cons_self _ _))
    · exact hp.2
    · intro r' hr'
      exact hle r' (List.mem_cons_of_mem _ hr')

theorem window_new (limit : Int) (k : String) : (NewMiddleware limit).window k = [] := rfl

theorem minute_pos : (0 : Int) < Minute := by decide

/-- The generalised sliding-window bound: `H` is the list of requests of `userID` accepted
so far and `T` the time of the last request served. -/
theorem acceptedTimes_bound (limit : Int) (userID : String) :
    ∀ (reqs : List Request) (m : Middleware) (H : List Int) (T : Int),
      m.rateLimit = limit →
      (∀ a ∈ H, a ≤ T) →
      (∀ c, T - Minute ≤ c →
        (m.window userID).filter (fun x => decide (x > c)) = H.filter (fun x => decide (x > c))) →
      (∀ t, ((H.filter (fun a => decide (t - Minute < a ∧ a ≤ t))).length : Int) ≤ limit) →
      (∀ r ∈ reqs, T ≤ r.now) →
      reqs.Pairwise (fun a b => a.now ≤ b.now) →
      ∀ t, (((H ++ m.acceptedTimes userID reqs).filter
        (fun a => decide (t - Minute < a ∧ a ≤ t))).length : Int) ≤ limit := by
  intro reqs
  induction reqs with
  | nil =>
    intro m H T _ _ _ h3 _ _ t
    simpa [Middleware.acceptedTimes] using h3 t
  | cons r rs ih =>
    intro m H T hlim h1 h2 h3 hT hp t
    rw [List.pairwise_cons] at hp
    have hTr : T ≤ r.now := hT r (List.mem_cons_self _ _)
    have hrs : ∀ r' ∈ rs, r.now ≤ r'.now := hp.1
    have hlim' : (m.rateLimitStep r.userID r.now).m.rateLimit = limit := by
      rw [rateLimitStep_rateLimit]; exact hlim
    have hmp := minute_pos
    by_cases hacc : (m.rateLimitStep r.userID r.now).next = true ∧ r.userID = userID
    · obtain ⟨hn, hk⟩ := hacc
      have hunf : m.acceptedTimes userID (r :: rs) =
          r.now :: (m.rateLimitStep r.userID r.now).m.acceptedTimes userID rs := by
        simp only [Middleware.acceptedTimes]
        rw [if_pos]
        rw [hn, hk]
        simp
      rw [hunf]
      have hvalid : (m.window userID).filter (fun x => decide (x > r.now + (-Minute))) =
          H.filter (fun x => decide (x > r.now + (-Minute))) := by
        apply h2; omega
      have hcount := (rateLimitStep_next_iff m r.userID r.now).mp hn
      rw [hk, hvalid, hlim] at hcount
      have hwin := rateLimitStep_accept m r.userID r.now hn
      rw [hk] at hwin
      rw [hvalid] at hwin
      have hgoal := ih (m.rateLimitStep r.userID r.now).m (H ++ [r.now]) r.now hlim'
        (by
          intro a ha
          rw [List.mem_append, List.mem_singleton] at ha
          rcases ha with ha | ha
          · exact le_trans (h1 a ha) hTr
          · exact le_of_eq ha)
        (by
          intro c hc
          rw [hk, hwin, List.filter_append, List.filter_append, List.filter_filter]
          congr 1
          apply List.filter_congr
          intro x _
          by_cases hx : x > c
          · have : x > r.now + (-Minute) := by omega
            simp [hx, this]
          · simp [hx])
        (by
          intro t'
          by_cases ht : r.now ≤ t'
          · have hsub : (List.filter (fun a => decide (t' - Minute < a ∧ a ≤ t')) (H ++ [r.now])).length
                ≤ (List.filter (fun x => decide (x > r.now + (-Minute))) (H ++ [r.now])).length := by
              apply List.Sublist.length_le
              apply List.monotone_filter_right
              intro a ha
              simp only [decide_eq_true_eq] at ha ⊢
              omega
            have hlen : (List.filter (fun x => decide (x > r.now + (-Minute))) (H ++ [r.now])).length
                = (List.filter (fun x => decide (x > r.now + (-Minute))) H).length + 1 := by
              rw [List.filter_append]
              have : List.filter (fun x => decide (x > r.now + (-Minute))) [r.now] = [r.now] := by
                simp; omega
              rw [this, List.length_append, List.length_singleton]
            omega
          · have hnil : List.filter (fun a => decide (t' - Minute < a ∧ a ≤ t')) [r.now] = [] := by
              simp; omega
            rw [List.filter_append, hnil, List.append_nil]
            exact h3 t')
        hrs hp.2 t
      rw [List.append_assoc] at hgoal
      exact hgoal
    · have hunf : m.acceptedTimes userID (r :: rs) =
          (m.rateLimitStep r.userID r.now).m.acceptedTimes userID rs := by
        simp only [Middleware.acceptedTimes]
        rw [if_neg]
        simpa using hacc
      rw [hunf]
      have hwin : (m.rateLimitStep r.userID r.now).m.window userID = m.window userID := by
        by_cases hk : r.userID = userID
        · have hn : (m.rateLimitStep r.userID r.now).next = false := by
            cases h : (m.rateLimitStep r.userID r.now).next
            · rfl
            · exact absurd ⟨h, hk⟩ hacc
          rw [rateLimitStep_reject m _ _ hn]
        · exact rateLimitStep_window_other m r.userID userID r.now (fun h => hk h.symm)
      exact ih (m.rateLimitStep r.userID r.now).m H r.now hlim'
        (fun a ha => le_trans (h1 a ha) hTr)
        (by
          intro c hc
          rw [hwin]
          apply h2; omega)
        h3 hrs hp.2 t

/-- Requests of one subject inside one window are all accepted while the ceiling is not
reached, and they all stay in the window. -/
theorem burst_accepted (limit : Int) (userID : String) (tmax : Int) :
    ∀ (ts : List Int) (m : Middleware),
      m.rateLimit = limit →
      (∀ x ∈ m.window userID, tmax - Minute < x) →
      (∀ t ∈ ts, tmax - Minute < t ∧ t ≤ tmax) →
      (((m.window userID).length + ts.length : Nat) : Int) ≤ limit →
      m.decisions (ts.map (fun t => Request.mk userID t)) = List.replicate ts.length true ∧
      (m.run (ts.map (fun t => Request.mk userID t))).window userID = m.window userID ++ ts := by
  intro ts
  induction ts with
  | nil => intro m _ _ _ _; simp [Middleware.decisions, Middleware.run]
  | cons t ts ih =>
    intro m hlim hw hts hlen
    have ht := hts t (List.mem_cons_self _ _)
    have hfilter : (m.window userID).filter (fun x => decide (x > t + (-Minute))) =
        m.window userID := by
      rw [List.filter_eq_self]
      intro x hx
      have := hw x hx
      simp only [decide_eq_true_eq]
      omega
    have hn : (m.rateLimitStep userID t).next = true := by
      rw [rateLimitStep_next_iff, hfilter, hlim]
      simp only [List.length_cons] at hlen
      push_cast at hlen
      omega
    have hwin := rateLimitStep_accept m userID t hn
    rw [hfilter] at hwin
    have h := ih (m.rateLimitStep userID t).m
      (by rw [rateLimitStep_rateLimit]; exact hlim)
      (by
        intro x hx
        rw [hwin, List.mem_append, List.mem_singleton] at hx
        rcases hx with hx | hx
        · exact hw x hx
        · rw [hx]; exact ht.1)
      (fun t' ht' => hts t' (List.mem_cons_of_mem _ ht'))
      (by
        rw [hwin, List.length_append, List.length_singleton]
        simp only [List.length_cons] at hlen
        push_cast at hlen ⊢
        omega)
    simp only [List.map_cons, Middleware.decisions, Middleware.run, List.length_cons,
      List.replicate_succ]
    rw [h.1, h.2, hn, hwin]
    simp

/-- C4. Rate-limit ceiling scenario: with ceiling `N ≥ 1` and an empty window for the
subject, `N` requests at non-decreasing times `ts` and an `(N+1)`-th request at `tNext`,
all inside one 60-second window `(tNext - 60s, tNext]`, are decided accept, ..., accept,
reject (429 "Rate limit exceeded"), and a request more than 60 seconds after the last
accepted one is accepted again. -/
theorem rate_limit_ceiling_scenario (N : Nat) (hN : 1 ≤ N) (m : Middleware)
    (hm : m.rateLimit = (N : Int)) (userID : String) (hempty : m.window userID = [])
    (ts : List Int) (hlen : ts.length = N) (_hsorted : ts.Pairwise (· ≤ ·))
    (tNext tLater : Int)
    (hspan : ∀ t ∈ ts, tNext - Minute < t ∧ t ≤ tNext)
    (hlater : ∀ t ∈ ts, t + Minute < tLater) :
    m.decisions (ts.map (fun t => Request.mk userID t) ++
        [Request.mk userID tNext, Request.mk userID tLater]) =
      List.replicate N true ++ [false, true] ∧
    ((m.run (ts.map (fun t => Request.mk userID t))).rateLimitStep userID tNext).response =
      some ErrRateLimitExceeded ∧
    ErrRateLimitExceeded = ⟨429, "Rate limit exceeded", none⟩ := by
  have hb := burst_accepted (N : Int) userID tNext ts m hm
    (by rw [hempty]; intro x hx; cases hx) hspan
    (by rw [hempty, hlen]; simp)
  rw [hempty, List.nil_append] at hb
  obtain ⟨hdec, hwin⟩ := hb
  have hlim : (m.run (ts.map (fun t => Request.mk userID t))).rateLimit = (N : Int) := by
    rw [run_rateLimit]; exact hm
  -- the (N+1)-th request is rejected
  have hrej : ((m.run (ts.map (fun t => Request.mk userID t))).rateLimitStep userID tNext).next
      = false := by
    cases h : ((m.run (ts.map (fun t => Request.mk userID t))).rateLimitStep userID tNext).next
    · rfl
    · exfalso
      rw [rateLimitStep_next_iff, hwin, hlim] at h
      have hfilter : ts.filter (fun x => decide (x > tNext + (-Minute))) = ts := by
        rw [List.filter_eq_self]
        intro x hx
        have := hspan x hx
        simp only [decide_eq_true_eq]
        omega
      rw [hfilter, hlen] at h
      omega
  have hsame := rateLimitStep_reject _ _ _ hrej
  -- the later request is accepted
  have hacc : ((m.run (ts.map (fun t => Request.mk userID t))).rateLimitStep userID tLater).next
      = true := by
    rw [rateLimitStep_next_iff, hwin, hlim]
    have hfilter : ts.filter (fun x => decide (x > tLater + (-Minute))) = [] := by
      rw [List.filter_eq_nil_iff]
      intro x hx
      have := hlater x hx
      simp only [decide_eq_true_eq]
      omega
    rw [hfilter]
    simp only [List.length_nil]
    push_cast
    omega
  refine ⟨?_, rateLimitStep_response _ _ _ hrej, rfl⟩
  rw [decisions_append, hdec, hlen]
  simp only [Middleware.decisions]
  rw [hrej, hsame, hacc]

theorem rate_limit_ceiling_witness :
    (NewMiddleware 2).decisions
      [⟨"u1", 0⟩, ⟨"u1", 1000000000⟩, ⟨"u1", 2000000000⟩, ⟨"u1", 62000000000⟩] =
      [true, true, false, true] :=
  (rate_limit_ceiling_scenario 2 (by decide) (NewMiddleware 2) rfl "u1" rfl
    [0, 1000000000] rfl (by decide) 2000000000 62000000000 (by decide) (by decide)).1

/-- C5. Sliding-window guarantee: for every ceiling `limit ≥ 0`, every subject and every
sequence of requests at non-decreasing times served from an empty limiter, the number of
accepted requests of the subject with a time in `(t - 60s, t]` is at most `limit`, for
every `t`. -/
theorem sliding_window_guarantee (limit : Int) (hlimit : 0 ≤ limit) (userID : String)
    (reqs : List Request) (hsorted : reqs.Pairwise (fun a b => a.now ≤ b.now)) (t : Int) :
    ((((NewMiddleware limit).acceptedTimes userID reqs).filter
      (fun a => decide (t - Minute < a ∧ a ≤ t))).length : Int) ≤ limit := by
  cases reqs with
  | nil => simpa [Middleware.acceptedTimes] using hlimit
  | cons r rs =>
    have h := acceptedTimes_bound limit userID (r :: rs) (NewMiddleware limit) [] r.now rfl
      (by intro a ha; cases ha)
      (by intro c _; rfl)
      (by intro t'; simpa using hlimit)
      (by
        intro r' hr'
        rw [List.mem_cons] at hr'
        rcases hr' with rfl | hr'
        · exact le_refl _
        · exact (List.pairwise_cons.mp hsorted).1 r' hr')
      hsorted t
    simpa using h

theorem sliding_window_witness :
    (0 : Int) ≤ 2 ∧
    ((((NewMiddleware 2).acceptedTimes "u1"
        [⟨"u1", 0⟩, ⟨"u1", 1000000000⟩, ⟨"u1", 2000000000⟩, ⟨"u1", 62000000000⟩]).filter
      (fun a => decide ((2000000000 : Int) - Minute < a ∧ a ≤ 2000000000))).length : Int) ≤ 2 :=
  ⟨by decide,
    sliding_window_guarantee 2 (by decide) "u1"
      [⟨"u1", 0⟩, ⟨"u1", 1000000000⟩, ⟨"u1", 2000000000⟩, ⟨"u1", 62000000000⟩]
      (by decide) 2000000000⟩

/-- C6. Rejection leaves the limiter unchanged: the step rejects exactly when the number
of recorded times of the subject newer than `now - 60s` is at least the ceiling; a
rejection returns the middleware (the whole limiter map) unchanged with the 429 error; an
acceptance sets the window of the subject to the retained times followed by `now` and
leaves the entries of the other subjects alone. -/
theorem rejection_leaves_limiter_unchanged (m : Middleware) (userID : String) (now : Int) :
    ((m.rateLimitStep userID now).next = false ↔
      (((m.window userID).filter (fun t => decide (t > now - Minute))).length : Int)
        ≥ m.rateLimit) ∧
    ((m.rateLimitStep userID now).next = false →
      (m.rateLimitStep userID now).m = m ∧
      (m.rateLimitStep userID now).response = some ErrRateLimitExceeded) ∧
    ((m.rateLimitStep userID now).next = true →
      (m.rateLimitStep userID now).m.window userID =
        (m.window userID).filter (fun t => decide (t > now - Minute)) ++ [now] ∧
      (∀ k, k ≠ userID → (m.rateLimitStep userID now).m.rateLimiter k = m.rateLimiter k) ∧
      (m.rateLimitStep userID now).response = none) := by
  have hsub : now - Minute = now + (-Minute) := by omega
  rw [hsub]
  refine ⟨?_, ?_, ?_⟩
  · have h := rateLimitStep_next_iff m userID now
    cases hn : (m.rateLimitStep userID now).next
    · simp only [true_iff]
      by_contra hc
      have := h.mpr (by omega)
      rw [hn] at this
      cases this
    · simp only [false_iff, Bool.true_eq_false]
      have := h.mp hn
      omega
  · intro h
    exact ⟨rateLimitStep_reject m userID now h, rateLimitStep_response m userID now h⟩
  · intro h
    refine ⟨rateLimitStep_accept m userID now h, ?_, ?_⟩
    · intro k hk
      unfold Middleware.rateLimitStep
      simp only
      split
      · rfl
      · simp [hk]
    · unfold Middleware.rateLimitStep at h ⊢
      simp only at h ⊢
      split
      · rename_i hge
        rw [if_pos hge] at h
        cases h
      · rfl

/-- C7. RateWindow invariant: after any sequence of requests at non-decreasing times served
from an empty limiter, right after an accepted request at time `now` the window of its
subject is in non-decreasing order, holds only times in `[now - 60s, now]` and is not
longer than the ceiling. -/
theorem rateWindow_invariant (limit : Int) (reqs : List Request) (userID : String) (now : Int)
    (hsorted : (reqs.map (fun r => r.now) ++ [now]).Pairwise (· ≤ ·))
    (hacc : (((NewMiddleware limit).run reqs).rateLimitStep userID now).next = true) :
    ((((NewMiddleware limit).run reqs).rateLimitStep userID now).m.window userID).Pairwise
        (· ≤ ·) ∧
    (∀ x ∈ (((NewMiddleware limit).run reqs).rateLimitStep userID now).m.window userID,
        now - Minute ≤ x ∧ x ≤ now) ∧
    (((((NewMiddleware limit).run reqs).rateLimitStep userID now).m.window userID).length
        : Int) ≤ limit := by
  rw [List.pairwise_append] at hsorted
  obtain ⟨hp, -, hle⟩ := hsorted
  have hle' : ∀ r ∈ reqs, r.now ≤ now := by
    intro r hr
    exact hle r.now (List.mem_map_of_mem _ hr) now (List.mem_singleton_self _)
  have hp' : reqs.Pairwise (fun a b => a.now ≤ b.now) := by
    rw [List.pairwise_map] at hp
    exact hp
  have hrun := run_ordered reqs (NewMiddleware limit) now
    (fun k' => by rw [window_new]; exact List.Pairwise.nil)
    (fun k' x hx => by rw [window_new] at hx; cases hx)
    (fun k' x hx => by rw [window_new] at hx; cases hx)
    hp' hle'
  have hstep := rateLimitStep_ordered _ userID now hrun.1 hrun.2
  refine ⟨hstep.1 userID, ?_, ?_⟩
  · intro x hx
    refine ⟨?_, hstep.2 userID x hx⟩
    rw [rateLimitStep_accept _ _ _ hacc, List.mem_append, List.mem_singleton] at hx
    rcases hx with hx | hx
    · have := (List.mem_filter.mp hx).2
      simp only [decide_eq_true_eq] at this
      omega
    · have : (0 : Int) ≤ Minute := by decide
      omega
  · have h := (rateLimitStep_next_iff _ userID now).mp hacc
    rw [run_rateLimit] at h
    rw [rateLimitStep_accept _ _ _ hacc, List.length_append, List.length_singleton]
    have : (NewMiddleware limit).rateLimit = limit := rfl
    push_cast
    omega

theorem rateWindow_invariant_witness :
    (((NewMiddleware 2).run [⟨"u1", 0⟩]).rateLimitStep "u1" 1000000000).next = true ∧
    (((((NewMiddleware 2).run [⟨"u1", 0⟩]).rateLimitStep "u1" 1000000000).m.window "u1").length
      : Int) ≤ 2 :=
  ⟨by decide,
    (rateWindow_invariant 2 [⟨"u1", 0⟩] "u1" 1000000000 (by decide) (by decide)).2.2⟩

/-! ## File names and validation (C8 to C10) -/

/-- C8 (the code at the failing input). On the name `.\.` the result of
`SanitizeFileName` is `..`: the backslash is removed after the `..` pass, which brings
the two dots together. -/
theorem sanitizeFileName_backslash_dots :
    utils.SanitizeFileName ".\\." = ".." ∧
    strings.HasPrefix (utils.SanitizeFileName ".\\.") ".." = true := by decide

/-- With a one-character `old` and an empty `new` the replacement loop deletes every
occurrence of the character. -/
theorem replaceLoop_single (c : Char) : ∀ (fuel : Nat) (s : List Char), s.length ≤ fuel →
    strings.replaceLoop [c] [] fuel s = s.filter (fun x => x != c) := by
  intro fuel
  induction fuel with
  | zero =>
    intro s hs
    have : s = [] := List.length_eq_zero.mp (Nat.le_zero.mp hs)
    subst this
    rfl
  | succ fuel ih =>
    intro s hs
    cases s with
    | nil => rfl
    | cons a s =>
      simp only [List.length_cons, Nat.add_le_add_iff_right] at hs
      by_cases ha : a = c
      · subst ha
        simp [strings.replaceLoop, List.isPrefixOf, ih s hs]
      · have hne : (a == c) = false := by simpa using ha
        simp [strings.replaceLoop, List.isPrefixOf, hne, ha, Ne.symm ha, ih s hs]

/-- The part of C8 that holds: the result of `SanitizeFileName` has no `/` and no `\`. -/
theorem sanitizeFileName_no_separator (fileName : String) :
    '/' ∉ (utils.SanitizeFileName fileName).data ∧
    '\\' ∉ (utils.SanitizeFileName fileName).data := by
  unfold utils.SanitizeFileName
  simp only
  generalize strings.ReplaceAll (Base fileName) ".." "" = s1
  have h1 : ∀ s : String, (strings.ReplaceAll s "/" "").data = s.data.filter (fun x => x != '/') := by
    intro s
    unfold strings.ReplaceAll
    rw [if_neg (by decide)]
    exact replaceLoop_single '/' _ _ (le_refl _)
  have h2 : ∀ s : String, (strings.ReplaceAll s "\\" "").data = s.data.filter (fun x => x != '\\') := by
    intro s
    unfold strings.ReplaceAll
    rw [if_neg (by decide)]
    exact replaceLoop_single '\\' _ _ (le_refl _)
  rw [h2, h1]
  constructor
  · intro h
    have := List.mem_filter.mp (List.mem_filter.mp h).1
    simp at this
  · intro h
    have := (List.mem_filter.mp h).2
    simp at this

theorem hasSuffix_iff (s suf : String) :
    strings.HasSuffix s suf = true ↔ ∃ t : List Char, s.data = t ++ suf.data := by
  unfold strings.HasSuffix
  rw [List.isSuffixOf_iff_suffix]
  constructor
  · rintro ⟨t, ht⟩; exact ⟨t, ht.symm⟩
  · rintro ⟨t, ht⟩; exact ⟨t, ht.symm⟩

theorem suffix_clash (s : String) (a b : String) (ha : strings.HasSuffix s a = true)
    (hb : strings.HasSuffix s b = true) (hlen : a.data.length ≤ b.data.length) :
    ∃ t, b.data = t ++ a.data := by
  rw [hasSuffix_iff] at ha hb
  obtain ⟨ta, hta⟩ := ha
  obtain ⟨tb, htb⟩ := hb
  have h1 : a.data <:+ s.data := ⟨ta, hta.symm⟩
  have h2 : b.data <:+ s.data := ⟨tb, htb.symm⟩
  obtain ⟨t, ht⟩ := List.suffix_of_suffix_length_le h1 h2 hlen
  exact ⟨t, ht.symm⟩

theorem not_suffix_both (s a b : String) (hlen : a.data.length ≤ b.data.length)
    (hne : ¬ a.data <:+ b.data)
    (ha : strings.HasSuffix s a = true) : strings.HasSuffix s b = false := by
  cases hb : strings.HasSuffix s b
  · rfl
  · exfalso
    obtain ⟨t, ht⟩ := suffix_clash s a b ha hb hlen
    exact hne ⟨t, ht.symm⟩

/-- The type inferred from a lower-cased file name is given by the suffix table. -/
theorem detectContentTypeFromFilename_table (toLower : String → String) (filename : String) :
    ((strings.HasSuffix (toLower filename) ".jpg" = true ∨
        strings.HasSuffix (toLower filename) ".jpeg" = true) →
      ValidationService.detectContentTypeFromFilename toLower filename = "image/jpeg") ∧
    (strings.HasSuffix (toLower filename) ".png" = true →
      ValidationService.detectContentTypeFromFilename toLower filename = "image/png") ∧
    (strings.HasSuffix (toLower filename) ".pdf" = true →
      ValidationService.detectContentTypeFromFilename toLower filename = "application/pdf") ∧
    (strings.HasSuffix (toLower filename) ".jpg" = false →
      strings.HasSuffix (toLower filename) ".jpeg" = false →
      strings.HasSuffix (toLower filename) ".png" = false →
      strings.HasSuffix (toLower filename) ".pdf" = false →
      ValidationService.detectContentTypeFromFilename toLower filename =
        "application/octet-stream") := by
  refine ⟨?_, ?_, ?_, ?_⟩
  · intro h
    unfold ValidationService.detectContentTypeFromFilename
    rcases h with h | h <;> simp [h]
  · intro h
    have h1 := not_suffix_both _ ".png" ".jpg" (by decide) (by decide) h
    have h2 := not_suffix_both _ ".png" ".jpeg" (by decide) (by decide) h
    unfold ValidationService.detectContentTypeFromFilename
    simp [h, h1, h2]
  · intro h
    have h1 := not_suffix_both _ ".pdf" ".jpg" (by decide) (by decide) h
    have h2 := not_suffix_both _ ".pdf" ".jpeg" (by decide) (by decide) h
    have h3 := not_suffix_both _ ".pdf" ".png" (by decide) (by decide) h
    unfold ValidationService.detectContentTypeFromFilename
    simp [h, h1, h2, h3]
  · intro h1 h2 h3 h4
    unfold ValidationService.detectContentTypeFromFilename
    simp [h1, h2, h3, h4]

/-- C9. Decision table of `ValidateFile`: the result is `ErrFileTooLarge` exactly when the
size exceeds the ceiling (so a size equal to the ceiling passes the size check);
`ErrInvalidFileType` exactly when the size is within the ceiling and the effective type
(the declared type if non-empty, otherwise the type inferred from the file name) is not in
the allow-list; `nil` exactly when the size is within the ceiling and the effective type
is allowed. The inferred type follows the suffix of the lower-cased name: `.jpg`/`.jpeg`
give `image/jpeg`, `.png` gives `image/png`, `.pdf` gives `application/pdf`, anything
else `application/octet-stream`. -/
theorem validateFile_decision_table (toLower : String → String) (maxFileSize : Int)
    (allowed : List String) (header : multipart.FileHeader) :
    (ValidationService.ValidateFile toLower (NewValidationService maxFileSize allowed) header
        = some ErrFileTooLarge ↔ header.Size > maxFileSize) ∧
    (ValidationService.ValidateFile toLower (NewValidationService maxFileSize allowed) header
        = some ErrInvalidFileType ↔
      header.Size ≤ maxFileSize ∧
      (if header.ContentType = "" then
          ValidationService.detectContentTypeFromFilename toLower header.Filename
        else header.ContentType) ∉ allowed) ∧
    (ValidationService.ValidateFile toLower (NewValidationService maxFileSize allowed) header
        = none ↔
      header.Size ≤ maxFileSize ∧
      (if header.ContentType = "" then
          ValidationService.detectContentTypeFromFilename toLower header.Filename
        else header.ContentType) ∈ allowed) ∧
    (((strings.HasSuffix (toLower header.Filename) ".jpg" = true ∨
        strings.HasSuffix (toLower header.Filename) ".jpeg" = true) →
      ValidationService.detectContentTypeFromFilename toLower header.Filename = "image/jpeg") ∧
    (strings.HasSuffix (toLower header.Filename) ".png" = true →
      ValidationService.detectContentTypeFromFilename toLower header.Filename = "image/png") ∧
    (strings.HasSuffix (toLower header.Filename) ".pdf" = true →
      ValidationService.detectContentTypeFromFilename toLower header.Filename
        = "application/pdf") ∧
    (strings.HasSuffix (toLower header.Filename) ".jpg" = false →
      strings.HasSuffix (toLower header.Filename) ".jpeg" = false →
      strings.HasSuffix (toLower header.Filename) ".png" = false →
      strings.HasSuffix (toLower header.Filename) ".pdf" = false →
      ValidationService.detectContentTypeFromFilename toLower header.Filename =
        "application/octet-stream")) := by
  have hne : ErrInvalidFileType ≠ ErrFileTooLarge := by decide
  refine ⟨?_, ?_, ?_, detectContentTypeFromFilename_table toLower header.Filename⟩
  · unfold ValidationService.ValidateFile NewValidationService
    by_cases hs : header.Size > maxFileSize
    · simp [hs]
    · simp only [hs, if_false, iff_false]
      intro h
      split at h <;> split at h <;>
        first
          | exact hne (Option.some.inj h)
          | exact Option.noConfusion h
  · unfold ValidationService.ValidateFile NewValidationService
    by_cases hs : header.Size > maxFileSize
    · simp only [hs, if_true]
      constructor
      · intro h; exact absurd (Option.some.inj h).symm hne
      · intro h; omega
    · simp only [hs, if_false]
      have hle : header.Size ≤ maxFileSize := by omega
      by_cases hc : header.ContentType = "" <;> simp [hc, hle]
  · unfold ValidationService.ValidateFile NewValidationService
    by_cases hs : header.Size > maxFileSize
    · simp only [hs, if_true]
      constructor
      · intro h; cases h
      · intro h; omega
    · simp only [hs, if_false]
      have hle : header.Size ≤ maxFileSize := by omega
      by_cases hc : header.ContentType = "" <;> simp [hc, hle]

/-- C10 (as amended). Content-type compatibility on a non-empty stream: the result of
`ValidateFileContent` is `nil` exactly when the declared type equals the type sniffed
from the leading `min(512, length)` bytes or the two are `image/jpeg` and `image/jpg` in
either order, and `ErrInvalidFileType` otherwise (so sniffed `application/pdf` declared
`image/png` is rejected); on the empty stream the result is the 400 error "Cannot read
file", whatever the declared type. -/
theorem validateFileContent_compatibility (detect : List Nat → String) (data : List Nat)
    (declared : String) (hdata : data ≠ []) :
    ((ValidationService.ValidateFileContent detect (multipart.File.opened data) declared).1
        = none ↔
      (declared = detect (data.take 512) ∨
        (declared = "image/jpeg" ∧ detect (data.take 512) = "image/jpg") ∨
        (declared = "image/jpg" ∧ detect (data.take 512) = "image/jpeg"))) ∧
    ((ValidationService.ValidateFileContent detect (multipart.File.opened data) declared).1
        ≠ none →
      (ValidationService.ValidateFileContent detect (multipart.File.opened data) declared).1
        = some ErrInvalidFileType) ∧
    (detect (data.take 512) = "application/pdf" → declared = "image/png" →
      (ValidationService.ValidateFileContent detect (multipart.File.opened data) declared).1
        = some ErrInvalidFileType) ∧
    (data.take 512).length = min 512 data.length ∧
    (ValidationService.ValidateFileContent detect (multipart.File.opened []) declared).1
        = some (NewAppError 400 "Cannot read file" (some "EOF")) := by
  have hread : (multipart.File.opened data).Read 512 =
      ((data.take 512, none), { data := data, off := 0 + (data.take 512).length }) := by
    unfold multipart.File.Read multipart.File.opened
    have : (List.take 512 data).isEmpty = false := by
      cases data with
      | nil => exact absurd rfl hdata
      | cons a l => rfl
    simp [this]
  have hcompat : ValidationService.isCompatibleContentType declared (detect (data.take 512))
      = true ↔
      (declared = detect (data.take 512) ∨
        (declared = "image/jpeg" ∧ detect (data.take 512) = "image/jpg") ∨
        (declared = "image/jpg" ∧ detect (data.take 512) = "image/jpeg")) := by
    unfold ValidationService.isCompatibleContentType compatibilityMap
    by_cases h1 : declared = detect (data.take 512)
    · simp [h1]
    · by_cases h2 : declared = "image/jpeg"
      · subst h2
        simp [h1]
        exact eq_comm
      · by_cases h3 : declared = "image/jpg"
        · subst h3
          simp [h1]
          exact eq_comm
        · simp [h1, h2, h3]
  have hval : (ValidationService.ValidateFileContent detect (multipart.File.opened data)
      declared).1 =
      if ValidationService.isCompatibleContentType declared (detect (data.take 512)) = true
      then none else some ErrInvalidFileType := by
    unfold ValidationService.ValidateFileContent
    rw [hread]
    simp only [Option.isSome_none, Bool.false_and, Bool.false_eq_true, if_false]
    cases ValidationService.isCompatibleContentType declared (detect (data.take 512)) <;> rfl
  refine ⟨?_, ?_, ?_, ?_, ?_⟩
  · rw [hval, ← hcompat]
    split <;> simp_all
  · rw [hval]
    split <;> simp
  · intro hs hd
    rw [hval]
    have : ValidationService.isCompatibleContentType declared (detect (data.take 512))
        = false := by
      cases h : ValidationService.isCompatibleContentType declared (detect (data.take 512))
      · rfl
      · exfalso
        rw [hcompat, hs, hd] at h
        revert h
        decide
    rw [this]
    rfl
  · exact List.length_take _ _
  · rfl

theorem validateFileContent_compatibility_witness :
    [137, 80, 78, 71] ≠ ([] : List Nat) ∧
    ((ValidationService.ValidateFileContent (fun _ => "image/png")
        (multipart.File.opened [137, 80, 78, 71]) "image/png").1 = none ↔
      ("image/png" = (fun _ => "image/png") (List.take 512 [137, 80, 78, 71]) ∨
        ("image/png" = "image/jpeg" ∧
          (fun _ => "image/png") (List.take 512 [137, 80, 78, 71]) = "image/jpg") ∨
        ("image/png" = "image/jpg" ∧
          (fun _ => "image/png") (List.take 512 [137, 80, 78, 71]) = "image/jpeg"))) :=
  ⟨by decide,
    (validateFileContent_compatibility (fun _ => "image/png") [137, 80, 78, 71] "image/png"
      (by decide)).1⟩

/-- C10 (counterexample). The claim as stated fails on the empty stream: declared with
the very type sniffed from no bytes, it is still refused. -/
theorem validateFileContent_empty_counterexample :
    ¬ (∀ (detect : List Nat → String) (data : List Nat) (declared : String),
        (ValidationService.ValidateFileContent detect (multipart.File.opened data) declared).1
          = none ↔
        (declared = detect (data.take 512) ∨
          (declared = "image/jpeg" ∧ detect (data.take 512) = "image/jpg") ∨
          (declared = "image/jpg" ∧ detect (data.take 512) = "image/jpeg"))) := by
  intro h
  have h1 := (h (fun _ => "text/plain; charset=utf-8") [] "text/plain; charset=utf-8").mpr
    (Or.inl rfl)
  revert h1
  decide

/-! ## Upload (C11, C12, C13, C20) -/

theorem validateFileContent_file (detect : List Nat → String) (content : List Nat)
    (contentType : String) (file : multipart.File)
    (h : ValidationService.ValidateFileContent detect (multipart.File.opened content)
      contentType = (none, file)) :
    file.ReadAll.1 = content := by
  unfold ValidationService.ValidateFileContent at h
  simp only [multipart.File.Read, multipart.File.opened] at h
  split at h
  · simp at h
  · simp only [Bool.and_eq_true, not_and, Bool.not_eq_true] at h
    split at h
    · simp at h
    · split at h
      · simp at h
      · simp only [Prod.mk.injEq, true_and] at h
        subst h
        simp [multipart.File.ReadAll, multipart.File.SeekStart]

theorem validateFileContent_empty_type (detect : List Nat → String)
    (hdetect : ∀ b, detect b ≠ "") (file : multipart.File) :
    (ValidationService.ValidateFileContent detect file "").1 ≠ none := by
  unfold ValidationService.ValidateFileContent
  split
  rename_i buffer err file1 _
  split
  · simp
  · have hc : ValidationService.isCompatibleContentType "" (detect buffer) = false := by
      unfold ValidationService.isCompatibleContentType compatibilityMap
      have := hdetect buffer
      simp [Ne.symm this]
    simp [hc]

theorem memFS_find_filter (fs : os.MemFS) (k n : String) :
    List.find? (fun e => e.1 == n) (fs.filter (fun e => e.1 != k))
      = if n = k then none else List.find? (fun e => e.1 == n) fs := by
  induction fs with
  | nil => simp
  | cons e fs ih =>
    by_cases hk : e.1 = k
    · have h1 : (e.1 != k) = false := by simp [hk]
      rw [List.filter_cons, h1]
      simp only [Bool.false_eq_true, if_false]
      rw [ih]
      by_cases hn : n = k
      · simp [hn]
      · have h2 : (e.1 == n) = false := by
          rw [hk]
          simpa using Ne.symm hn
        rw [if_neg hn, if_neg hn, List.find?_cons, h2]
    · have h1 : (e.1 != k) = true := by simp [hk]
      rw [List.filter_cons, h1]
      simp only [if_true]
      rw [List.find?_cons, List.find?_cons, ih]
      by_cases hn : n = k
      · have h2 : (e.1 == n) = false := by
          rw [hn]
          simpa using hk
        rw [h2, if_pos hn]
      · rw [if_neg hn, if_neg hn]

theorem memFS_lookup_remove (fs : os.MemFS) (k n : String) :
    os.MemFS.lookup (fs.filter (fun e => e.1 != k)) n
      = if n = k then none else fs.lookup n := by
  unfold os.MemFS.lookup
  rw [memFS_find_filter]
  by_cases h : n = k
  · simp [h]
  · simp [h]

theorem memFS_lookup_set (fs : os.MemFS) (k : String) (v : os.Node) (n : String) :
    (fs.set k v).lookup n = if n = k then some v else fs.lookup n := by
  unfold os.MemFS.lookup os.MemFS.set
  by_cases h : n = k
  · subst h
    simp [List.find?_cons]
  · have h1 : (k == n) = false := by simpa using Ne.symm h
    rw [List.find?_cons, h1, if_neg h, memFS_find_filter, if_neg h]

theorem meta_ne (p : String) : p ++ ".meta" ≠ p := by
  intro h
  have := congrArg String.length h
  rw [String.length_append] at this
  have h5 : (".meta" : String).length = 5 := by decide
  omega

theorem meta_inj (p q : String) (h : p ++ ".meta" = q ++ ".meta") : p = q := by
  have h1 := congrArg String.data h
  simp only [String.data_append] at h1
  exact String.ext (List.append_cancel_right h1)

theorem memStore_allowed (ls : LocalStorage) (fileID : String) (data : List Nat)
    (md : FileMetadata) (fs : os.MemFS)
    (h : utils.IsAllowedPath ls.basePath (filepath.Join [ls.basePath, fileID]) = true) :
    LocalStorage.Store os.memSystem ls fileID data md fs
      = (none, storedFS fs (filepath.Join [ls.basePath, fileID]) data md) := by
  unfold LocalStorage.Store
  simp [h, os.memSystem, storedFS]

theorem memStore_refused (ls : LocalStorage) (fileID : String) (data : List Nat)
    (md : FileMetadata) (fs : os.MemFS)
    (h : utils.IsAllowedPath ls.basePath (filepath.Join [ls.basePath, fileID]) = false) :
    LocalStorage.Store os.memSystem ls fileID data md fs = (some "invalid file path", fs) := by
  unfold LocalStorage.Store
  simp [h]

theorem storedFS_lookup (fs : os.MemFS) (p : String) (data : List Nat) (md : FileMetadata)
    (n : String) :
    (storedFS fs p data md).lookup n
      = if n = p ++ ".meta" then some (.record md)
        else if n = p then some (.bytes data) else fs.lookup n := by
  unfold storedFS
  simp only [memFS_lookup_set]
  by_cases h1 : n = p ++ ".meta"
  · simp [h1]
  · by_cases h2 : n = p
    · subst h2
      simp [h1]
    · simp [h1, h2]

theorem memGetFile_stored (ls : LocalStorage) (fileID userID : String) (data : List Nat)
    (md : FileMetadata) (fs : os.MemFS)
    (h : utils.IsAllowedPath ls.basePath (filepath.Join [ls.basePath, fileID]) = true)
    (hmd : md.UserID = userID) :
    UploadService.GetFile (LocalStorage.toInterface os.memSystem ls) fileID userID
        (storedFS fs (filepath.Join [ls.basePath, fileID]) data md)
      = (⟨some (filepath.Join [ls.basePath, fileID]), md, none⟩,
          storedFS fs (filepath.Join [ls.basePath, fileID]) data md,
          [.exists_ fileID, .getMetadata fileID, .retrieve fileID]) := by
  have hm := meta_ne (filepath.Join [ls.basePath, fileID])
  have hex : LocalStorage.Exists os.memSystem ls fileID
      (storedFS fs (filepath.Join [ls.basePath, fileID]) data md)
      = (true, storedFS fs (filepath.Join [ls.basePath, fileID]) data md) := by
    unfold LocalStorage.Exists
    simp [h, os.memSystem, storedFS_lookup, Ne.symm hm, os.IsNotExist]
  have hgm : LocalStorage.GetMetadata os.memSystem ls fileID
      (storedFS fs (filepath.Join [ls.basePath, fileID]) data md)
      = ((md, none), storedFS fs (filepath.Join [ls.basePath, fileID]) data md) := by
    unfold LocalStorage.GetMetadata
    simp [h, os.memSystem, storedFS_lookup]
  have hrt : LocalStorage.Retrieve os.memSystem ls fileID
      (storedFS fs (filepath.Join [ls.basePath, fileID]) data md)
      = ((some (filepath.Join [ls.basePath, fileID]), md, none),
          storedFS fs (filepath.Join [ls.basePath, fileID]) data md) := by
    unfold LocalStorage.Retrieve
    rw [hgm]
    simp [h, os.memSystem, storedFS_lookup, Ne.symm hm]
  unfold UploadService.GetFile
  simp only [LocalStorage.toInterface, hex, hgm, hrt]
  simp [hmd]

/-- The shape of a successful `UploadFile` on a local storage over the in-memory system:
the path check passed, the response and the record carry the identifier, the declared
size and the checksum of the content, and the file system is the one `Store` leaves. -/
theorem memUpload_success (toLower : String → String) (detect : List Nat → String)
    (sum256 : List Nat → List Nat) (validation : ValidationService) (ls : LocalStorage)
    (fileHeader : multipart.FileHeader) (content : List Nat) (userID uuid : String)
    (now : Int) (fs : os.MemFS)
    (hok : (UploadService.UploadFile toLower detect sum256
      (LocalStorage.toInterface os.memSystem ls) validation fileHeader (.ok content)
      userID uuid now fs).1.err = none) :
    utils.IsAllowedPath ls.basePath (filepath.Join [ls.basePath, uuid]) = true ∧
    ∃ md : FileMetadata,
      md.ID = uuid ∧ md.Size = fileHeader.Size ∧ md.UserID = userID ∧
      md.Checksum = utils.CalculateChecksum sum256 content ∧
      UploadService.UploadFile toLower detect sum256
        (LocalStorage.toInterface os.memSystem ls) validation fileHeader (.ok content)
        userID uuid now fs
      = (⟨some { ID := uuid, URL := "/files/" ++ uuid, Size := fileHeader.Size,
                 ContentType := fileHeader.ContentType, UploadTime := now,
                 Checksum := utils.CalculateChecksum sum256 content }, none⟩,
          storedFS fs (filepath.Join [ls.basePath, uuid]) content md,
          [.openFile, .read, .readAll, .store uuid, .close]) := by
  unfold UploadService.UploadFile at hok ⊢
  cases hvf : ValidationService.ValidateFile toLower validation fileHeader with
  | some e => rw [hvf] at hok; simp at hok
  | none =>
    rw [hvf] at hok
    dsimp only at hok ⊢
    cases hvc : ValidationService.ValidateFileContent detect
      (multipart.File.opened content) fileHeader.ContentType with
    | mk e file =>
      rw [hvc] at hok
      cases e with
      | some e => simp at hok
      | none =>
        dsimp only at hok ⊢
        have hrd := validateFileContent_file detect content _ file hvc
        rw [hrd] at hok ⊢
        cases hal : utils.IsAllowedPath ls.basePath (filepath.Join [ls.basePath, uuid]) with
        | false =>
          simp only [LocalStorage.toInterface] at hok
          rw [memStore_refused ls uuid _ _ fs hal] at hok
          simp at hok
        | true =>
          refine ⟨rfl, ?_⟩
          refine ⟨⟨uuid, utils.SanitizeFileName fileHeader.Filename, fileHeader.Size,
            fileHeader.ContentType, now, "/files/" ++ uuid,
            utils.CalculateChecksum sum256 content, userID⟩, rfl, rfl, rfl, rfl, ?_⟩
          simp only [LocalStorage.toInterface]
          rw [memStore_allowed ls uuid _ _ fs hal]

/-- C11: upload and download round trip on a local storage whose file system never fails.
If `UploadFile` of a part with bytes `B` for subject `userID` succeeds, the response
carries the generated identifier and the hex-encoded SHA-256 digest of `B`, the stored
metadata record carries that same checksum, and `GetFile` with the returned identifier
and the same subject succeeds with that record and an open file whose bytes are `B`. -/
theorem upload_download_round_trip (toLower : String → String) (detect : List Nat → String)
    (sum256 : List Nat → List Nat) (validation : ValidationService) (ls : LocalStorage)
    (fileHeader : multipart.FileHeader) (B : List Nat) (userID uuid : String)
    (now : Int) (fs : os.MemFS)
    (hok : (UploadService.UploadFile toLower detect sum256
      (LocalStorage.toInterface os.memSystem ls) validation fileHeader (.ok B)
      userID uuid now fs).1.err = none) :
    ∃ (resp : UploadResponse) (md : FileMetadata) (fs1 : os.MemFS),
      UploadService.UploadFile toLower detect sum256
        (LocalStorage.toInterface os.memSystem ls) validation fileHeader (.ok B)
        userID uuid now fs
        = (⟨some resp, none⟩, fs1, [.openFile, .read, .readAll, .store uuid, .close]) ∧
      resp.ID = uuid ∧
      resp.Checksum = utils.hexEncode (sum256 B) ∧
      (LocalStorage.toInterface os.memSystem ls).GetMetadata resp.ID fs1
        = ((md, none), fs1) ∧
      md.Checksum = utils.hexEncode (sum256 B) ∧
      ∃ f : String,
        UploadService.GetFile (LocalStorage.toInterface os.memSystem ls) resp.ID userID fs1
          = (⟨some f, md, none⟩, fs1,
              [.exists_ uuid, .getMetadata uuid, .retrieve uuid]) ∧
        os.MemFS.read fs1 f = some B := by
  obtain ⟨hal, md, hid, _, huser, hsum, hup⟩ :=
    memUpload_success toLower detect sum256 validation ls fileHeader B userID uuid now fs hok
  refine ⟨_, md, _, hup, rfl, rfl, ?_, hsum, filepath.Join [ls.basePath, uuid], ?_, ?_⟩
  · simp only [LocalStorage.toInterface]
    unfold LocalStorage.GetMetadata
    simp [hal, os.memSystem, storedFS_lookup]
  · exact memGetFile_stored ls uuid userID B md fs hal huser
  · unfold os.MemFS.read
    rw [storedFS_lookup, if_neg (Ne.symm (meta_ne _)), if_pos rfl]

theorem upload_download_round_trip_witness :
    (UploadService.UploadFile exampleToLower exampleDetect exampleSum256
      (LocalStorage.toInterface os.memSystem (NewLocalStorage "./storage"))
      exampleValidation ⟨"a.PNG", 8, "image/png"⟩ (.ok examplePNG)
      "bob" "f2" 0 []).1.err = none ∧
    ∃ (resp : UploadResponse) (md : FileMetadata) (fs1 : os.MemFS),
      UploadService.UploadFile exampleToLower exampleDetect exampleSum256
        (LocalStorage.toInterface os.memSystem (NewLocalStorage "./storage"))
        exampleValidation ⟨"a.PNG", 8, "image/png"⟩ (.ok examplePNG)
        "bob" "f2" 0 []
        = (⟨some resp, none⟩, fs1, [.openFile, .read, .readAll, .store "f2", .close]) ∧
      resp.ID = "f2" ∧
      resp.Checksum = utils.hexEncode (exampleSum256 examplePNG) ∧
      (LocalStorage.toInterface os.memSystem (NewLocalStorage "./storage")).GetMetadata
        resp.ID fs1 = ((md, none), fs1) ∧
      md.Checksum = utils.hexEncode (exampleSum256 examplePNG) ∧
      ∃ f : String,
        UploadService.GetFile
          (LocalStorage.toInterface os.memSystem (NewLocalStorage "./storage"))
          resp.ID "bob" fs1
          = (⟨some f, md, none⟩, fs1,
              [.exists_ "f2", .getMetadata "f2", .retrieve "f2"]) ∧
        os.MemFS.read fs1 f = some examplePNG :=
  ⟨by decide, upload_download_round_trip exampleToLower exampleDetect exampleSum256
    exampleValidation (NewLocalStorage "./storage") ⟨"a.PNG", 8, "image/png"⟩ examplePNG
    "bob" "f2" 0 [] (by decide)⟩

/-- The size `UploadFile` records is the `Size` field of the header: when that field is
the length of the part, a successful upload records that length in the stored metadata
and in the response, and it is the number of bytes in the content slot. -/
theorem memUpload_size (toLower : String → String)
    (detect : List Nat → String) (sum256 : List Nat → List Nat)
    (validation : ValidationService) (ls : LocalStorage)
    (fileHeader : multipart.FileHeader) (B : List Nat) (userID uuid : String)
    (now : Int) (fs : os.MemFS)
    (hsize : fileHeader.Size = B.length)
    (hok : (UploadService.UploadFile toLower detect sum256
      (LocalStorage.toInterface os.memSystem ls) validation fileHeader (.ok B)
      userID uuid now fs).1.err = none) :
    ∃ (resp : UploadResponse) (md : FileMetadata) (fs1 : os.MemFS) (persisted : List Nat),
      UploadService.UploadFile toLower detect sum256
        (LocalStorage.toInterface os.memSystem ls) validation fileHeader (.ok B)
        userID uuid now fs
        = (⟨some resp, none⟩, fs1, [.openFile, .read, .readAll, .store uuid, .close]) ∧
      (LocalStorage.toInterface os.memSystem ls).GetMetadata uuid fs1 = ((md, none), fs1) ∧
      os.MemFS.read fs1 (filepath.Join [ls.basePath, uuid]) = some persisted ∧
      persisted = B ∧
      md.Size = persisted.length ∧ resp.Size = persisted.length := by
  obtain ⟨hal, md, _, hsz, _, _, hup⟩ :=
    memUpload_success toLower detect sum256 validation ls fileHeader B userID uuid now fs hok
  refine ⟨_, md, _, B, hup, ?_, ?_, rfl, hsz.trans hsize, hsize⟩
  · simp only [LocalStorage.toInterface]
    unfold LocalStorage.GetMetadata
    simp [hal, os.memSystem, storedFS_lookup]
  · unfold os.MemFS.read
    rw [storedFS_lookup, if_neg (Ne.symm (meta_ne _)), if_pos rfl]

/-- C12: for every part of a multipart form, with the header the multipart reader builds
for it, every successful `UploadFile` on a local storage whose file system never fails
records, in the stored `FileMetadata` and in the `UploadResponse`, the number of bytes
persisted to the content slot, which are the bytes of the part. -/
theorem recorded_size_is_persisted_length (toLower : String → String)
    (detect : List Nat → String) (sum256 : List Nat → List Nat)
    (validation : ValidationService) (ls : LocalStorage)
    (part : multipart.Part) (userID uuid : String) (now : Int) (fs : os.MemFS)
    (hok : (UploadService.UploadFile toLower detect sum256
      (LocalStorage.toInterface os.memSystem ls) validation part.header part.Open
      userID uuid now fs).1.err = none) :
    ∃ (resp : UploadResponse) (md : FileMetadata) (fs1 : os.MemFS) (persisted : List Nat),
      UploadService.UploadFile toLower detect sum256
        (LocalStorage.toInterface os.memSystem ls) validation part.header part.Open
        userID uuid now fs
        = (⟨some resp, none⟩, fs1, [.openFile, .read, .readAll, .store uuid, .close]) ∧
      (LocalStorage.toInterface os.memSystem ls).GetMetadata uuid fs1 = ((md, none), fs1) ∧
      os.MemFS.read fs1 (filepath.Join [ls.basePath, uuid]) = some persisted ∧
      persisted = part.content ∧
      md.Size = persisted.length ∧ resp.Size = persisted.length :=
  memUpload_size toLower detect sum256 validation ls part.header part.content userID uuid
    now fs rfl hok

theorem recorded_size_witness :
    (UploadService.UploadFile exampleToLower exampleDetect exampleSum256
      (LocalStorage.toInterface os.memSystem (NewLocalStorage "./storage"))
      exampleValidation (multipart.Part.mk "a.png" "image/png" examplePNG).header
      (multipart.Part.mk "a.png" "image/png" examplePNG).Open
      "bob" "f2" 0 []).1.err = none ∧
    ∃ (resp : UploadResponse) (md : FileMetadata) (fs1 : os.MemFS) (persisted : List Nat),
      UploadService.UploadFile exampleToLower exampleDetect exampleSum256
        (LocalStorage.toInterface os.memSystem (NewLocalStorage "./storage"))
        exampleValidation (multipart.Part.mk "a.png" "image/png" examplePNG).header
        (multipart.Part.mk "a.png" "image/png" examplePNG).Open
        "bob" "f2" 0 []
        = (⟨some resp, none⟩, fs1, [.openFile, .read, .readAll, .store "f2", .close]) ∧
      (LocalStorage.toInterface os.memSystem (NewLocalStorage "./storage")).GetMetadata
        "f2" fs1 = ((md, none), fs1) ∧
      os.MemFS.read fs1 (filepath.Join [(NewLocalStorage "./storage").basePath, "f2"])
        = some persisted ∧
      persisted = (multipart.Part.mk "a.png" "image/png" examplePNG).content ∧
      md.Size = persisted.length ∧ resp.Size = persisted.length :=
  ⟨by decide,
    recorded_size_is_persisted_length exampleToLower exampleDetect exampleSum256
      exampleValidation (NewLocalStorage "./storage")
      (multipart.Part.mk "a.png" "image/png" examplePNG) "bob" "f2" 0 [] (by decide)⟩

/-- C13: an upload whose declared size exceeds the ceiling is answered with
`ErrFileTooLarge` (400, "File too large") before anything else happens: the part is
neither opened nor read, no storage method is called and the storage state is the one
before the call, whatever the file name, the content type, the content, the subject
and the storage backend. -/
theorem oversized_upload_rejected_first {σ ρ : Type} (toLower : String → String)
    (detect : List Nat → String) (sum256 : List Nat → List Nat)
    (st : StorageInterface σ ρ) (validation : ValidationService)
    (fileHeader : multipart.FileHeader) (opened : Except String (List Nat))
    (userID uuid : String) (now : Int) (s : σ)
    (hsize : fileHeader.Size > validation.maxFileSize) :
    UploadService.UploadFile toLower detect sum256 st validation fileHeader opened
        userID uuid now s
      = (⟨none, some ErrFileTooLarge⟩, s, []) ∧
    ErrFileTooLarge.Code = 400 := by
  refine ⟨?_, rfl⟩
  unfold UploadService.UploadFile ValidationService.ValidateFile
  simp [hsize]

/-- C20: an upload whose part has the empty Content-Type never succeeds, provided the
sniffer never answers the empty string: `UploadFile` returns an error and no response,
calls no storage method and leaves the storage state as it was, for every file name,
content, allow-list and size ceiling. -/
theorem empty_content_type_never_uploads {σ ρ : Type} (toLower : String → String)
    (detect : List Nat → String) (sum256 : List Nat → List Nat)
    (st : StorageInterface σ ρ) (validation : ValidationService)
    (fileHeader : multipart.FileHeader) (opened : Except String (List Nat))
    (userID uuid : String) (now : Int) (s : σ)
    (hdetect : ∀ b, detect b ≠ "") (htype : fileHeader.ContentType = "") :
    let up := UploadService.UploadFile toLower detect sum256 st validation fileHeader
      opened userID uuid now s
    up.1.err ≠ none ∧ up.1.response = none ∧ up.2.1 = s ∧
      ∀ fileID, UploadStep.store fileID ∉ up.2.2 := by
  dsimp only
  unfold UploadService.UploadFile
  split
  · simp
  · split
    · simp
    · rename_i content
      have hv := validateFileContent_empty_type detect hdetect (multipart.File.opened content)
      rw [htype]
      dsimp only
      cases hvc : ValidationService.ValidateFileContent detect
        (multipart.File.opened content) "" with
      | mk e file =>
        rw [hvc] at hv
        cases e with
        | none => exact absurd rfl hv
        | some e => simp

theorem oversized_upload_rejected_witness :
    (multipart.FileHeader.mk "a.png" 101 "image/png").Size > exampleValidation.maxFileSize ∧
    (UploadService.UploadFile exampleToLower exampleDetect exampleSum256 exampleStorage
        exampleValidation ⟨"a.png", 101, "image/png"⟩ (.ok examplePNG) "bob" "f2" 0
        exampleFS
      = (⟨none, some ErrFileTooLarge⟩, exampleFS, []) ∧
    ErrFileTooLarge.Code = 400) :=
  ⟨by decide, oversized_upload_rejected_first exampleToLower exampleDetect exampleSum256
    exampleStorage exampleValidation ⟨"a.png", 101, "image/png"⟩ (.ok examplePNG) "bob"
    "f2" 0 exampleFS (by decide)⟩

theorem exampleDetect_nonempty (b : List Nat) : exampleDetect b ≠ "" := by
  unfold exampleDetect
  split <;> decide

theorem empty_content_type_witness :
    let up := UploadService.UploadFile exampleToLower exampleDetect exampleSum256
      exampleStorage exampleValidation ⟨"a.png", 8, ""⟩ (.ok examplePNG) "bob" "f2" 0
      exampleFS
    up.1.err ≠ none ∧ up.1.response = none ∧ up.2.1 = exampleFS ∧
      ∀ fileID, UploadStep.store fileID ∉ up.2.2 :=
  empty_content_type_never_uploads exampleToLower exampleDetect exampleSum256
    exampleStorage exampleValidation ⟨"a.png", 8, ""⟩ (.ok examplePNG) "bob" "f2" 0
    exampleFS exampleDetect_nonempty rfl

/-! ## Co-location of content and metadata (C18) -/

theorem memDelete_allowed (ls : LocalStorage) (fileID : String) (fs : os.MemFS)
    (h : utils.IsAllowedPath ls.basePath (filepath.Join [ls.basePath, fileID]) = true) :
    (LocalStorage.Delete os.memSystem ls fileID fs).1 = none ∧
    ∀ n, (LocalStorage.Delete os.memSystem ls fileID fs).2.lookup n
      = if n = filepath.Join [ls.basePath, fileID] ∨
          n = filepath.Join [ls.basePath, fileID] ++ ".meta" then none
        else fs.lookup n := by
  unfold LocalStorage.Delete
  simp only [h, Bool.not_true, Bool.false_eq_true, if_false]
  generalize filepath.Join [ls.basePath, fileID] = p
  have hr : ∀ (k : String) (g : os.MemFS),
      ((os.memSystem.Remove k g).1.isSome && !os.IsNotExist (os.memSystem.Remove k g).1)
        = false ∧
      ∀ n, (os.memSystem.Remove k g).2.lookup n = if n = k then none else g.lookup n := by
    intro k g
    simp only [os.memSystem]
    cases hk : g.lookup k with
    | none =>
      refine ⟨by simp [os.IsNotExist], ?_⟩
      intro n
      by_cases hn : n = k
      · simp [hn, hk]
      · simp [hn]
    | some v =>
      refine ⟨by simp, ?_⟩
      intro n
      exact memFS_lookup_remove g k n
  obtain ⟨h1, l1⟩ := hr p fs
  obtain ⟨h2, l2⟩ := hr (p ++ ".meta") (os.memSystem.Remove p fs).2
  simp only [h1, h2, Bool.false_eq_true, if_false, true_and]
  intro n
  rw [l2, l1]
  by_cases a : n = p
  · simp [a]
  · by_cases b : n = p ++ ".meta"
    · simp [b]
    · simp [a, b]

theorem memDelete_refused (ls : LocalStorage) (fileID : String) (fs : os.MemFS)
    (h : utils.IsAllowedPath ls.basePath (filepath.Join [ls.basePath, fileID]) = false) :
    LocalStorage.Delete os.memSystem ls fileID fs = (some "invalid file path", fs) := by
  unfold LocalStorage.Delete
  simp [h]

/-- What a call on the in-memory system does to the table of files: nothing when the
path check refuses the identifier; otherwise the content file and its sidecar are both
there (`Store`) or both gone (`Delete`), and no other name is touched. -/
theorem memCall_lookup (ls : LocalStorage) (op : StorageOp) (fs : os.MemFS) :
    (∀ n, (LocalStorage.call os.memSystem ls op fs).2.lookup n = fs.lookup n) ∨
    ∃ present : Bool, ∀ n,
      ((LocalStorage.call os.memSystem ls op fs).2.lookup n).isSome
        = if n = filepath.Join [ls.basePath, op.fileID] ∨
            n = filepath.Join [ls.basePath, op.fileID] ++ ".meta" then present
          else (fs.lookup n).isSome := by
  cases hal : utils.IsAllowedPath ls.basePath (filepath.Join [ls.basePath, op.fileID]) with
  | false =>
    left
    intro n
    cases op with
    | store fileID reader metadata =>
      simp only [LocalStorage.call]
      rw [memStore_refused ls fileID reader metadata fs hal]
    | delete fileID =>
      simp only [LocalStorage.call]
      rw [memDelete_refused ls fileID fs hal]
  | true =>
    right
    cases op with
    | store fileID reader metadata =>
      refine ⟨true, fun n => ?_⟩
      simp only [LocalStorage.call, StorageOp.fileID]
      rw [memStore_allowed ls fileID reader metadata fs hal]
      simp only [storedFS_lookup]
      by_cases a : n = filepath.Join [ls.basePath, fileID] ++ ".meta"
      · simp [a]
      · by_cases b : n = filepath.Join [ls.basePath, fileID]
        · subst b
          simp [a]
        · simp [a, b]
    | delete fileID =>
      refine ⟨false, fun n => ?_⟩
      simp only [LocalStorage.call, StorageOp.fileID]
      rw [(memDelete_allowed ls fileID fs hal).2 n]
      split <;> simp

theorem not_meta_of_suffix (p q : String) (h : strings.HasSuffix p ".meta" = false) :
    p ≠ q ++ ".meta" := by
  intro he
  have : strings.HasSuffix p ".meta" = true := by
    rw [hasSuffix_iff]
    exact ⟨q.data, by rw [he, String.data_append]⟩
  rw [h] at this
  exact Bool.noConfusion this

theorem memCall_colocated (ls : LocalStorage) (op : StorageOp) (fs : os.MemFS)
    (hop : strings.HasSuffix (filepath.Join [ls.basePath, op.fileID]) ".meta" = false)
    (h : Colocated fs) : Colocated (LocalStorage.call os.memSystem ls op fs).2 := by
  intro p hp
  rcases memCall_lookup ls op fs with hsame | ⟨present, hl⟩
  · rw [hsame, hsame]
    exact h p hp
  · rw [hl, hl]
    by_cases a : p = filepath.Join [ls.basePath, op.fileID]
    · subst a
      simp
    · have b : p ≠ filepath.Join [ls.basePath, op.fileID] ++ ".meta" :=
        not_meta_of_suffix p _ hp
      have c : p ++ ".meta" ≠ filepath.Join [ls.basePath, op.fileID] :=
        fun e => not_meta_of_suffix _ p hop e.symm
      have d : p ++ ".meta" ≠ filepath.Join [ls.basePath, op.fileID] ++ ".meta" :=
        fun e => a (meta_inj _ _ e)
      simp only [a, b, c, d, or_self, if_false]
      exact h p hp

theorem memCalls_colocated (ls : LocalStorage) (ops : List StorageOp) (fs : os.MemFS)
    (hops : ∀ op ∈ ops,
      strings.HasSuffix (filepath.Join [ls.basePath, op.fileID]) ".meta" = false)
    (h : Colocated fs) : Colocated (LocalStorage.calls os.memSystem ls ops fs).2 := by
  induction ops generalizing fs with
  | nil => exact h
  | cons op ops ih =>
    simp only [LocalStorage.calls]
    exact ih _ (fun o ho => hops o (List.mem_cons_of_mem _ ho))
      (memCall_colocated ls op fs (hops op (List.mem_cons_self _ _)) h)

theorem plainSlot_suffix (ls : LocalStorage) (fileID : String)
    (h : plainSlot ls fileID = true) :
    strings.HasSuffix (filepath.Join [ls.basePath, fileID]) ".meta" = false := by
  unfold plainSlot at h
  simp only [Bool.and_eq_true, Bool.not_eq_true'] at h
  exact h.2

/-- C18, as the code has it: on a local storage over a file system without I/O failures,
starting from the empty root, after every sequence of `Store` and `Delete` calls whose
identifiers are plain file names with a content path that does not end in `.meta`,
every such identifier has its content artifact exactly when it has its metadata
artifact. -/
theorem colocation_of_plain_names (ls : LocalStorage) (ops : List StorageOp)
    (hops : ∀ op ∈ ops, plainSlot ls op.fileID = true)
    (fileID : String) (hid : plainSlot ls fileID = true) :
    contentExists ls (LocalStorage.calls os.memSystem ls ops []).2 fileID = true ↔
      metadataExists ls (LocalStorage.calls os.memSystem ls ops []).2 fileID = true := by
  have h0 : Colocated [] := fun p _ => rfl
  have h := memCalls_colocated ls ops []
    (fun op hop => plainSlot_suffix ls op.fileID (hops op hop)) h0 _
    (plainSlot_suffix ls fileID hid)
  unfold contentExists metadataExists
  rw [h]

theorem colocation_witness :
    contentExists (NewLocalStorage "./storage")
      (LocalStorage.calls os.memSystem (NewLocalStorage "./storage")
        [.store "f1" [1, 2, 3] exampleMetadata, .store "f2" [4] exampleMetadata,
          .delete "f1"] []).2 "f2" = true ↔
    metadataExists (NewLocalStorage "./storage")
      (LocalStorage.calls os.memSystem (NewLocalStorage "./storage")
        [.store "f1" [1, 2, 3] exampleMetadata, .store "f2" [4] exampleMetadata,
          .delete "f1"] []).2 "f2" = true :=
  colocation_of_plain_names (NewLocalStorage "./storage")
    [.store "f1" [1, 2, 3] exampleMetadata, .store "f2" [4] exampleMetadata, .delete "f1"]
    (by decide) "f2" (by decide)

/-- C18 fails as stated: from the empty root, the one call `Store("a.meta", ...)` passes
the path check and succeeds; afterwards the identifier `a`, which passes the path check
too, has the metadata artifact `a.meta` and no content artifact. -/
theorem colocation_counterexample :
    utils.IsAllowedPath "./storage" (filepath.Join ["./storage", "a.meta"]) = true ∧
    utils.IsAllowedPath "./storage" (filepath.Join ["./storage", "a"]) = true ∧
    (LocalStorage.calls os.memSystem (NewLocalStorage "./storage")
      [.store "a.meta" [1, 2, 3] exampleMetadata] []).1 = [none] ∧
    contentExists (NewLocalStorage "./storage")
      (LocalStorage.calls os.memSystem (NewLocalStorage "./storage")
        [.store "a.meta" [1, 2, 3] exampleMetadata] []).2 "a" = false ∧
    metadataExists (NewLocalStorage "./storage")
      (LocalStorage.calls os.memSystem (NewLocalStorage "./storage")
        [.store "a.meta" [1, 2, 3] exampleMetadata] []).2 "a" = true := by
  decide

/-! ## Tokens (C14, C15, C16) -/

theorem splitAux_plain (d : Char) (s cur : List Char) (h : d ∉ s) :
    strings.splitAux [d] s 0 cur = [cur.reverse ++ s] := by
  induction s generalizing cur with
  | nil => simp [strings.splitAux]
  | cons c s ih =>
    have hc : d ≠ c := fun e => h (by simp [e])
    have hs : d ∉ s := fun e => h (List.mem_cons_of_mem _ e)
    have hp : List.isPrefixOf [d] (c :: s) = false := by simp [List.isPrefixOf, hc]
    rw [strings.splitAux, hp]
    simp only [Bool.false_eq_true, if_false]
    rw [ih (c :: cur) hs]
    simp

theorem splitAux_piece (d : Char) (s rest cur : List Char) (h : d ∉ s) :
    strings.splitAux [d] (s ++ d :: rest) 0 cur
      = (cur.reverse ++ s) :: strings.splitAux [d] rest 0 [] := by
  induction s generalizing cur with
  | nil =>
    have hp : List.isPrefixOf [d] (d :: rest) = true := by simp [List.isPrefixOf]
    simp only [List.nil_append, List.append_nil]
    rw [strings.splitAux, hp]
    simp
  | cons c s ih =>
    have hc : d ≠ c := fun e => h (by simp [e])
    have hs : d ∉ s := fun e => h (List.mem_cons_of_mem _ e)
    have hp : List.isPrefixOf [d] (c :: (s ++ d :: rest)) = false := by
      simp [List.isPrefixOf, hc]
    rw [List.cons_append, strings.splitAux, hp]
    simp only [Bool.false_eq_true, if_false]
    rw [ih (c :: cur) hs]
    simp

/-- Three pieces without a dot, joined by dots, split back into the three. -/
theorem split_three (a b c : String) (ha : '.' ∉ a.data) (hb : '.' ∉ b.data)
    (hc : '.' ∉ c.data) :
    strings.Split (a ++ "." ++ b ++ "." ++ c) "." = [a, b, c] := by
  unfold strings.Split
  have hne : ("." : String) ≠ "" := by decide
  rw [if_neg hne]
  have hd : (a ++ "." ++ b ++ "." ++ c).data
      = a.data ++ '.' :: (b.data ++ '.' :: c.data) := by
    simp [String.data_append]
  have hs : ("." : String).data = ['.'] := rfl
  rw [hd, hs, splitAux_piece '.' a.data _ [] ha, splitAux_piece '.' b.data _ [] hb,
    splitAux_plain '.' c.data [] hc]
  simp

theorem split_empty : strings.Split "" "." = [""] := by decide

theorem getSigningMethod_alg (m : jwt.SigningMethod) (h : m.isHMAC = true) :
    jwt.GetSigningMethod m.Alg = some m := by
  cases m with
  | other alg => simp [jwt.SigningMethod.isHMAC] at h
  | HS256 => decide
  | HS384 => decide
  | HS512 => decide

theorem sign_isHMAC (h : jwt.Hashes) (m : jwt.SigningMethod) (s : String)
    (key sig : List Nat) (hs : m.Sign h s key = .ok sig) : m.isHMAC = true := by
  cases m with
  | other alg => simp [jwt.SigningMethod.Sign] at hs
  | HS256 => rfl
  | HS384 => rfl
  | HS512 => rfl

/-- What `ValidateToken` answers on a token made by `SignedString` with the method `m`,
the claims `claims` and a signature `sig`, when the service's own secret signs the same
text with `own`: a signature error unless the two signatures agree, and then the verdict
on the dates. -/
theorem validateToken_signed (c : jwt.Codec) (hc : c.Lawful) (h : jwt.Hashes)
    (a : AuthService) (now : Int) (m : jwt.SigningMethod) (claims : Claims)
    (key sig own : List Nat) (token : String)
    (htoken : jwt.SignedString c h m claims key = .ok token)
    (hsig : m.Sign h (jwt.SigningString c m claims) key = .ok sig)
    (hown : m.Sign h (jwt.SigningString c m claims) a.secret = .ok own) :
    a.ValidateToken c h now token
      = if sig = own then
          match jwt.Validate now claims with
          | some err => .error err
          | none => .ok claims
        else .error "token signature is invalid: signature is invalid" := by
  have hm := sign_isHMAC h m _ key sig hsig
  unfold jwt.SignedString at htoken
  simp only [hsig] at htoken
  have ht : token = c.encodeHeader m.Alg ++ "." ++ c.encodeClaims claims ++ "."
      ++ c.encodeSignature sig := by
    simp only [Except.ok.injEq] at htoken
    rw [← htoken]
    rfl
  unfold AuthService.ValidateToken jwt.ParseWithClaims
  rw [ht, split_three _ _ _ (hc.header_dot _) (hc.claims_dot _) (hc.signature_dot _)]
  simp only [hc.header, hc.claims, hc.signature, getSigningMethod_alg m hm,
    AuthService.keyFunc, hm, Bool.not_true, Bool.false_eq_true, if_false]
  unfold jwt.SigningMethod.Verify
  have hs2 : m.Sign h (c.encodeHeader m.Alg ++ "." ++ c.encodeClaims claims) a.secret
      = .ok own := hown
  simp only [hs2]
  by_cases he : sig = own
  · simp only [he, if_true]
    cases jwt.Validate now claims with
    | none => simp
    | some err => simp
  · simp only [he, if_false]
    rfl

theorem exampleRun_length (n : Nat) : (jwt.exampleRun n).length = n := by
  simp [jwt.exampleRun, String.length]

theorem exampleRun_dot (n : Nat) : '.' ∉ (jwt.exampleRun n).data := by
  simp only [jwt.exampleRun]
  intro h
  have := List.eq_of_mem_replicate h
  exact absurd this (by decide)

theorem chars_back (s : List Char) : (s.map Char.toNat).map Char.ofNat = s := by
  induction s with
  | nil => rfl
  | cons c s ih =>
    simp only [List.map_cons, ih, Char.ofNat_toNat]

theorem exampleCodec_lawful : jwt.exampleCodec.Lawful where
  header alg := by
    simp only [jwt.exampleCodec, exampleRun_length, Encodable.encodek, Option.map_some',
      chars_back]
  claims x := by
    simp only [jwt.exampleCodec, exampleRun_length, Encodable.encodek, Option.map_some',
      chars_back]
  signature sig := by
    simp only [jwt.exampleCodec, exampleRun_length, Encodable.encodek]
  header_dot alg := exampleRun_dot _
  claims_dot x := exampleRun_dot _
  signature_dot sig := exampleRun_dot _

/-- HMAC fills a short key up with zero bytes, so a zero byte more at the end of the
key changes nothing, whatever the hash function. -/
theorem hmac_zero_padding (sum : List Nat → List Nat) (blockSize : Nat)
    (key msg : List Nat) (hlen : key.length < blockSize) :
    hmac.Sum sum blockSize (key ++ [0]) msg = hmac.Sum sum blockSize key msg := by
  unfold hmac.Sum
  have h1 : ¬ (key ++ [0]).length > blockSize := by
    simp only [List.length_append, List.length_singleton]
    omega
  have h2 : ¬ key.length > blockSize := by omega
  simp only [h1, h2, if_false]
  have hp : key ++ [0] ++ List.replicate (blockSize - (key ++ [0]).length) 0
      = key ++ List.replicate (blockSize - key.length) 0 := by
    have : blockSize - key.length = (blockSize - (key ++ [0]).length) + 1 := by
      simp only [List.length_append, List.length_singleton]
      omega
    rw [this, List.replicate_succ]
    simp
  rw [hp]

theorem hmac_sum_blockKey (sum : List Nat → List Nat) (blockSize : Nat)
    (key msg : List Nat) :
    hmac.Sum sum blockSize key msg
      = sum ((hmac.blockKey sum blockSize key).map (fun b => b ^^^ 0x5c) ++
          sum ((hmac.blockKey sum blockSize key).map (fun b => b ^^^ 0x36) ++ msg)) :=
  rfl

theorem blockKey_length (sum : List Nat → List Nat) (blockSize : Nat) (key : List Nat)
    (hlen : ∀ data, (sum data).length ≤ blockSize) :
    (hmac.blockKey sum blockSize key).length = blockSize := by
  unfold hmac.blockKey
  by_cases h : key.length > blockSize
  · have := hlen key
    simp only [h, if_true, List.length_append, List.length_replicate]
    omega
  · simp only [h, if_false, List.length_append, List.length_replicate]
    omega

/-- With a hash function without collisions whose values fit a block, two keys that
`hmac.New` prepares differently give different values on every message. -/
theorem hmac_separates (sum : List Nat → List Nat) (blockSize : Nat)
    (hinj : Function.Injective sum) (hlen : ∀ data, (sum data).length ≤ blockSize)
    (k1 k2 msg : List Nat)
    (hkey : hmac.blockKey sum blockSize k1 ≠ hmac.blockKey sum blockSize k2) :
    hmac.Sum sum blockSize k1 msg ≠ hmac.Sum sum blockSize k2 msg := by
  intro h
  rw [hmac_sum_blockKey, hmac_sum_blockKey] at h
  have h1 := hinj h
  have hl : ((hmac.blockKey sum blockSize k1).map (fun b => b ^^^ 0x5c)).length
      = ((hmac.blockKey sum blockSize k2).map (fun b => b ^^^ 0x5c)).length := by
    rw [List.length_map, List.length_map, blockKey_length sum blockSize k1 hlen,
      blockKey_length sum blockSize k2 hlen]
  have h2 := (List.append_inj h1 hl).1
  have hx : Function.Injective (fun b : Nat => b ^^^ 0x5c) := Nat.xor_left_injective
  exact hkey (List.map_injective_iff.mpr hx h2)

theorem codeHashes_injective : Function.Injective jwt.codeHashes.sha256 := by
  intro x y h
  simp only [jwt.codeHashes, List.cons.injEq, and_true] at h
  exact Encodable.encode_injective h

theorem codeHashes_length (data : List Nat) : (jwt.codeHashes.sha256 data).length ≤ 64 := by
  simp [jwt.codeHashes]

theorem generateToken_ok (c : jwt.Codec) (h : jwt.Hashes) (a : AuthService)
    (userID : String) (now issued : Int) :
    a.GenerateToken c h userID now issued
      = .ok (jwt.SigningString c .HS256 (a.newClaims userID now issued) ++ "." ++
          c.encodeSignature (hmac.Sum h.sha256 64 a.secret
            (strings.bytes (jwt.SigningString c .HS256 (a.newClaims userID now issued))))) :=
  rfl

/-- What a service with the secret of `b` answers on a token generated by the service
`a`: the claims when the two secrets give the same HMAC on the signed text and the
token has not expired, an error otherwise. -/
theorem validateToken_generated (c : jwt.Codec) (hc : c.Lawful) (h : jwt.Hashes)
    (a b : AuthService) (userID : String) (now issued verifyNow : Int) (token : String)
    (htoken : a.GenerateToken c h userID now issued = .ok token) :
    b.ValidateToken c h verifyNow token
      = if hmac.Sum h.sha256 64 a.secret
            (strings.bytes (jwt.SigningString c .HS256 (a.newClaims userID now issued)))
          = hmac.Sum h.sha256 64 b.secret
            (strings.bytes (jwt.SigningString c .HS256 (a.newClaims userID now issued)))
        then
          if verifyNow < jwt.NumericDate.Time (jwt.NewNumericDate (now + a.expiration))
          then .ok (a.newClaims userID now issued)
          else .error "token has invalid claims: token is expired"
        else .error "token signature is invalid: signature is invalid" := by
  rw [validateToken_signed c hc h b verifyNow .HS256 (a.newClaims userID now issued)
    a.secret _ _ token htoken rfl rfl]
  split
  · by_cases ht : verifyNow
        < jwt.NumericDate.Time (jwt.NewNumericDate (now + a.expiration))
    · simp [jwt.Validate, AuthService.newClaims, ht]
    · simp [jwt.Validate, AuthService.newClaims, ht]
  · rfl

/-- C14: token round trip. For every lawful segment encoding, all hash functions, every
secret and lifetime, every subject id and all clock readings: `GenerateToken` returns a
token, and when the expiration of that token lies after the time of verification,
`ValidateToken` of a service with the same secret returns claims whose `UserID` is the
subject id and whose `ExpiresAt` is after the time of verification. -/
theorem token_round_trip (c : jwt.Codec) (hc : c.Lawful) (h : jwt.Hashes)
    (a : AuthService) (userID : String) (now issued verifyNow : Int)
    (hexp : verifyNow < jwt.NumericDate.Time (jwt.NewNumericDate (now + a.expiration))) :
    ∃ token claims exp,
      a.GenerateToken c h userID now issued = .ok token ∧
      a.ValidateToken c h verifyNow token = .ok claims ∧
      claims.UserID = userID ∧
      claims.ExpiresAt = some exp ∧ verifyNow < jwt.NumericDate.Time exp := by
  refine ⟨_, a.newClaims userID now issued, jwt.NewNumericDate (now + a.expiration),
    generateToken_ok c h a userID now issued, ?_, rfl, rfl, hexp⟩
  rw [validateToken_generated c hc h a a userID now issued verifyNow _
    (generateToken_ok c h a userID now issued)]
  simp [hexp]

theorem token_round_trip_witness :
    ∃ token claims exp,
      (NewAuthService "test-secret-key" jwt.Hour).GenerateToken jwt.exampleCodec
        jwt.exampleHashes "" 0 0 = .ok token ∧
      (NewAuthService "test-secret-key" jwt.Hour).ValidateToken jwt.exampleCodec
        jwt.exampleHashes 5 token = .ok claims ∧
      claims.UserID = "" ∧
      claims.ExpiresAt = some exp ∧ 5 < jwt.NumericDate.Time exp :=
  token_round_trip jwt.exampleCodec exampleCodec_lawful jwt.exampleHashes
    (NewAuthService "test-secret-key" jwt.Hour) "" 0 0 5 (by decide)

theorem parse_malformed (c : jwt.Codec) (h : jwt.Hashes) (now : Int)
    (tokenString : String) (keyFunc : jwt.Token → Except String (List Nat))
    (hmalformed : jwt.Malformed c tokenString) :
    ∃ err, jwt.ParseWithClaims c h now tokenString keyFunc = .error err := by
  unfold jwt.Malformed at hmalformed
  unfold jwt.ParseWithClaims
  generalize strings.Split tokenString "." = parts at hmalformed
  match parts, hmalformed with
  | [], _ => exact ⟨_, rfl⟩
  | [_], _ => exact ⟨_, rfl⟩
  | [_, _], _ => exact ⟨_, rfl⟩
  | _ :: _ :: _ :: _ :: _, _ => exact ⟨_, rfl⟩
  | [p0, p1, p2], hmal =>
    dsimp only at hmal ⊢
    cases h0 : c.decodeHeader p0 with
    | none => exact ⟨_, rfl⟩
    | some alg =>
      dsimp only
      cases h1 : c.decodeClaims p1 with
      | none => exact ⟨_, rfl⟩
      | some cl =>
        dsimp only
        have h2 : c.decodeSignature p2 = none := by
          rcases hmal with h | h | h
          · rw [h0] at h; exact absurd h (by simp)
          · rw [h1] at h; exact absurd h (by simp)
          · exact h
        cases jwt.GetSigningMethod alg with
        | none => exact ⟨_, rfl⟩
        | some method =>
          dsimp only
          cases keyFunc ⟨method, cl, false⟩ with
          | error e => exact ⟨_, rfl⟩
          | ok k =>
            dsimp only
            rw [h2]
            exact ⟨_, rfl⟩

/-- C15: expired and malformed tokens are rejected. For every lawful segment encoding
and every service: a token signed by `SignedString` (with any HMAC method and any key,
the service's own included) whose `ExpiresAt` is not after the time of verification is
answered with an error and no claims; so is every token string that does not split
into three segments that decode, and so is the empty string. -/
theorem expired_or_malformed_rejected (c : jwt.Codec) (hc : c.Lawful) (h : jwt.Hashes)
    (a : AuthService) (verifyNow : Int)
    (m : jwt.SigningMethod) (claims : Claims) (key : List Nat) (token : String) (exp : Int)
    (tokenString : String)
    (hsigned : jwt.SignedString c h m claims key = .ok token)
    (hclaim : claims.ExpiresAt = some exp)
    (hexpired : verifyNow ≥ jwt.NumericDate.Time exp)
    (hmalformed : jwt.Malformed c tokenString) :
    (∃ err, a.ValidateToken c h verifyNow token = .error err) ∧
    (∃ err, a.ValidateToken c h verifyNow tokenString = .error err) ∧
    (∃ err, a.ValidateToken c h verifyNow "" = .error err) := by
  refine ⟨?_, ?_, ?_⟩
  · -- the expired token
    have hs : ∃ sig, m.Sign h (jwt.SigningString c m claims) key = .ok sig := by
      unfold jwt.SignedString at hsigned
      cases hsg : m.Sign h (jwt.SigningString c m claims) key with
      | error e => simp [hsg] at hsigned
      | ok sig => exact ⟨sig, rfl⟩
    obtain ⟨sig, hsig⟩ := hs
    have hm := sign_isHMAC h m _ key sig hsig
    have ho : ∃ own, m.Sign h (jwt.SigningString c m claims) a.secret = .ok own := by
      cases m with
      | other alg => simp [jwt.SigningMethod.isHMAC] at hm
      | HS256 => exact ⟨_, rfl⟩
      | HS384 => exact ⟨_, rfl⟩
      | HS512 => exact ⟨_, rfl⟩
    obtain ⟨own, hown⟩ := ho
    rw [validateToken_signed c hc h a verifyNow m claims key sig own token hsigned hsig hown]
    have hv : jwt.Validate verifyNow claims
        = some "token has invalid claims: token is expired" := by
      have : ¬ verifyNow < jwt.NumericDate.Time exp := not_lt.mpr hexpired
      simp [jwt.Validate, hclaim, this]
    rw [hv]
    split
    · exact ⟨_, rfl⟩
    · exact ⟨_, rfl⟩
  · -- the malformed token string
    obtain ⟨err, herr⟩ := parse_malformed c h verifyNow tokenString a.keyFunc hmalformed
    unfold AuthService.ValidateToken
    rw [herr]
    exact ⟨_, rfl⟩
  · -- the empty string
    unfold AuthService.ValidateToken jwt.ParseWithClaims
    rw [split_empty]
    exact ⟨_, rfl⟩

theorem expired_or_malformed_witness :
    (∃ err, (NewAuthService "test-secret-key" (-jwt.Hour)).ValidateToken jwt.exampleCodec
      jwt.exampleHashes 0
      (jwt.SigningString jwt.exampleCodec .HS256
          ((NewAuthService "test-secret-key" (-jwt.Hour)).newClaims "alice" 0 0) ++ "." ++
        jwt.exampleCodec.encodeSignature (hmac.Sum jwt.exampleHashes.sha256 64
          (NewAuthService "test-secret-key" (-jwt.Hour)).secret
          (strings.bytes (jwt.SigningString jwt.exampleCodec .HS256
            ((NewAuthService "test-secret-key" (-jwt.Hour)).newClaims "alice" 0 0)))))
      = .error err) ∧
    (∃ err, (NewAuthService "test-secret-key" (-jwt.Hour)).ValidateToken jwt.exampleCodec
      jwt.exampleHashes 0 "not-a-token" = .error err) ∧
    (∃ err, (NewAuthService "test-secret-key" (-jwt.Hour)).ValidateToken jwt.exampleCodec
      jwt.exampleHashes 0 "" = .error err) :=
  expired_or_malformed_rejected jwt.exampleCodec exampleCodec_lawful jwt.exampleHashes
    (NewAuthService "test-secret-key" (-jwt.Hour)) 0 .HS256
    ((NewAuthService "test-secret-key" (-jwt.Hour)).newClaims "alice" 0 0)
    (NewAuthService "test-secret-key" (-jwt.Hour)).secret _
    (jwt.NewNumericDate (0 + -jwt.Hour)) "not-a-token" rfl rfl (by decide)
    (by
      unfold jwt.Malformed
      rw [show strings.Split "not-a-token" "." = ["not-a-token"] from by decide]
      trivial)

/-- C16, as the code has it: for hash functions without collisions, a token generated by
a service with one secret is answered with an error and no claims by a service with
another secret whenever HMAC prepares the two secrets to different keys (each hashed if
longer than the 64-byte block, then filled up with zero bytes), for every lawful segment
encoding, subject id, lifetime and clock readings. -/
theorem other_secret_rejected (c : jwt.Codec) (hc : c.Lawful) (h : jwt.Hashes)
    (hinj : Function.Injective h.sha256) (hlen : ∀ data, (h.sha256 data).length ≤ 64)
    (a b : AuthService) (userID : String) (now issued verifyNow : Int)
    (hkey : hmac.blockKey h.sha256 64 a.secret ≠ hmac.blockKey h.sha256 64 b.secret) :
    ∃ token err,
      a.GenerateToken c h userID now issued = .ok token ∧
      b.ValidateToken c h verifyNow token = .error err := by
  refine ⟨_, "token signature is invalid: signature is invalid",
    generateToken_ok c h a userID now issued, ?_⟩
  rw [validateToken_generated c hc h a b userID now issued verifyNow _
    (generateToken_ok c h a userID now issued),
    if_neg (hmac_separates h.sha256 64 hinj hlen a.secret b.secret _ hkey)]

theorem other_secret_rejected_witness :
    ∃ token err,
      (NewAuthService "secret1" jwt.Hour).GenerateToken jwt.exampleCodec
        jwt.codeHashes "alice" 0 0 = .ok token ∧
      (NewAuthService "secret2" jwt.Hour).ValidateToken jwt.exampleCodec
        jwt.codeHashes 5 token = .error err :=
  other_secret_rejected jwt.exampleCodec exampleCodec_lawful jwt.codeHashes
    codeHashes_injective codeHashes_length
    (NewAuthService "secret1" jwt.Hour) (NewAuthService "secret2" jwt.Hour)
    "alice" 0 0 5 (by decide)

/-- C16 fails as stated: the secret `k` and the secret `k` followed by a zero byte are
distinct, yet for all hash functions a token generated with the first is accepted by a
service with the second, which returns its claims: HMAC fills both keys up with zero
bytes to the same block. -/
theorem secret_separation_counterexample :
    ([107] : List Nat) ≠ [107, 0] ∧
    ∀ h : jwt.Hashes, ∃ token claims,
      (AuthService.mk [107] jwt.Hour).GenerateToken jwt.exampleCodec h "alice" 0 0
        = .ok token ∧
      (AuthService.mk [107, 0] jwt.Hour).ValidateToken jwt.exampleCodec h 5 token
        = .ok claims ∧
      claims.UserID = "alice" := by
  refine ⟨by decide, fun h => ?_⟩
  refine ⟨_, (AuthService.mk [107] jwt.Hour).newClaims "alice" 0 0,
    generateToken_ok _ _ _ _ _ _, ?_, rfl⟩
  rw [validateToken_generated jwt.exampleCodec exampleCodec_lawful h
    (AuthService.mk [107] jwt.Hour) (AuthService.mk [107, 0] jwt.Hour) "alice" 0 0 5 _
    (generateToken_ok _ _ _ _ _ _)]
  have hpad : hmac.Sum h.sha256 64 (AuthService.mk [107] jwt.Hour).secret
        (strings.bytes (jwt.SigningString jwt.exampleCodec .HS256
          ((AuthService.mk [107] jwt.Hour).newClaims "alice" 0 0)))
      = hmac.Sum h.sha256 64 (AuthService.mk [107, 0] jwt.Hour).secret
        (strings.bytes (jwt.SigningString jwt.exampleCodec .HS256
          ((AuthService.mk [107] jwt.Hour).newClaims "alice" 0 0))) :=
    (hmac_zero_padding h.sha256 64 [107] _ (by decide)).symm
  have hexp : (5 : Int) < jwt.NumericDate.Time
      (jwt.NewNumericDate (0 + (AuthService.mk [107] jwt.Hour).expiration)) := by
    decide
  rw [if_pos hpad, if_pos hexp]

/-! ## The authorization gate (C17) -/

/-- The answer of the gate to a request it turns away: 401 with the error body, aborted,
`c.Next()` not called, no `userID` set. -/
theorem respondWithError_unauthorized :
    Middleware.respondWithError ErrUnauthorized
      = ⟨false, true, some 401, some ⟨"Unauthorized", 401, "Unauthorized"⟩, none⟩ := by
  decide

/-- C17: the authorization header gate. For every check of tokens and every value of the
header: either the value, split on single spaces, is exactly the word `Bearer` and a
token the check accepts, and then the handler sets `userID` to the `UserID` of the
claims, calls `c.Next()`, writes no response and does not abort; or the value is
anything else, and then the handler responds 401 with the error body, aborts and does
not call `c.Next()`, so that no later handler runs. -/
theorem auth_header_gate (validateToken : String → Except String Claims)
    (authHeader : String) :
    (∃ token claims,
      strings.Split authHeader " " = ["Bearer", token] ∧
      validateToken token = .ok claims ∧
      Middleware.AuthMiddleware validateToken authHeader
        = ⟨true, false, none, none, some claims.UserID⟩ ∧
      (Middleware.AuthMiddleware validateToken authHeader).laterHandlersRun = true) ∨
    ((¬ ∃ token claims,
        strings.Split authHeader " " = ["Bearer", token] ∧
        validateToken token = .ok claims) ∧
      Middleware.AuthMiddleware validateToken authHeader
        = ⟨false, true, some 401, some ⟨"Unauthorized", 401, "Unauthorized"⟩, none⟩ ∧
      (Middleware.AuthMiddleware validateToken authHeader).laterHandlersRun = false) := by
  unfold Middleware.AuthMiddleware
  by_cases hempty : authHeader = ""
  · right
    subst hempty
    refine ⟨?_, ?_, ?_⟩
    · rintro ⟨token, claims, hs, _⟩
      have : strings.Split "" " " = [""] := by decide
      rw [this] at hs
      simp at hs
    · simp [respondWithError_unauthorized]
    · simp [respondWithError_unauthorized, AuthOutcome.laterHandlersRun]
  · rw [if_neg hempty]
    dsimp only
    generalize strings.Split authHeader " " = parts
    by_cases hshape : parts.length ≠ 2 ∨ parts.getD 0 "" ≠ "Bearer"
    · right
      rw [if_pos hshape]
      refine ⟨?_, by simp [respondWithError_unauthorized],
        by simp [respondWithError_unauthorized, AuthOutcome.laterHandlersRun]⟩
      rintro ⟨token, claims, hs, _⟩
      subst hs
      simp at hshape
    · rw [if_neg hshape]
      simp only [not_or, not_not] at hshape
      obtain ⟨hlen, hword⟩ := hshape
      match parts, hlen, hword with
      | [scheme, token], _, hword =>
        simp only [List.getD_cons_zero] at hword
        subst hword
        simp only [List.getD_cons_succ, List.getD_cons_zero]
        cases hv : validateToken token with
        | error e =>
          right
          refine ⟨?_, by simp [respondWithError_unauthorized],
            by simp [respondWithError_unauthorized, AuthOutcome.laterHandlersRun]⟩
          rintro ⟨token', claims, hs, hok⟩
          simp only [List.cons.injEq, true_and, and_true] at hs
          subst hs
          rw [hv] at hok
          simp at hok
        | ok claims =>
          left
          exact ⟨token, claims, rfl, hv, rfl, rfl⟩

/-- The gate on example headers, with a check that accepts the one token `good`: the
header `Bearer good` passes; the empty header, another scheme, the lower-case word, two
spaces, a third part, a leading space, the bare word and a token the check refuses are
all answered with 401. -/
theorem auth_header_examples :
    Middleware.AuthMiddleware exampleValidateToken "Bearer good"
      = ⟨true, false, none, none, some "alice"⟩ ∧
    ∀ header ∈ ["", "Basic good", "bearer good", "Bearer  good", "Bearer good extra",
        " Bearer good", "Bearer", "Bearer ", "Bearer bad", "good"],
      Middleware.AuthMiddleware exampleValidateToken header
        = ⟨false, true, some 401, some ⟨"Unauthorized", 401, "Unauthorized"⟩, none⟩ := by
  decide

/-! ## Handlers running at the same time (C19) -/

/-- The two halves, one right after the other, are the handler. -/
theorem rateLimitStep_halves (m : Middleware) (userID : String) (now : Int) :
    m.checkWrite userID now (m.readValid userID now) = m.rateLimitStep userID now := rfl

theorem accepted_zip (userID : String) :
    ∀ (reqs : List Request) (m : Middleware),
      (((reqs.zip (m.decisions reqs)).filter
        (fun d => d.2 && d.1.userID == userID)).map (fun d => d.1.now))
      = m.acceptedTimes userID reqs := by
  intro reqs
  induction reqs with
  | nil => intro m; rfl
  | cons r rs ih =>
    intro m
    simp only [Middleware.decisions, Middleware.acceptedTimes, List.zip_cons_cons,
      List.filter_cons]
    split
    · simp only [List.map_cons, ih]
    · exact ih _

/-- The serial schedule does what the handler does on the requests in order. -/
theorem run_serial : ∀ (reqs : List Request) (i : Nat) (s : Shared),
    ((s.run (serial i reqs)).m = s.m.run reqs) ∧
    ((s.run (serial i reqs)).decided = s.decided ++ reqs.zip (s.m.decisions reqs)) := by
  intro reqs
  induction reqs with
  | nil =>
    intro i s
    simp [serial, Shared.run, Middleware.run, Middleware.decisions]
  | cons r rs ih =>
    intro i s
    have hstep : ((s.step (.read i r)).step (.write i)).m = (s.m.rateLimitStep r.userID r.now).m ∧
        ((s.step (.read i r)).step (.write i)).decided
          = s.decided ++ [(r, (s.m.rateLimitStep r.userID r.now).next)] := by
      simp [Shared.step, List.lookup, rateLimitStep_halves]
    obtain ⟨h1, h2⟩ := ih (i + 1) ((s.step (.read i r)).step (.write i))
    simp only [serial, Shared.run, Middleware.run, Middleware.decisions, List.zip_cons_cons]
    rw [h1, h2, hstep.1, hstep.2]
    simp

/-- C19, as the code has it: the limiter has no lock, and the ceiling is enforced when the
handlers run one after the other. For every ceiling `limit ≥ 0`, every subject and every
sequence of requests at non-decreasing times served by the serial schedule from an
empty limiter, the decisions are those of the handler run on the requests in order, and
the number of accepted requests of the subject with a time in `(t - 60s, t]` is at most
`limit`, for every `t`. -/
theorem serial_handlers_keep_ceiling (limit : Int) (hlimit : 0 ≤ limit) (userID : String)
    (reqs : List Request) (hsorted : reqs.Pairwise (fun a b => a.now ≤ b.now)) (t : Int) :
    ((Shared.start (NewMiddleware limit)).run (serial 0 reqs)).decided
      = reqs.zip ((NewMiddleware limit).decisions reqs) ∧
    (((((Shared.start (NewMiddleware limit)).run (serial 0 reqs)).acceptedTimes
      userID).filter (fun a => decide (t - Minute < a ∧ a ≤ t))).length : Int) ≤ limit := by
  have hrun := (run_serial reqs 0 (Shared.start (NewMiddleware limit))).2
  simp only [Shared.start, List.nil_append] at hrun
  refine ⟨hrun, ?_⟩
  unfold Shared.acceptedTimes
  simp only [Shared.start] at hrun ⊢
  rw [hrun, accepted_zip]
  cases reqs with
  | nil => simpa [Middleware.acceptedTimes] using hlimit
  | cons r rs =>
    have h := acceptedTimes_bound limit userID (r :: rs) (NewMiddleware limit) [] r.now rfl
      (by intro a ha; cases ha)
      (by intro c _; rfl)
      (by intro t'; simpa using hlimit)
      (by
        intro r' hr'
        rw [List.mem_cons] at hr'
        rcases hr' with rfl | hr'
        · exact le_refl _
        · exact (List.pairwise_cons.mp hsorted).1 r' hr')
      hsorted t
    simpa using h

theorem serial_handlers_witness :
    ((Shared.start (NewMiddleware 1)).run (serial 0 [⟨"u1", 0⟩, ⟨"u1", 1⟩])).decided
      = [(⟨"u1", 0⟩, true), (⟨"u1", 1⟩, false)] ∧
    (((((Shared.start (NewMiddleware 1)).run (serial 0 [⟨"u1", 0⟩, ⟨"u1", 1⟩])).acceptedTimes
      "u1").filter (fun a => decide ((1 : Int) - Minute < a ∧ a ≤ 1))).length : Int) ≤ 1 :=
  serial_handlers_keep_ceiling 1 (by decide) "u1" [⟨"u1", 0⟩, ⟨"u1", 1⟩] (by decide) 1

/-- C19 fails as stated: with the ceiling 1, two requests of one subject one nanosecond
apart, whose handlers both read the map before either writes it, are both accepted, and
the map ends with the time of the second only (the update of the first is lost). Served
one after the other, the second is refused. -/
theorem interleaved_handlers_counterexample :
    ((Shared.start (NewMiddleware 1)).run
      [.read 0 ⟨"u1", 0⟩, .read 1 ⟨"u1", 1⟩, .write 0, .write 1]).decided
      = [(⟨"u1", 0⟩, true), (⟨"u1", 1⟩, true)] ∧
    ((Shared.start (NewMiddleware 1)).run
      [.read 0 ⟨"u1", 0⟩, .read 1 ⟨"u1", 1⟩, .write 0, .write 1]).m.window "u1" = [1] ∧
    ((((Shared.start (NewMiddleware 1)).run
      [.read 0 ⟨"u1", 0⟩, .read 1 ⟨"u1", 1⟩, .write 0, .write 1]).acceptedTimes "u1").filter
        (fun a => decide ((1 : Int) - Minute < a ∧ a ≤ 1))).length = 2 ∧
    ((Shared.start (NewMiddleware 1)).run
      [.read 0 ⟨"u1", 0⟩, .write 0, .read 1 ⟨"u1", 1⟩, .write 1]).decided
      = [(⟨"u1", 0⟩, true), (⟨"u1", 1⟩, false)] := by
  decide

end Fileuploader
